import Mathlib

/-!
# Verification of the `maze` repository core (`maze.py`)

A shallow embedding of the maze data model and algorithms of `src/maze.py`:
packed per-cell bit state, the compass of `Direction`s, Wilson's loop-erased
random-walk generator, the recursive-backtracker generator, the dead-end
backfill solver, and the start/end selection helpers.

Modelling conventions:
* A coordinate is a `List Int` (the source uses integer tuples; deltas can be
  negative, so components are `Int`).
* The cell array is a total function `Coord → Nat`; `Maze.clear` initialises
  it to the all-zero function and every write is a pointwise override.  Cells
  outside the grid are never written by guarded code paths, mirroring the
  numpy array.
* The numpy random generator `self.rand` is modelled as an injectable stream
  `rng : Nat → Nat` carried in the state; `rand.integers(n)` consumes one
  stream element and reduces it modulo `n`, and `rand.shuffle` consumes one
  stream element to select one of the list's permutations.  Quantifying over
  all streams captures "every outcome of the random choices".
* Python `while` loops and the recursion of `recurse_gen` are given explicit
  fuel and return `Option`; `none` means the fuel ran out (or a lookup that
  would raise in Python failed).  Statements about completed runs are
  conditioned on a `some` result.
* Events written to the log/callback are accumulated in an explicit list.
-/

namespace MazePy

/-- Bit constants of `class Maze` (maze.py lines 81-99). -/
def INMAZE : Nat := 1
def HIDDEN : Nat := 2
def SOLUTION : Nat := 4
def NOTSOLUTION : Nat := 8
def STATE : Nat := 15
def INUSE : Nat := INMAZE ||| HIDDEN
def E : Nat := 16
def NE : Nat := 32
def N : Nat := 64
def NW : Nat := 128
def W : Nat := 256
def SW : Nat := 512
def S : Nat := 1024
def SE : Nat := 2048
def U : Nat := 4096
def D : Nat := 8192
/-- `Maze.DIR`: the union of the ten direction bits. -/
def DIR : Nat := E ||| NE ||| N ||| NW ||| W ||| SW ||| S ||| SE ||| U ||| D

/-- A coordinate: one integer per axis (the source uses tuples of ints). -/
abbrev Coord := List Int

/-- `class Direction` (maze.py lines 69-74). -/
structure Direction where
  val : Nat
  opposite : Nat
  name : String
  deltas : List Int
deriving DecidableEq, Repr

/-- Python `c & ~m` on nonnegative ints: clear the bits of `m` in `c`. -/
def andNot (c m : Nat) : Nat := c ^^^ (c &&& m)

/-- Coordinate of the neighbor: `tuple(map(lambda i, j: i + j, start, deltas))`.
`map` over two iterables truncates to the shorter, like `zipWith`. -/
def step (c : Coord) (deltas : List Int) : Coord := List.zipWith (· + ·) c deltas

/-- An event reported through `Maze.event` (log line / callback payload).
`coords` collects the coordinate arguments, `vals` the cell-state arguments,
in the keyword order of the source call. -/
structure Event where
  kind : String
  coords : List Coord
  vals : List Nat
deriving DecidableEq, Repr

/-- The mutable state of a `Maze` object: the array shape, the cell array,
the compass (as the insertion-ordered direction list fed to `__init__`) and
the random stream. -/
structure Core where
  shape : List Nat
  cells : Coord → Nat
  compass : List Direction
  rng : Nat → Nat

/-- `Maze.inbound` (maze.py lines 537-541): arity check, then every component
within `[0, dim)`. -/
def inbound (shape : List Nat) (c : Coord) : Bool :=
  c.length == shape.length &&
  (List.zip c shape).all fun p => decide (0 ≤ p.1) && decide (p.1 < (p.2 : Int))

/-- All in-bounds coordinates of a shape in C (row-major) order: the first
axis varies slowest, matching `numpy.nonzero` enumeration order. -/
def allCoords : List Nat → List Coord
  | [] => [[]]
  | n :: rest => (List.range n).flatMap fun i =>
      (allCoords rest).map fun c => ((i : Int) :: c)

/-- `dict` lookup `self.compass[v]`: the value of the last insertion wins. -/
def compassGet (compass : List Direction) (v : Nat) : Option Direction :=
  compass.reverse.find? fun d => d.val == v

/-- `list(self.compass.keys())`: insertion order, first occurrence kept. -/
def compassKeys (compass : List Direction) : List Nat :=
  (compass.map (·.val)).eraseDups

/-- `self.rand.integers(n)`: consume one stream element, reduce mod `n`. -/
def draw (s : Core) (n : Nat) : Nat × Core :=
  (s.rng 0 % n, { s with rng := fun k => s.rng (k + 1) })

/-- `self.rand.shuffle(l)`: consume one stream element to pick one of the
permutations of `l`. -/
def shuffle (s : Core) {α : Type} (l : List α) : List α × Core :=
  let perms := l.permutations
  let (i, s') := draw s perms.length
  (perms.getD i l, s')

/-- Write one cell of the array. -/
def setCell (s : Core) (c : Coord) (v : Nat) : Core :=
  { s with cells := fun c' => if c' = c then v else s.cells c' }

/-- `Maze.clean` (maze.py lines 523-525): keep only the `HIDDEN` bit. -/
def clean (s : Core) : Core :=
  { s with cells := fun c => s.cells c &&& HIDDEN }

/-- `Maze.unsolve` (maze.py lines 527-529). -/
def unsolve (s : Core) : Core :=
  { s with cells := fun c => andNot (s.cells c) (SOLUTION ||| NOTSOLUTION) }

/-- Loop of `Maze.bits`, with structural fuel so that it evaluates by kernel
reduction.  The loop variable strictly decreases (`(n-1) & n` clears the
lowest set bit), so fuel `n` always suffices; see `bits_eq`. -/
def bitsGo : Nat → Nat → List Nat
  | _, 0 => []
  | 0, _ + 1 => []
  | fuel + 1, n + 1 =>
      let i := n &&& (n + 1)
      (i ^^^ (n + 1)) :: bitsGo fuel i

/-- `Maze.bits` (maze.py lines 567-573): split a packed integer into its
individual set bits, lowest first. -/
def bits (n : Nat) : List Nat := bitsGo n n

/-- `Maze.Orthogonal2D` (maze.py lines 496-502). -/
def Orthogonal2D : List Direction :=
  [ ⟨N, S, "North", [0, -1]⟩,
    ⟨E, W, "East",  [1, 0]⟩,
    ⟨S, N, "South", [0, 1]⟩,
    ⟨W, E, "West",  [-1, 0]⟩ ]

/-- `Maze.Orthogonal3D` (maze.py lines 503-511). -/
def Orthogonal3D : List Direction :=
  [ ⟨N, S, "North", [0, 1, 0]⟩,
    ⟨E, W, "East",  [1, 0, 0]⟩,
    ⟨S, N, "South", [0, -1, 0]⟩,
    ⟨W, E, "West",  [-1, 0, 0]⟩,
    ⟨U, D, "Up",    [0, 0, -1]⟩,
    ⟨D, U, "Down",  [0, 0, 1]⟩ ]

/-- `Maze.Hexagonal2D` (maze.py lines 512-521). -/
def Hexagonal2D : List Direction :=
  [ ⟨NE, SW, "NE", [1, 0]⟩,
    ⟨N,  S,  "N",  [0, -1]⟩,
    ⟨NW, SE, "NW", [-1, 0]⟩,
    ⟨SW, NE, "SW", [-1, 1]⟩,
    ⟨S,  N,  "S",  [0, 1]⟩,
    ⟨SE, NW, "SE", [1, 1]⟩ ]

/-- `Maze.__init__` (maze.py lines 543-565).  Allocates the all-zero cell
array, selects the default topology when `directions` is `none`, and raises
(`Option.none` here) only when no default applies.  Supplied directions are
stored without any validation. -/
def mazeInit (shape : List Nat) (directions : Option (List Direction))
    (rng : Nat → Nat) : Option Core :=
  let n := shape.length
  match directions with
  | some dirs => some { shape := shape, cells := fun _ => 0, compass := dirs, rng := rng }
  | none =>
      if n = 2 ∨ (n = 3 ∧ shape.getD 2 0 = 1) then
        some { shape := shape, cells := fun _ => 0, compass := Orthogonal2D, rng := rng }
      else if n = 3 then
        some { shape := shape, cells := fun _ => 0, compass := Orthogonal3D, rng := rng }
      else
        none

/-- The in-bounds cells with neither `INMAZE` nor `HIDDEN` set, in the numpy
`nonzero` enumeration order: `((self.cells & Maze.INUSE) == 0).nonzero()`. -/
def emptyCells (s : Core) : List Coord :=
  (allCoords s.shape).filter fun c => s.cells c &&& INUSE == 0

/-- `coord = map(lambda x: 0, shape)` of `random_start`. -/
def zerosOf (shape : List Nat) : Coord := shape.map fun _ => 0

/-- `coord = map(lambda x: max(0, x-1), shape)` of `random_end`. -/
def maxesOf (shape : List Nat) : Coord := shape.map fun y => max 0 (Int.ofNat y - 1)

/-- The `possible` list of `random_start`: the non-hidden cells along axis 0
with every other coordinate `0`, in axis order. -/
def startPossible (s : Core) : List Coord :=
  (List.range (s.shape.getD 0 0)).filterMap fun x =>
    if s.cells (Int.ofNat x :: (zerosOf s.shape).tail) &&& HIDDEN = 0
    then some (Int.ofNat x :: (zerosOf s.shape).tail) else none

/-- The `possible` list of `random_end`: the non-hidden cells along axis 0
with every other coordinate at its maximum, in axis order. -/
def endPossible (s : Core) : List Coord :=
  (List.range (s.shape.getD 0 0)).filterMap fun x =>
    if s.cells (Int.ofNat x :: (maxesOf s.shape).tail) &&& HIDDEN = 0
    then some (Int.ofNat x :: (maxesOf s.shape).tail) else none

/-- `Maze.random_start` (maze.py lines 294-321).  Returns the chosen start
coordinate together with the updated state and the emitted events. -/
def random_start (s : Core) (st : Option Coord) : Coord × Core × List Event :=
  match st with
  | some c => (c, s, [])
  | none =>
    let n := s.shape.length
    if n < 2 ∨ n > 3 then
      (zerosOf s.shape, s, [⟨"random-start", [zerosOf s.shape], []⟩])
    else
      let possible := startPossible s
      if possible.isEmpty then
        let coord : Coord := (0 : Int) :: (zerosOf s.shape).tail
        (coord, s, [⟨"random-start", [coord], []⟩])
      else
        let sh := shuffle s possible
        let coord := sh.1.getD 0 (zerosOf s.shape)
        (coord, sh.2, [⟨"random-start", [coord], []⟩])

/-- `Maze.random_end` (maze.py lines 323-351).  Note the `n < 2 ∨ n > 3`
branch of the source emits a `random-start` event (copy-paste slip kept). -/
def random_end (s : Core) (en : Option Coord) : Coord × Core × List Event :=
  match en with
  | some c => (c, s, [])
  | none =>
    let n := s.shape.length
    if n < 2 ∨ n > 3 then
      (maxesOf s.shape, s, [⟨"random-start", [maxesOf s.shape], []⟩])
    else
      let maxx : Int := (maxesOf s.shape).getD 0 0
      let possible := endPossible s
      if possible.isEmpty then
        let coord : Coord := maxx :: (maxesOf s.shape).tail
        (coord, s, [⟨"random-end", [coord], []⟩])
      else
        let sh := shuffle s possible
        let coord := sh.1.getD 0 (maxesOf s.shape)
        (coord, sh.2, [⟨"random-end", [coord], []⟩])

/-- The `for direction in directions` loop of `Maze.recurse_gen`
(maze.py lines 275-292), parameterized by the recursive call `rg`. -/
def recurse_list (rg : Core → Coord → Option (Core × List Event)) (s : Core)
    (current : Coord) : List Nat → Option (Core × List Event)
  | [] => some (s, [])
  | dv :: rest =>
    match compassGet s.compass dv with
    | none => none
    | some d =>
      let neigh := step current d.deltas
      if !(inbound s.shape neigh) || (s.cells neigh &&& INUSE != 0) then
        recurse_list rg s current rest
      else
        let s1 := setCell s current (s.cells current ||| dv)
        let ev1 : Event := ⟨"mark-cell", [current], [s1.cells current]⟩
        let s2 := setCell s1 neigh (s1.cells neigh ||| (INMAZE ||| d.opposite))
        match rg s2 neigh with
        | none => none
        | some (s3, ev2) =>
          match recurse_list rg s3 current rest with
          | none => none
          | some (s4, ev3) => some (s4, ev1 :: (ev2 ++ ev3))

/-- `Maze.recurse_gen` (maze.py lines 267-292), given recursion fuel. -/
def recurse_gen : Nat → Core → Coord → Option (Core × List Event)
  | 0, _, _ => none
  | fuel + 1, s, current =>
    let s1 := setCell s current (s.cells current ||| INMAZE)
    let ev0 : Event := ⟨"mark-cell", [current], [s1.cells current]⟩
    let sh := shuffle s1 (compassKeys s1.compass)
    match recurse_list (recurse_gen fuel) sh.2 current sh.1 with
    | none => none
    | some (s3, evs) => some (s3, ev0 :: evs)

/-- The `while empties` loop of `Maze.recursive_generate`
(maze.py lines 256-265). -/
def recursive_loop : Nat → Core → Option (Core × List Event)
  | fuel, s =>
    let empties := emptyCells s
    if empties.isEmpty then some (s, [⟨"generated", [], []⟩])
    else
      match fuel with
      | 0 => none
      | fuel + 1 =>
        let dr := draw s empties.length
        let current := empties.getD dr.1 []
        match recurse_gen fuel dr.2 current with
        | none => none
        | some (s2, evs) =>
          match recursive_loop fuel s2 with
          | none => none
          | some (s3, evs2) => some (s3, evs ++ evs2)

/-- `Maze.recursive_generate` (maze.py lines 248-265). -/
def recursive_generate (fuel : Nat) (s : Core) : Option (Core × List Event) :=
  let s1 := clean s
  match recursive_loop fuel s1 with
  | none => none
  | some (s2, evs) => some (s2, ⟨"generating", [], []⟩ :: evs)

/-- `clearpath` inside `Maze.wilsons_generate` (maze.py lines 105-119):
follow the recorded arrows from `start` to `e`, erasing them. -/
def clearpath : Nat → Core → Coord → Coord → Option (Core × List Event)
  | fuel, s, start, e =>
    if start = e then some (s, [])
    else
      match fuel with
      | 0 => none
      | fuel + 1 =>
        let direction := s.cells start &&& DIR
        let s1 := setCell s start (andNot (s.cells start) DIR)
        match compassGet s1.compass direction with
        | none => none
        | some d =>
          let neigh := step start d.deltas
          let ev : Event := ⟨"clear-cell", [start], [s1.cells start]⟩
          match clearpath fuel s1 neigh e with
          | none => none
          | some (s2, evs) => some (s2, ev :: evs)

/-- `markpath` inside `Maze.wilsons_generate` (maze.py lines 120-141):
follow the arrows from `start` to `e`, marking each cell `INMAZE` and adding
the opposite of the previous arrow; finally or the last opposite into `e`.
`opposite` is the loop-carried accumulator (initially `0`). -/
def markpath : Nat → Core → Coord → Coord → Nat → Option (Core × List Event)
  | fuel, s, start, e, opposite =>
    if start = e then some (setCell s e (s.cells e ||| opposite), [])
    else
      match fuel with
      | 0 => none
      | fuel + 1 =>
        let direction := s.cells start &&& DIR
        let s1 := setCell s start (s.cells start ||| (opposite ||| INMAZE))
        match compassGet s1.compass direction with
        | none => none
        | some d =>
          let neigh := step start d.deltas
          let ev : Event := ⟨"mark-cell", [start], [s1.cells start]⟩
          match markpath fuel s1 neigh e d.opposite with
          | none => none
          | some (s2, evs) => some (s2, ev :: evs)

/-- The `while walking` loop of `walk` inside `Maze.wilsons_generate`
(maze.py lines 149-211). -/
def walkLoop : Nat → Core → Coord → Coord → Option (Core × List Event)
  | 0, _, _, _ => none
  | fuel + 1, s, start, current =>
    let directions := compassKeys s.compass
    if directions.isEmpty then none
    else
      let dr := draw s directions.length
      let s0 := dr.2
      let dv := directions.getD dr.1 0
      match compassGet s0.compass dv with
      | none => none
      | some d =>
        let neigh := step current d.deltas
        if !(inbound s0.shape neigh) || (s0.cells neigh &&& HIDDEN != 0) then
          walkLoop fuel s0 start current
        else if s0.cells neigh &&& INMAZE != 0 then
          let s1 := setCell s0 current (andNot (s0.cells current) DIR ||| dv)
          let ev : Event :=
            ⟨"walk-end", [current, neigh], [s1.cells current, s1.cells neigh]⟩
          match markpath fuel s1 start neigh 0 with
          | none => none
          | some (s2, evs) => some (s2, ev :: evs)
        else if s0.cells neigh &&& DIR != 0 then
          let ev : Event :=
            ⟨"walk-loop", [current, neigh], [s0.cells current, s0.cells neigh]⟩
          let s1 := setCell s0 current (andNot (s0.cells current) DIR ||| dv)
          match clearpath fuel s1 neigh current with
          | none => none
          | some (s2, evs) =>
            let s3 := setCell s2 current (andNot (s2.cells current) DIR)
            match walkLoop fuel s3 start neigh with
            | none => none
            | some (s4, evs2) => some (s4, ev :: (evs ++ evs2))
        else
          let s1 := setCell s0 current (andNot (s0.cells current) DIR ||| dv)
          let ev : Event :=
            ⟨"walk-step", [current, neigh], [s1.cells current, s1.cells neigh]⟩
          match walkLoop fuel s1 start neigh with
          | none => none
          | some (s2, evs) => some (s2, ev :: evs)

/-- `walk` inside `Maze.wilsons_generate` (maze.py lines 103-214). -/
def walk (fuel : Nat) (s : Core) (start : Coord) : Option (Core × List Event) :=
  let ev : Event := ⟨"walk-start", [start], [s.cells start]⟩
  match walkLoop fuel s start start with
  | none => none
  | some (s1, evs) => some (s1, ev :: (evs ++ [⟨"walked", [], []⟩]))

/-- The `while empties` loop of `Maze.wilsons_generate`
(maze.py lines 239-245). -/
def wilsons_loop : Nat → Core → Option (Core × List Event)
  | fuel, s =>
    let empties := emptyCells s
    if empties.isEmpty then some (s, [⟨"generated", [], []⟩])
    else
      match fuel with
      | 0 => none
      | fuel + 1 =>
        let dr := draw s empties.length
        let coord := empties.getD dr.1 []
        match walk fuel dr.2 coord with
        | none => none
        | some (s2, evs) =>
          match wilsons_loop fuel s2 with
          | none => none
          | some (s3, evs2) => some (s3, evs ++ evs2)

/-- `Maze.wilsons_generate` (maze.py lines 101-246). -/
def wilsons_generate (fuel : Nat) (s : Core) : Option (Core × List Event) :=
  let s1 := clean s
  let ev0 : Event := ⟨"generating", [], []⟩
  let empties := emptyCells s1
  if empties.isEmpty then
    match wilsons_loop fuel s1 with
    | none => none
    | some (s2, evs) => some (s2, ev0 :: evs)
  else
    let dr := draw s1 empties.length
    let coord := empties.getD dr.1 []
    let s3 := setCell dr.2 coord INMAZE
    let ev1 : Event := ⟨"mark-cell", [coord], [s3.cells coord]⟩
    match wilsons_loop fuel s3 with
    | none => none
    | some (s4, evs) => some (s4, ev0 :: ev1 :: evs)

/-- `countdoors` inside `Maze.deadend_solve` (maze.py lines 360-361). -/
def countdoors (v : Nat) : Nat := (bits (v &&& DIR)).length

/-- `backfill` inside `Maze.deadend_solve` (maze.py lines 362-382).
`orig` is `self.cells` (read only for the event payload); the scratch array
`copy` is threaded explicitly. -/
def backfill (compass : List Direction) (orig : Coord → Nat) (start e : Coord) :
    Nat → (Coord → Nat) → Coord → Option ((Coord → Nat) × List Event)
  | fuel, copy, dead =>
    if countdoors (copy dead) = 1 then
      match fuel with
      | 0 => none
      | fuel + 1 =>
        let copy1 := fun c => if c = dead then copy dead ||| NOTSOLUTION else copy c
        let ev : Event := ⟨"dead-end", [dead], [orig dead]⟩
        let direction := copy1 dead &&& DIR
        match compassGet compass direction with
        | none => none
        | some d =>
          let neigh := step dead d.deltas
          let copy2 := fun c => if c = dead then andNot (copy1 dead) direction else copy1 c
          let copy3 := fun c => if c = neigh then andNot (copy2 neigh) d.opposite else copy2 c
          if neigh = start ∨ neigh = e then some (copy3, [ev])
          else
            match backfill compass orig start e fuel copy3 neigh with
            | none => none
            | some (cp, evs) => some (cp, ev :: evs)
    else some (copy, [])

/-- One round's dead-end list: in-bounds cells of the scratch copy with door
count exactly one, minus `start` and `e`, in numpy `nonzero` order. -/
def deadendList (shape : List Nat) (copy : Coord → Nat) (start e : Coord) :
    List Coord :=
  ((allCoords shape).filter fun c => countdoors (copy c) == 1).filter
    fun c => ¬(c = start) ∧ ¬(c = e)

/-- The `for dead in deadlist` loop of `Maze.deadend_solve`
(maze.py lines 406-407). -/
def processDeads (compass : List Direction) (orig : Coord → Nat)
    (start e : Coord) (fuel : Nat) :
    (Coord → Nat) → List Coord → Option ((Coord → Nat) × List Event)
  | copy, [] => some (copy, [])
  | copy, dd :: rest =>
    match backfill compass orig start e fuel copy dd with
    | none => none
    | some (cp, evs) =>
      match processDeads compass orig start e fuel cp rest with
      | none => none
      | some (cp2, evs2) => some (cp2, evs ++ evs2)

/-- The `while True` round loop of `Maze.deadend_solve`
(maze.py lines 393-407). -/
def deadendLoop (start e : Coord) :
    Nat → Core → (Coord → Nat) → Option (Core × (Coord → Nat) × List Event)
  | fuel, s, copy =>
    let deadlist := deadendList s.shape copy start e
    if deadlist.isEmpty then some (s, copy, [])
    else
      match fuel with
      | 0 => none
      | fuel + 1 =>
        let sh := shuffle s deadlist
        match processDeads sh.2.compass sh.2.cells start e fuel copy sh.1 with
        | none => none
        | some (cp, evs) =>
          match deadendLoop start e fuel sh.2 cp with
          | none => none
          | some (s2, cp2, evs2) => some (s2, cp2, evs ++ evs2)

/-- `Maze.deadend_solve` (maze.py lines 359-419). -/
def deadend_solve (fuel : Nat) (s : Core) (st en : Option Coord) :
    Option (Core × List Event) :=
  let r1 := random_start s st
  let r2 := random_end r1.2.1 en
  match deadendLoop r1.1 r2.1 fuel r2.2.1 r2.2.1.cells with
  | none => none
  | some (s3, cp, evs) =>
    let solution :=
      (allCoords s3.shape).filter fun c => cp c &&& (NOTSOLUTION ||| HIDDEN) == 0
    let evsSol := solution.map fun c => (⟨"solution", [c], [s3.cells c]⟩ : Event)
    some (s3, r1.2.2 ++ r2.2.2 ++ evs ++ evsSol ++ [⟨"solved", [r1.1, r2.1], []⟩])

/-! ## Properties of `Maze.bits` (claim C8) -/

lemma testBit_two_mul_zero (m : Nat) : (2 * m).testBit 0 = false := by
  rw [Nat.testBit_zero]
  simp only [decide_eq_false_iff_not]
  omega

lemma testBit_two_mul_succ (m i : Nat) : (2 * m).testBit (i + 1) = m.testBit i := by
  rw [Nat.testBit_succ]
  congr 1
  omega

lemma testBit_two_mul_add_one_zero (m : Nat) : (2 * m + 1).testBit 0 = true := by
  rw [Nat.testBit_zero]
  simp only [decide_eq_true_eq]
  omega

lemma testBit_two_mul_add_one_succ (m i : Nat) :
    (2 * m + 1).testBit (i + 1) = m.testBit i := by
  rw [Nat.testBit_succ]
  congr 1
  omega

lemma land_pred_odd (m : Nat) : (2 * m) &&& (2 * m + 1) = 2 * m := by
  apply Nat.eq_of_testBit_eq
  intro i
  cases i with
  | zero => simp [Nat.testBit_land, testBit_two_mul_zero]
  | succ i =>
      simp [Nat.testBit_land, testBit_two_mul_succ, testBit_two_mul_add_one_succ]

lemma xor_two_mul_succ_self (m : Nat) : (2 * m) ^^^ (2 * m + 1) = 1 := by
  apply Nat.eq_of_testBit_eq
  intro i
  cases i with
  | zero =>
      rw [Nat.testBit_xor, testBit_two_mul_zero, testBit_two_mul_add_one_zero,
        Nat.testBit_zero]
      rfl
  | succ i =>
      rw [Nat.testBit_xor, testBit_two_mul_succ, testBit_two_mul_add_one_succ,
        Nat.testBit_succ]
      simp

lemma land_pred_even (m : Nat) (hm : m ≠ 0) :
    (2 * m - 1) &&& (2 * m) = 2 * ((m - 1) &&& m) := by
  have h : 2 * m - 1 = 2 * (m - 1) + 1 := by omega
  rw [h]
  apply Nat.eq_of_testBit_eq
  intro i
  cases i with
  | zero =>
      simp [Nat.testBit_land, testBit_two_mul_zero, testBit_two_mul_add_one_zero]
  | succ i =>
      simp [Nat.testBit_land, testBit_two_mul_succ, testBit_two_mul_add_one_succ]

lemma xor_two_mul (a b : Nat) : (2 * a) ^^^ (2 * b) = 2 * (a ^^^ b) := by
  apply Nat.eq_of_testBit_eq
  intro i
  cases i with
  | zero => simp [Nat.testBit_xor, testBit_two_mul_zero]
  | succ i => simp [Nat.testBit_xor, testBit_two_mul_succ]

lemma bitsGo_fuel (f1 : Nat) : ∀ f2 n : Nat, n ≤ f1 → n ≤ f2 →
    bitsGo f1 n = bitsGo f2 n := by
  induction f1 with
  | zero =>
      intro f2 n h1 _
      have : n = 0 := by omega
      subst this
      cases f2 <;> rfl
  | succ f1 ih =>
      intro f2 n h1 h2
      cases n with
      | zero => cases f2 <;> rfl
      | succ n =>
          cases f2 with
          | zero => omega
          | succ f2 =>
              simp only [bitsGo]
              congr 1
              exact ih f2 (n &&& (n + 1))
                (le_trans Nat.and_le_left (by omega))
                (le_trans Nat.and_le_left (by omega))

/-- The source's recursion equation for `bits`. -/
lemma bits_eq (n : Nat) :
    bits n = if n = 0 then []
      else (((n - 1) &&& n) ^^^ n) :: bits ((n - 1) &&& n) := by
  cases n with
  | zero => rfl
  | succ n =>
      simp only [bits, bitsGo, Nat.succ_ne_zero, if_false, Nat.succ_sub_one]
      congr 1
      exact bitsGo_fuel n _ _ Nat.and_le_left (le_refl _)

theorem bits_zero : bits 0 = [] := rfl

lemma bits_odd (m : Nat) : bits (2 * m + 1) = 1 :: bits (2 * m) := by
  rw [bits_eq]
  have h1 : (2 * m + 1 - 1) &&& (2 * m + 1) = 2 * m := land_pred_odd m
  simp only [Nat.add_eq_zero, and_false, if_false, h1, xor_two_mul_succ_self,
    Nat.add_one_ne_zero]

lemma bits_even : ∀ n m : Nat, n = 2 * m → bits n = (bits m).map (2 * ·) := by
  intro n
  induction n using Nat.strong_induction_on with
  | _ n ih =>
    intro m hm
    subst hm
    rcases Nat.eq_zero_or_pos m with hm0 | hm0
    · subst hm0
      simp [bits_zero]
    · have hne : 2 * m ≠ 0 := by omega
      have hmne : m ≠ 0 := by omega
      rw [bits_eq (2 * m), bits_eq m]
      simp only [hne, if_false, hmne]
      have h1 : (2 * m - 1) &&& (2 * m) = 2 * ((m - 1) &&& m) := land_pred_even m hmne
      have hlt : 2 * ((m - 1) &&& m) < 2 * m := by
        have := @Nat.and_le_left (m - 1) m
        omega
      rw [h1, ih (2 * ((m - 1) &&& m)) hlt _ rfl, xor_two_mul]
      simp

lemma sum_map_two_mul (l : List Nat) : (l.map (2 * ·)).sum = 2 * l.sum := by
  induction l with
  | nil => simp
  | cons a l ih => simp [ih]; ring

/-- Full correctness of `Maze.bits`: the output is duplicate-free, sums to
the input, and its members are exactly the powers of two at the set bit
positions of the input. -/
theorem bits_spec (n : Nat) :
    (bits n).Nodup ∧ (bits n).sum = n ∧
    (∀ b, b ∈ bits n ↔ ∃ k, b = 2 ^ k ∧ n.testBit k = true) := by
  induction n using Nat.strong_induction_on with
  | _ n ih =>
    rcases Nat.even_or_odd' n with ⟨m, hm | hm⟩
    · subst hm
      rcases Nat.eq_zero_or_pos m with hm0 | hm0
      · subst hm0
        refine ⟨by simp [bits_zero], by simp [bits_zero], ?_⟩
        intro b
        simp [bits_zero, Nat.testBit]
      · have hmlt : m < 2 * m := by omega
        obtain ⟨hnd, hsum, hmem⟩ := ih m hmlt
        rw [bits_even (2 * m) m rfl]
        refine ⟨?_, ?_, ?_⟩
        · exact hnd.map fun a b hab => by omega
        · rw [sum_map_two_mul, hsum]
        · intro b
          constructor
          · intro hb
            obtain ⟨b', hb', rfl⟩ := List.mem_map.mp hb
            obtain ⟨k, rfl, hk⟩ := (hmem b').mp hb'
            exact ⟨k + 1, by rw [pow_succ]; ring, by
              rw [testBit_two_mul_succ]; exact hk⟩
          · rintro ⟨k, rfl, hk⟩
            cases k with
            | zero =>
                rw [testBit_two_mul_zero] at hk
                exact absurd hk (by simp)
            | succ k =>
                rw [testBit_two_mul_succ] at hk
                refine List.mem_map.mpr ⟨2 ^ k, (hmem _).mpr ⟨k, rfl, hk⟩, ?_⟩
                rw [pow_succ]
                ring
    · subst hm
      have hlt : 2 * m < 2 * m + 1 := by omega
      obtain ⟨hnd, hsum, hmem⟩ := ih (2 * m) hlt
      rw [bits_odd]
      refine ⟨?_, ?_, ?_⟩
      · refine List.nodup_cons.mpr ⟨fun h1 => ?_, hnd⟩
        obtain ⟨k, hk1, hk2⟩ := (hmem 1).mp h1
        have hk0 : k = 0 := by
          by_contra hk0
          have := Nat.one_lt_two_pow_iff.mpr hk0
          omega
        subst hk0
        rw [testBit_two_mul_zero] at hk2
        exact absurd hk2 (by simp)
      · simp [hsum]
        omega
      · intro b
        constructor
        · intro hb
          rcases List.mem_cons.mp hb with rfl | hb
          · exact ⟨0, by norm_num, testBit_two_mul_add_one_zero m⟩
          · obtain ⟨k, rfl, hk⟩ := (hmem _).mp hb
            cases k with
            | zero =>
                rw [testBit_two_mul_zero] at hk
                exact absurd hk (by simp)
            | succ k =>
                rw [testBit_two_mul_succ] at hk
                exact ⟨k + 1, rfl, by rw [testBit_two_mul_add_one_succ]; exact hk⟩
        · rintro ⟨k, rfl, hk⟩
          cases k with
          | zero => simp
          | succ k =>
              rw [testBit_two_mul_add_one_succ] at hk
              refine List.mem_cons.mpr (Or.inr ((hmem _).mpr ⟨k + 1, rfl, ?_⟩))
              rw [testBit_two_mul_succ]
              exact hk

/-- C8: for every non-negative integer mask, `bits` (the source's
`decompose_bits`) returns a duplicate-free list containing exactly the
individual set bits of the mask — each member a power of two at a set bit
position, no set bit missing, the members summing back to the mask — and
`bits 0 = []`. -/
theorem C8_bits_decomposition :
    (∀ n : Nat, (bits n).Nodup ∧ (bits n).sum = n ∧
      (∀ b, b ∈ bits n ↔ ∃ k, b = 2 ^ k ∧ n.testBit k = true)) ∧
    bits 0 = [] :=
  ⟨bits_spec, bits_zero⟩

/-- Witness for C8 at the spec's own scenario: a mask with the `N`, `E` and
`Up` bits set decomposes into exactly those three bit values. -/
theorem C8_bits_decomposition_witness :
    (bits (N ||| E ||| U)).Nodup ∧ (bits (N ||| E ||| U)).sum = N ||| E ||| U ∧
    (16 ∈ bits (N ||| E ||| U) ↔ ∃ k, (16 : Nat) = 2 ^ k ∧
      (N ||| E ||| U).testBit k = true) ∧
    bits (N ||| E ||| U) = [16, 64, 4096] :=
  ⟨(C8_bits_decomposition.1 (N ||| E ||| U)).1,
   (C8_bits_decomposition.1 (N ||| E ||| U)).2.1,
   (C8_bits_decomposition.1 (N ||| E ||| U)).2.2 16,
   by decide⟩

/-! ## Construction-time validation (claim C4) -/

/-- A direction whose delta arity does not match a 2-axis grid and whose
`opposite` value is not the bit value of any compass member. -/
def badDir : Direction := ⟨16, 999, "X", [1, 0, 0]⟩

/-- C4 counterexample: constructing a maze over a 2×2 grid with a compass
whose only direction has a 3-component delta vector and an `opposite` value
that is no compass key succeeds — `__init__` performs no validation of
supplied directions, contradicting the claim that such configurations fail
at construction. -/
theorem C4_counterexample :
    (mazeInit [2, 2] (some [badDir]) (fun _ => 0)).isSome = true ∧
    badDir.deltas.length ≠ [2, 2].length ∧
    (∀ d ∈ [badDir], d.val ≠ badDir.opposite) :=
  ⟨rfl, by decide, by decide⟩

/-- C4 amended: construction fails (raises `ValueError`, `none` here) exactly
when the direction list is omitted and the grid dimensionality is neither 2
nor 3; supplied direction lists are stored without any validation of delta
arity or opposite closure. -/
theorem C4_amended (shape : List Nat) (dirs : Option (List Direction))
    (rng : Nat → Nat) :
    mazeInit shape dirs rng = none ↔
      dirs = none ∧ shape.length ≠ 2 ∧ shape.length ≠ 3 := by
  cases dirs with
  | some l => simp [mazeInit]
  | none =>
      simp only [mazeInit, true_and]
      split_ifs with h1 h2
      · simp only [false_iff]
        intro h
        rcases h1 with h1 | h1
        · exact h.1 h1
        · exact h.2 h1.1
      · simp only [false_iff]
        intro h
        exact h.2 h2
      · simp only [true_iff]
        constructor
        · intro h
          exact h1 (Or.inl h)
        · exact h2

/-- Witness for C4 amended: a 1-axis grid with no supplied directions fails;
a 2-axis grid succeeds. -/
theorem C4_amended_witness :
    (mazeInit [5] none (fun _ => 0) = none) ∧
    ¬(mazeInit [2, 2] none (fun _ => 0) = none) :=
  ⟨(C4_amended [5] none (fun _ => 0)).mpr ⟨rfl, by decide, by decide⟩,
   fun h => by
     have := (C4_amended [2, 2] none (fun _ => 0)).mp h
     exact absurd this.2.1 (by decide)⟩

/-! ## Opposites in the built-in topologies (claim C10) -/

/-- C10 counterexample: in `Hexagonal2D`, the `NE` direction's opposite `SW`
is present, but `SW`'s delta vector `[-1, 1]` is not the negation of `NE`'s
`[1, 0]`; stepping `NE` then `SW` from the origin lands on `[0, 1]`, not
back at the origin. -/
theorem C10_counterexample :
    (⟨NE, SW, "NE", [1, 0]⟩ : Direction) ∈ Hexagonal2D ∧
    (∀ d' ∈ Hexagonal2D, d'.val = SW → d'.deltas = [-1, 1]) ∧
    [-1, 1] ≠ ([1, 0] : List Int).map (fun x => -x) ∧
    step (step [0, 0] [1, 0]) [-1, 1] = [0, 1] := by
  refine ⟨by decide, by decide, by decide, by decide⟩

/-- C10 amended: in `Orthogonal2D` and `Orthogonal3D` every direction's
opposite bit value belongs to a compass member whose delta vector is the
componentwise negation (so stepping there and back returns to the start);
in `Hexagonal2D` the opposite of every direction is present as a key (with
the involution property), and the delta-negation property holds for the
`N`/`S` pair but fails for all four diagonal directions. -/
theorem C10_amended :
    (∀ d ∈ Orthogonal2D, ∃ d' ∈ Orthogonal2D, d'.val = d.opposite ∧
      d'.opposite = d.val ∧ d'.deltas = d.deltas.map (fun x => -x)) ∧
    (∀ d ∈ Orthogonal3D, ∃ d' ∈ Orthogonal3D, d'.val = d.opposite ∧
      d'.opposite = d.val ∧ d'.deltas = d.deltas.map (fun x => -x)) ∧
    (∀ d ∈ Hexagonal2D, ∃ d' ∈ Hexagonal2D, d'.val = d.opposite ∧
      d'.opposite = d.val) ∧
    (∀ d ∈ Hexagonal2D, (d.val = N ∨ d.val = S) →
      ∃ d' ∈ Hexagonal2D, d'.val = d.opposite ∧
        d'.deltas = d.deltas.map (fun x => -x)) ∧
    (∀ d ∈ Hexagonal2D, (d.val = NE ∨ d.val = NW ∨ d.val = SW ∨ d.val = SE) →
      ∀ d' ∈ Hexagonal2D, d'.val = d.opposite →
        d'.deltas ≠ d.deltas.map (fun x => -x)) := by
  refine ⟨by decide, by decide, by decide, by decide, by decide⟩

/-! ## Pure-function utility lemmas shared below -/

lemma setCell_cells (s : Core) (c : Coord) (v : Nat) (c' : Coord) :
    (setCell s c v).cells c' = if c' = c then v else s.cells c' := rfl

lemma setCell_cells_self (s : Core) (c : Coord) (v : Nat) :
    (setCell s c v).cells c = v := by simp [setCell]

lemma setCell_cells_ne (s : Core) (c : Coord) (v : Nat) (c' : Coord)
    (h : c' ≠ c) : (setCell s c v).cells c' = s.cells c' := by
  simp [setCell, h]

lemma setCell_shape (s : Core) (c : Coord) (v : Nat) :
    (setCell s c v).shape = s.shape := rfl

lemma setCell_compass (s : Core) (c : Coord) (v : Nat) :
    (setCell s c v).compass = s.compass := rfl

lemma setCell_rng (s : Core) (c : Coord) (v : Nat) :
    (setCell s c v).rng = s.rng := rfl

lemma draw_lt (s : Core) (n : Nat) (hn : 0 < n) : (draw s n).1 < n :=
  Nat.mod_lt _ hn

lemma shuffle_perm (s : Core) {α : Type} (l : List α) :
    (shuffle s l).1.Perm l := by
  unfold shuffle draw
  simp only
  rcases Nat.lt_or_ge (s.rng 0 % l.permutations.length) l.permutations.length
    with h | h
  · rw [List.getD_eq_getElem _ _ h]
    exact List.mem_permutations.mp (List.getElem_mem h)
  · rw [List.getD_eq_default _ _ h]

lemma shuffle_mem (s : Core) {α : Type} (l : List α) (a : α) :
    a ∈ (shuffle s l).1 ↔ a ∈ l :=
  (shuffle_perm s l).mem_iff

/-! ## Default start/end selection (claim C5) -/

/-- The cell at position `x` along axis 0 with every other coordinate `0`
(the candidate line actually scanned by `random_start`). -/
def axisLine0 (s : Core) (x : Nat) : Coord :=
  Int.ofNat x :: (zerosOf s.shape).tail

/-- The cell at position `x` along axis 0 with every other coordinate at its
maximum (the candidate line actually scanned by `random_end`). -/
def axisLineMax (s : Core) (x : Nat) : Coord :=
  Int.ofNat x :: (maxesOf s.shape).tail

lemma mem_startPossible (s : Core) (c : Coord) :
    c ∈ startPossible s ↔ ∃ x, x < s.shape.getD 0 0 ∧ c = axisLine0 s x ∧
      s.cells (axisLine0 s x) &&& HIDDEN = 0 := by
  unfold startPossible axisLine0
  constructor
  · intro hc
    obtain ⟨x, hx, hfx⟩ := List.mem_filterMap.mp hc
    by_cases hcell : s.cells (Int.ofNat x :: (zerosOf s.shape).tail) &&& HIDDEN = 0
    · rw [if_pos hcell] at hfx
      exact ⟨x, List.mem_range.mp hx, (Option.some_inj.mp hfx).symm, hcell⟩
    · rw [if_neg hcell] at hfx
      cases hfx
  · rintro ⟨x, hx, rfl, hcell⟩
    exact List.mem_filterMap.mpr ⟨x, List.mem_range.mpr hx, by rw [if_pos hcell]⟩

lemma mem_endPossible (s : Core) (c : Coord) :
    c ∈ endPossible s ↔ ∃ x, x < s.shape.getD 0 0 ∧ c = axisLineMax s x ∧
      s.cells (axisLineMax s x) &&& HIDDEN = 0 := by
  unfold endPossible axisLineMax
  constructor
  · intro hc
    obtain ⟨x, hx, hfx⟩ := List.mem_filterMap.mp hc
    by_cases hcell : s.cells (Int.ofNat x :: (maxesOf s.shape).tail) &&& HIDDEN = 0
    · rw [if_pos hcell] at hfx
      exact ⟨x, List.mem_range.mp hx, (Option.some_inj.mp hfx).symm, hcell⟩
    · rw [if_neg hcell] at hfx
      cases hfx
  · rintro ⟨x, hx, rfl, hcell⟩
    exact List.mem_filterMap.mpr ⟨x, List.mem_range.mpr hx, by rw [if_pos hcell]⟩

/-- A 2×2 grid whose cell `(0,0)` is hidden. -/
def hidCells5 : Coord → Nat := fun c => if c = [0, 0] then HIDDEN else 0

def sHid5 : Core :=
  { shape := [2, 2], cells := hidCells5, compass := Orthogonal2D, rng := fun _ => 0 }

/-- C5 counterexample: on a 2×2 grid with only `(0,0)` hidden, the claim
predicts a start on the first-axis-zero face — here the single non-hidden
cell `[0,1]` of that face (the fallback corner `[0,0]` is reserved for an
all-hidden face).  The code instead returns `[1,0]`: it scans the cells
whose axis-0 coordinate varies with the other coordinates pinned at `0`. -/
theorem C5_counterexample :
    (random_start sHid5 none).1 = [1, 0] ∧
    (∀ c ∈ allCoords [2, 2], c.getD 0 0 = 0 → hidCells5 c &&& HIDDEN = 0 →
      c = [0, 1]) ∧
    hidCells5 [0, 1] &&& HIDDEN = 0 ∧
    ([1, 0] : Coord) ≠ [0, 1] ∧ ([1, 0] : Coord) ≠ [0, 0] := by
  refine ⟨by decide, by decide, by decide, by decide, by decide⟩

lemma getD_zero_mem {α : Type} (l : List α) (d : α) (h : l ≠ []) :
    l.getD 0 d ∈ l := by
  cases l with
  | nil => exact absurd rfl h
  | cons a l => simp

lemma shuffle_ne_nil {α : Type} (s : Core) (l : List α) (h : l ≠ []) :
    (shuffle s l).1 ≠ [] := by
  intro hcon
  have hlen := (shuffle_perm s l).length_eq
  rw [hcon] at hlen
  exact h (List.eq_nil_of_length_eq_zero hlen.symm)

lemma random_start_none_nonempty (s : Core)
    (hn : ¬(s.shape.length < 2 ∨ s.shape.length > 3))
    (hne : ¬(startPossible s).isEmpty = true) :
    (random_start s none).1 =
      (shuffle s (startPossible s)).1.getD 0 (zerosOf s.shape) := by
  unfold random_start
  rw [if_neg hn, if_neg hne]

lemma random_start_none_empty (s : Core)
    (hn : ¬(s.shape.length < 2 ∨ s.shape.length > 3))
    (hne : (startPossible s).isEmpty = true) :
    (random_start s none).1 = (0 : Int) :: (zerosOf s.shape).tail := by
  unfold random_start
  rw [if_neg hn, if_pos hne]

lemma random_end_none_nonempty (s : Core)
    (hn : ¬(s.shape.length < 2 ∨ s.shape.length > 3))
    (hne : ¬(endPossible s).isEmpty = true) :
    (random_end s none).1 =
      (shuffle s (endPossible s)).1.getD 0 (maxesOf s.shape) := by
  unfold random_end
  rw [if_neg hn, if_neg hne]

lemma random_end_none_empty (s : Core)
    (hn : ¬(s.shape.length < 2 ∨ s.shape.length > 3))
    (hne : (endPossible s).isEmpty = true) :
    (random_end s none).1 = (maxesOf s.shape).getD 0 0 :: (maxesOf s.shape).tail := by
  unfold random_end
  rw [if_neg hn, if_pos hne]

/-- C5 amended, start part: on a 2- or 3-axis grid, the default start is a
non-hidden cell on the line along axis 0 with the other coordinates `0`,
chosen by shuffling the list of such cells; if all of them are hidden, it is
the all-zero corner. -/
theorem C5_amended_start (s : Core)
    (h2 : s.shape.length = 2 ∨ s.shape.length = 3) :
    (∃ x, x < s.shape.getD 0 0 ∧ (random_start s none).1 = axisLine0 s x ∧
      s.cells (axisLine0 s x) &&& HIDDEN = 0) ∨
    ((∀ x, x < s.shape.getD 0 0 → s.cells (axisLine0 s x) &&& HIDDEN ≠ 0) ∧
      (random_start s none).1 = axisLine0 s 0) := by
  have hn : ¬(s.shape.length < 2 ∨ s.shape.length > 3) := by omega
  by_cases hne : (startPossible s).isEmpty = true
  · right
    refine ⟨fun x hx hcell => ?_, random_start_none_empty s hn hne⟩
    have hmem : axisLine0 s x ∈ startPossible s :=
      (mem_startPossible s _).mpr ⟨x, hx, rfl, hcell⟩
    rw [List.isEmpty_iff.mp hne] at hmem
    exact absurd hmem (List.not_mem_nil _)
  · left
    have hlne : startPossible s ≠ [] := fun hcon => hne (by rw [hcon]; rfl)
    have hmem : (shuffle s (startPossible s)).1.getD 0 (zerosOf s.shape)
        ∈ startPossible s :=
      (shuffle_mem s _ _).mp (getD_zero_mem _ _ (shuffle_ne_nil s _ hlne))
    obtain ⟨x, hx, hcoord, hcell⟩ := (mem_startPossible s _).mp hmem
    refine ⟨x, hx, ?_, hcell⟩
    rw [random_start_none_nonempty s hn hne, hcoord]

/-- C5 amended, end part: symmetric statement for `random_end`: the default
end is a non-hidden cell on the line along axis 0 with the other coordinates
at their maxima, or the all-max corner if that whole line is hidden. -/
theorem C5_amended_end (s : Core)
    (h2 : s.shape.length = 2 ∨ s.shape.length = 3) :
    (∃ x, x < s.shape.getD 0 0 ∧ (random_end s none).1 = axisLineMax s x ∧
      s.cells (axisLineMax s x) &&& HIDDEN = 0) ∨
    ((∀ x, x < s.shape.getD 0 0 → s.cells (axisLineMax s x) &&& HIDDEN ≠ 0) ∧
      (random_end s none).1 =
        (maxesOf s.shape).getD 0 0 :: (maxesOf s.shape).tail) := by
  have hn : ¬(s.shape.length < 2 ∨ s.shape.length > 3) := by omega
  by_cases hne : (endPossible s).isEmpty = true
  · right
    refine ⟨fun x hx hcell => ?_, random_end_none_empty s hn hne⟩
    have hmem : axisLineMax s x ∈ endPossible s :=
      (mem_endPossible s _).mpr ⟨x, hx, rfl, hcell⟩
    rw [List.isEmpty_iff.mp hne] at hmem
    exact absurd hmem (List.not_mem_nil _)
  · left
    have hlne : endPossible s ≠ [] := fun hcon => hne (by rw [hcon]; rfl)
    have hmem : (shuffle s (endPossible s)).1.getD 0 (maxesOf s.shape)
        ∈ endPossible s :=
      (shuffle_mem s _ _).mp (getD_zero_mem _ _ (shuffle_ne_nil s _ hlne))
    obtain ⟨x, hx, hcoord, hcell⟩ := (mem_endPossible s _).mp hmem
    refine ⟨x, hx, ?_, hcell⟩
    rw [random_end_none_nonempty s hn hne, hcoord]

/-- C5 amended, combined: one statement covering the claim's start and end
parts, as established by `C5_amended_start` and `C5_amended_end`. -/
theorem C5_amended (s : Core)
    (h2 : s.shape.length = 2 ∨ s.shape.length = 3) :
    ((∃ x, x < s.shape.getD 0 0 ∧ (random_start s none).1 = axisLine0 s x ∧
      s.cells (axisLine0 s x) &&& HIDDEN = 0) ∨
    ((∀ x, x < s.shape.getD 0 0 → s.cells (axisLine0 s x) &&& HIDDEN ≠ 0) ∧
      (random_start s none).1 = axisLine0 s 0)) ∧
    ((∃ x, x < s.shape.getD 0 0 ∧ (random_end s none).1 = axisLineMax s x ∧
      s.cells (axisLineMax s x) &&& HIDDEN = 0) ∨
    ((∀ x, x < s.shape.getD 0 0 → s.cells (axisLineMax s x) &&& HIDDEN ≠ 0) ∧
      (random_end s none).1 =
        (maxesOf s.shape).getD 0 0 :: (maxesOf s.shape).tail)) :=
  ⟨C5_amended_start s h2, C5_amended_end s h2⟩

/-- Witness for C5 amended at the counterexample grid: both disjunctions
hold there with concrete data. -/
theorem C5_amended_witness :
    ((∃ x, x < ([2, 2] : List Nat).getD 0 0 ∧
        (random_start sHid5 none).1 = axisLine0 sHid5 x ∧
        sHid5.cells (axisLine0 sHid5 x) &&& HIDDEN = 0) ∨
      ((∀ x, x < ([2, 2] : List Nat).getD 0 0 →
          sHid5.cells (axisLine0 sHid5 x) &&& HIDDEN ≠ 0) ∧
        (random_start sHid5 none).1 = axisLine0 sHid5 0)) ∧
    ((∃ x, x < ([2, 2] : List Nat).getD 0 0 ∧
        (random_end sHid5 none).1 = axisLineMax sHid5 x ∧
        sHid5.cells (axisLineMax sHid5 x) &&& HIDDEN = 0) ∨
      ((∀ x, x < ([2, 2] : List Nat).getD 0 0 →
          sHid5.cells (axisLineMax sHid5 x) &&& HIDDEN ≠ 0) ∧
        (random_end sHid5 none).1 =
          (maxesOf sHid5.shape).getD 0 0 :: (maxesOf sHid5.shape).tail)) :=
  C5_amended sHid5 (Or.inl rfl)

/-! ## Concrete grids used by claims C6 and C9 -/

/-- A 2×2 cell array holding two disjoint open passages: `(0,0)–(1,0)` and
`(0,1)–(1,1)` (each cell carries one door bit toward its partner). -/
def pairCells6 : Coord → Nat := fun c =>
  if c = [0, 0] then E else if c = [1, 0] then W
  else if c = [0, 1] then E else if c = [1, 1] then W else 0

/-- The pair grid with a seed stream that shuffles the dead-end list into
identity order. -/
def sPair6a : Core :=
  { shape := [2, 2], cells := pairCells6, compass := Orthogonal2D,
    rng := fun _ => 0 }

/-- The same grid with a seed stream that swaps the two dead ends. -/
def sPair6b : Core :=
  { shape := [2, 2], cells := pairCells6, compass := Orthogonal2D,
    rng := fun _ => 1 }

/-! ## The solver never touches the grid (claim C9) -/

lemma shuffle_core {α : Type} (s : Core) (l : List α) :
    (shuffle s l).2.cells = s.cells ∧ (shuffle s l).2.shape = s.shape ∧
      (shuffle s l).2.compass = s.compass :=
  ⟨rfl, rfl, rfl⟩

lemma random_start_core (s : Core) (st : Option Coord) :
    (random_start s st).2.1.cells = s.cells ∧
      (random_start s st).2.1.shape = s.shape ∧
      (random_start s st).2.1.compass = s.compass := by
  cases st with
  | some c => exact ⟨rfl, rfl, rfl⟩
  | none =>
      simp only [random_start]
      split_ifs <;> exact ⟨rfl, rfl, rfl⟩

lemma random_end_core (s : Core) (en : Option Coord) :
    (random_end s en).2.1.cells = s.cells ∧
      (random_end s en).2.1.shape = s.shape ∧
      (random_end s en).2.1.compass = s.compass := by
  cases en with
  | some c => exact ⟨rfl, rfl, rfl⟩
  | none =>
      simp only [random_end]
      split_ifs <;> exact ⟨rfl, rfl, rfl⟩

lemma deadendLoop_core (start e : Coord) : ∀ (fuel : Nat) (s : Core)
    (copy : Coord → Nat) (res : Core × (Coord → Nat) × List Event),
    deadendLoop start e fuel s copy = some res →
    res.1.cells = s.cells ∧ res.1.shape = s.shape ∧ res.1.compass = s.compass := by
  intro fuel
  induction fuel with
  | zero =>
      intro s copy res h
      rw [deadendLoop] at h
      split at h
      · cases h
        exact ⟨rfl, rfl, rfl⟩
      · cases h
  | succ fuel ih =>
      intro s copy res h
      rw [deadendLoop] at h
      simp only [] at h
      split at h
      · cases h
        exact ⟨rfl, rfl, rfl⟩
      · split at h
        · cases h
        · split at h
          · cases h
          · rename_i s2 cp2 evs2 heq2
            cases h
            obtain ⟨a1, a2, a3⟩ := ih _ _ _ heq2
            exact ⟨a1, a2, a3⟩

/-- C9: `deadend_solve` never modifies the grid's cell storage.  Whenever a
call completes, every cell of `self.cells` has its pre-call value — all
`NOTSOLUTION` marking and door closing happen on the scratch copy only. -/
theorem C9_deadend_solve_frame (fuel : Nat) (s : Core) (st en : Option Coord)
    (s' : Core) (ev : List Event)
    (h : deadend_solve fuel s st en = some (s', ev)) :
    s'.cells = s.cells := by
  unfold deadend_solve at h
  simp only [] at h
  split at h
  · exact absurd h (by simp)
  · rename_i s3 cp evs heq
    injection h with h1
    injection h1 with hs hev
    subst hs
    have h3 := (deadendLoop_core _ _ _ _ _ _ heq).1
    have h2 := (random_end_core (random_start s st).2.1 en).1
    have h1' := (random_start_core s st).1
    rw [h3, h2, h1']

/-- Witness for C9: a completed concrete solver run over the 2×2 grid
`sPair6a` (defined below for claim C6) leaves the cell at `(0,0)` — and by
the theorem every other cell — unchanged. -/
theorem C9_deadend_solve_frame_witness :
    (deadend_solve 20 sPair6a (some [0, 1]) (some [1, 1])).map
      (fun p => p.1.cells [0, 0]) = some (sPair6a.cells [0, 0]) := by
  have hs : (deadend_solve 20 sPair6a (some [0, 1]) (some [1, 1])).isSome = true := by
    rfl
  obtain ⟨p, hp⟩ := Option.isSome_iff_exists.mp hs
  rw [hp]
  exact congrArg some (congrFun
    (C9_deadend_solve_frame 20 sPair6a (some [0, 1]) (some [1, 1]) p.1 p.2
      (by rw [hp])) [0, 0])

/-! ## Determinism / single randomness source (claim C7) -/

lemma core_ext (s t : Core) (hsh : s.shape = t.shape)
    (hc : ∀ c, s.cells c = t.cells c) (hcp : s.compass = t.compass)
    (hr : ∀ k, s.rng k = t.rng k) : s = t := by
  cases s
  cases t
  simp only at hsh hc hcp hr
  simp only [Core.mk.injEq]
  exact ⟨hsh, funext hc, hcp, funext hr⟩

/-- C7: generation and solving are functions of exactly the grid shape, the
cell contents, the compass and the injected random stream.  Two runs of the
same operation on extensionally identical inputs (same seed) return the same
final cell states and the same event sequences.  In this embedding every
random choice is drawn from the single `rng` stream carried by the state —
there is no other source of nondeterminism. -/
theorem C7_determinism (s t : Core) (hsh : s.shape = t.shape)
    (hc : ∀ c, s.cells c = t.cells c) (hcp : s.compass = t.compass)
    (hr : ∀ k, s.rng k = t.rng k) (fuel : Nat) (st en : Option Coord) :
    wilsons_generate fuel s = wilsons_generate fuel t ∧
    recursive_generate fuel s = recursive_generate fuel t ∧
    deadend_solve fuel s st en = deadend_solve fuel t st en := by
  have h : s = t := core_ext s t hsh hc hcp hr
  subst h
  exact ⟨rfl, rfl, rfl⟩

/-- Two separately-written but extensionally identical 2×2 grids with the
same seed stream. -/
def sDet7a : Core :=
  { shape := [2, 2], cells := fun _ => 0, compass := Orthogonal2D,
    rng := fun k => k % 3 }

def sDet7b : Core :=
  { shape := [2, 2], cells := fun _ => 0, compass := Orthogonal2D,
    rng := fun k => k % 3 }

/-- Witness for C7 at two concrete identical inputs. -/
theorem C7_determinism_witness :
    wilsons_generate 30 sDet7a = wilsons_generate 30 sDet7b ∧
    recursive_generate 30 sDet7a = recursive_generate 30 sDet7b ∧
    deadend_solve 30 sDet7a none none = deadend_solve 30 sDet7b none none :=
  C7_determinism sDet7a sDet7b rfl (fun _ => rfl) rfl (fun _ => rfl) 30 none none

/-! ## Shared bit-level lemmas -/

lemma exists_testBit_of_ne_zero {n : Nat} (h : n ≠ 0) :
    ∃ i, n.testBit i = true := by
  by_contra hc
  push_neg at hc
  refine h (Nat.eq_of_testBit_eq fun i => ?_)
  rw [Nat.zero_testBit]
  exact Bool.eq_false_iff.mpr (hc i)

lemma hasBit_pow (v k : Nat) : v &&& 2 ^ k ≠ 0 ↔ v.testBit k = true := by
  constructor
  · intro h
    obtain ⟨i, hi⟩ := exists_testBit_of_ne_zero h
    rw [Nat.testBit_land] at hi
    rcases Bool.and_eq_true_iff.mp hi with ⟨h1, h2⟩
    by_cases hik : k = i
    · subst hik; exact h1
    · rw [Nat.testBit_two_pow_of_ne hik] at h2; cases h2
  · intro h hz
    have := congrArg (fun x => x.testBit k) hz
    simp only [Nat.testBit_land, Nat.zero_testBit, h,
      Nat.testBit_two_pow_self, Bool.and_true] at this
    cases this

lemma and_ne_zero_iff (v m : Nat) :
    v &&& m ≠ 0 ↔ ∃ k, v.testBit k = true ∧ m.testBit k = true := by
  constructor
  · intro h
    obtain ⟨i, hi⟩ := exists_testBit_of_ne_zero h
    rw [Nat.testBit_land] at hi
    exact ⟨i, Bool.and_eq_true_iff.mp hi⟩
  · rintro ⟨k, h1, h2⟩ hz
    have := congrArg (fun x => x.testBit k) hz
    simp only [Nat.testBit_land, h1, h2, Nat.zero_testBit] at this
    exact absurd this (by decide)

lemma lor_and_ne (v w m : Nat) :
    (v ||| w) &&& m ≠ 0 ↔ v &&& m ≠ 0 ∨ w &&& m ≠ 0 := by
  rw [and_ne_zero_iff, and_ne_zero_iff, and_ne_zero_iff]
  constructor
  · rintro ⟨k, h1, h2⟩
    rw [Nat.testBit_lor] at h1
    rcases Bool.or_eq_true_iff.mp h1 with h | h
    · exact Or.inl ⟨k, h, h2⟩
    · exact Or.inr ⟨k, h, h2⟩
  · rintro (⟨k, h1, h2⟩ | ⟨k, h1, h2⟩) <;>
      exact ⟨k, by rw [Nat.testBit_lor]; simp [h1], h2⟩

lemma andNot_testBit (v m k : Nat) :
    (andNot v m).testBit k = (v.testBit k && !(m.testBit k)) := by
  unfold andNot
  rw [Nat.testBit_xor, Nat.testBit_land]
  cases v.testBit k <;> cases m.testBit k <;> rfl

lemma testBit_DIR (k : Nat) : DIR.testBit k = (decide (4 ≤ k) && decide (k < 14)) := by
  by_cases h14 : k < 14
  · interval_cases k <;> decide
  · have hlt : DIR < 2 ^ k :=
      lt_of_lt_of_le (by decide : DIR < 2 ^ 14)
        (Nat.pow_le_pow_right (by norm_num) (by omega))
    rw [Nat.testBit_lt_two_pow hlt, decide_eq_false h14, Bool.and_false]

/-! ## Grid predicates and the door graph -/

/-- `c` is an in-bounds coordinate of `s`. -/
def Inb (s : Core) (c : Coord) : Prop := inbound s.shape c = true

/-- `c` is hidden. -/
def Hid (s : Core) (c : Coord) : Prop := s.cells c &&& HIDDEN ≠ 0

/-- `c` carries the `INMAZE` flag. -/
def InMaze (s : Core) (c : Coord) : Prop := s.cells c &&& INMAZE ≠ 0

/-- The in-bounds non-hidden cells, in row-major order. -/
def nhCells (s : Core) : List Coord :=
  (allCoords s.shape).filter fun c => s.cells c &&& HIDDEN == 0

/-- Number of in-bounds cells carrying `INMAZE`. -/
def imCount (s : Core) : Nat :=
  ((allCoords s.shape).filter fun c => s.cells c &&& INMAZE != 0).length

/-- Every (cell, direction) pair with an open door bit: each passage of a
symmetric maze contributes exactly two such half-doors. -/
def doorPairs (s : Core) : List (Coord × Direction) :=
  (allCoords s.shape).flatMap fun c =>
    (s.compass.filter fun d => s.cells c &&& d.val != 0).map fun d => (c, d)

/-- There is an open door bit on `a` pointing at `b`. -/
def doorAdj (s : Core) (a b : Coord) : Prop :=
  ∃ d ∈ s.compass, s.cells a &&& d.val ≠ 0 ∧ b = step a d.deltas

/-- Reachability along open doors. -/
def Reach (s : Core) (a b : Coord) : Prop :=
  Relation.ReflTransGen (doorAdj s) a b

/-- `l` lists the vertices of a simple cycle of the door graph: at least
three distinct cells, consecutively door-adjacent, the last adjacent to the
first. -/
def IsDoorCycle (s : Core) (l : List Coord) : Prop :=
  3 ≤ l.length ∧ l.Nodup ∧ l.Chain' (doorAdj s) ∧
  ∀ a ∈ l.head?, ∀ b ∈ l.getLast?, doorAdj s b a

/-- The compass prerequisites satisfied by the orthogonal topologies: at
least one direction; bit values are distinct single bits in the direction
range; delta arities match the grid; deltas are nonzero; every direction has
an opposite member with mirrored value and negated deltas. -/
def ValidCompass (shape : List Nat) (compass : List Direction) : Prop :=
  compass ≠ [] ∧
  (∀ d ∈ compass, ∃ k, 4 ≤ k ∧ k < 14 ∧ d.val = 2 ^ k) ∧
  (compass.map fun d => d.val).Nodup ∧
  (∀ d ∈ compass, d.deltas.length = shape.length) ∧
  (∀ d ∈ compass, d.deltas.any (fun x => x != 0) = true) ∧
  (∀ d ∈ compass, ∃ d' ∈ compass, d'.val = d.opposite ∧ d'.opposite = d.val ∧
    d'.deltas = d.deltas.map fun x => -x)

lemma validCompass_orth2D (shape : List Nat) (h : shape.length = 2) :
    ValidCompass shape Orthogonal2D := by
  refine ⟨by decide, ?_, by decide, ?_, by decide, by decide⟩
  · intro d hd
    simp only [Orthogonal2D, List.mem_cons, List.not_mem_nil, or_false] at hd
    rcases hd with rfl | rfl | rfl | rfl
    · exact ⟨6, by omega, by omega, by decide⟩
    · exact ⟨4, by omega, by omega, by decide⟩
    · exact ⟨10, by omega, by omega, by decide⟩
    · exact ⟨8, by omega, by omega, by decide⟩
  · intro d hd
    rw [h]
    simp only [Orthogonal2D, List.mem_cons, List.not_mem_nil, or_false] at hd
    rcases hd with rfl | rfl | rfl | rfl <;> decide

/-! ## Coordinate and counting lemmas -/

lemma INMAZE_pow : INMAZE = 2 ^ 0 := rfl
lemma HIDDEN_pow : HIDDEN = 2 ^ 1 := rfl

lemma step_cons (a d : Int) (c δ : List Int) :
    step (a :: c) (d :: δ) = (a + d) :: step c δ := rfl

lemma step_step_neg (c δ : List Int) (h : δ.length = c.length) :
    step (step c δ) (δ.map fun x => -x) = c := by
  induction c generalizing δ with
  | nil =>
      cases δ with
      | nil => rfl
      | cons d δ' => simp at h
  | cons a c ih =>
      cases δ with
      | nil => simp at h
      | cons d δ' =>
          simp only [step_cons, List.map_cons]
          congr 1
          · omega
          · exact ih δ' (by simpa using h)

lemma step_ne_self (c δ : List Int) (h : δ.length = c.length)
    (hnz : δ.any (fun x => x != 0) = true) : step c δ ≠ c := by
  induction c generalizing δ with
  | nil =>
      cases δ with
      | nil => simp at hnz
      | cons d δ' => simp at h
  | cons a c ih =>
      cases δ with
      | nil => simp at h
      | cons d δ' =>
          rw [step_cons]
          intro hcon
          have h1 : a + d = a := (List.cons.injEq .. ▸ hcon).1
          have h2 : step c δ' = c := (List.cons.injEq .. ▸ hcon).2
          rw [List.any_cons] at hnz
          rcases Bool.or_eq_true_iff.mp hnz with hd | hδ
          · simp only [bne_iff_ne, ne_eq] at hd
            omega
          · exact ih δ' (by simpa using h) hδ h2

lemma inbound_nil_iff (c : Coord) : inbound [] c = true ↔ c = [] := by
  unfold inbound
  simp only [List.zip_nil_right, List.all_nil, Bool.and_true, beq_iff_eq,
    List.length_nil, List.length_eq_zero]

lemma inbound_cons_iff (n : Nat) (rest : List Nat) (x : Int) (c : List Int) :
    inbound (n :: rest) (x :: c) = true ↔
      0 ≤ x ∧ x < (n : Int) ∧ inbound rest c = true := by
  unfold inbound
  simp only [List.length_cons, List.zip_cons_cons, List.all_cons,
    Bool.and_eq_true_iff, beq_iff_eq, decide_eq_true_eq]
  constructor
  · rintro ⟨hlen, ⟨hx1, hx2⟩, hall⟩
    exact ⟨hx1, hx2, by omega, hall⟩
  · rintro ⟨hx1, hx2, hlen, hall⟩
    exact ⟨by omega, ⟨hx1, hx2⟩, hall⟩

lemma inbound_cons_nil (n : Nat) (rest : List Nat) :
    inbound (n :: rest) [] = false := by
  unfold inbound
  simp

lemma mem_allCoords : ∀ (shape : List Nat) (c : Coord),
    c ∈ allCoords shape ↔ inbound shape c = true := by
  intro shape
  induction shape with
  | nil =>
      intro c
      rw [inbound_nil_iff]
      simp [allCoords]
  | cons n rest ih =>
      intro c
      cases c with
      | nil =>
          rw [inbound_cons_nil]
          simp only [allCoords, List.mem_flatMap, List.mem_map]
          constructor
          · rintro ⟨i, _, c', _, hcon⟩
            cases hcon
          · intro h
            cases h
      | cons x c' =>
          rw [inbound_cons_iff]
          simp only [allCoords, List.mem_flatMap, List.mem_map, List.mem_range]
          constructor
          · rintro ⟨i, hi, c'', hc'', heq⟩
            have h1 : (i : Int) = x := (List.cons.injEq .. ▸ heq).1
            have h2 : c'' = c' := (List.cons.injEq .. ▸ heq).2
            rw [h2] at hc''
            exact ⟨by omega, by omega, (ih c').mp hc''⟩
          · rintro ⟨hx1, hx2, hb⟩
            refine ⟨x.toNat, by omega, c', (ih c').mpr hb, ?_⟩
            congr 1
            omega

lemma allCoords_nodup (shape : List Nat) : (allCoords shape).Nodup := by
  induction shape with
  | nil => simp [allCoords]
  | cons n rest ih =>
      unfold allCoords
      rw [List.nodup_flatMap]
      refine ⟨fun i _ => ih.map fun a b hab => ?_, ?_⟩
      · exact (List.cons.injEq .. ▸ hab).2
      · refine List.Pairwise.imp ?_ (List.nodup_range n)
        intro i j hij c hc1 hc2
        simp only [List.mem_map] at hc1 hc2
        obtain ⟨a, _, rfl⟩ := hc1
        obtain ⟨b, _, hcon⟩ := hc2
        have h1 := (List.cons.injEq .. ▸ hcon).1
        exact hij (by omega)

lemma filter_length_update {α : Type} [DecidableEq α] (l : List α) (hnd : l.Nodup) (c : α)
    (hc : c ∈ l) (f g : α → Bool) (hfg : ∀ a ∈ l, a ≠ c → f a = g a) :
    (l.filter f).length + (if g c then 1 else 0) =
    (l.filter g).length + (if f c then 1 else 0) := by
  induction l with
  | nil => cases hc
  | cons a l ih =>
      rcases List.mem_cons.mp hc with rfl | hc'
      · have hnc : c ∉ l := (List.nodup_cons.mp hnd).1
        have htail : l.filter f = l.filter g :=
          List.filter_congr fun x hx =>
            hfg x (List.mem_cons_of_mem c hx) fun hxc => hnc (hxc ▸ hx)
        rw [List.filter_cons, List.filter_cons, htail]
        cases hfa : f c <;> cases hga : g c <;>
          simp [hfa, hga, List.length_cons]
      · have hac : a ≠ c := fun hcon => (List.nodup_cons.mp hnd).1 (hcon ▸ hc')
        rw [List.filter_cons, List.filter_cons,
          hfg a (List.mem_cons_self a l) hac]
        have := ih (List.nodup_cons.mp hnd).2 hc'
          (fun x hx => hfg x (List.mem_cons_of_mem a hx))
        cases hga : g a <;> simp only [if_true, if_false, Bool.false_eq_true,
          List.length_cons] <;> omega

lemma map_sum_update {α : Type} [DecidableEq α] (l : List α) (hnd : l.Nodup) (c : α)
    (hc : c ∈ l) (f g : α → Nat) (hfg : ∀ a ∈ l, a ≠ c → f a = g a) :
    (l.map f).sum + g c = (l.map g).sum + f c := by
  induction l with
  | nil => cases hc
  | cons a l ih =>
      rcases List.mem_cons.mp hc with rfl | hc'
      · have hnc : c ∉ l := (List.nodup_cons.mp hnd).1
        have htail : l.map f = l.map g :=
          List.map_congr_left fun x hx =>
            hfg x (List.mem_cons_of_mem c hx) fun hxc => hnc (hxc ▸ hx)
        rw [List.map_cons, List.map_cons, htail]
        simp only [List.sum_cons]
        omega
      · have hac : a ≠ c := fun hcon => (List.nodup_cons.mp hnd).1 (hcon ▸ hc')
        rw [List.map_cons, List.map_cons, hfg a (List.mem_cons_self a l) hac]
        have := ih (List.nodup_cons.mp hnd).2 hc'
          (fun x hx => hfg x (List.mem_cons_of_mem a hx))
        simp only [List.sum_cons]
        omega

lemma length_flatMap {α β : Type} (l : List α) (f : α → List β) :
    (l.flatMap f).length = (l.map fun a => (f a).length).sum := by
  induction l with
  | nil => rfl
  | cons a l ih => simp [List.flatMap_cons, ih]

/-- Number of open door bits of cell `c` that name compass directions. -/
def doorCount (s : Core) (c : Coord) : Nat :=
  (s.compass.filter fun d => s.cells c &&& d.val != 0).length

lemma doorPairs_length (s : Core) :
    (doorPairs s).length = ((allCoords s.shape).map (doorCount s)).sum := by
  unfold doorPairs
  rw [length_flatMap]
  congr 1
  refine List.map_congr_left fun c _ => ?_
  rw [List.length_map]
  rfl

lemma or_pow_and_pow (v j k : Nat) (h : j ≠ k) :
    (v ||| 2 ^ j) &&& 2 ^ k ≠ 0 ↔ v &&& 2 ^ k ≠ 0 := by
  rw [hasBit_pow, hasBit_pow, Nat.testBit_lor, Nat.testBit_two_pow_of_ne h,
    Bool.or_false]

lemma or_pow_and_pow_self (v k : Nat) : (v ||| 2 ^ k) &&& 2 ^ k ≠ 0 := by
  rw [hasBit_pow, Nat.testBit_lor, Nat.testBit_two_pow_self, Bool.or_true]

/-! ## Generator invariants -/

/-- Out-of-bounds cells never carry `INMAZE` or direction bits. -/
def OutSafe (s : Core) : Prop :=
  ∀ c, ¬Inb s c → s.cells c &&& (INMAZE ||| DIR) = 0

/-- Hidden cells hold exactly the `HIDDEN` bit (as left by `clean`). -/
def HidVal (s : Core) : Prop := ∀ c, Hid s c → s.cells c = HIDDEN

/-- In-bounds cells with neither in-use flag are exactly `0`. -/
def EmptyVal (s : Core) : Prop :=
  ∀ c, Inb s c → s.cells c &&& INUSE = 0 → s.cells c = 0

/-- Every in-bounds non-hidden compass neighbor of `c` is in use. -/
def ClosedAt (s : Core) (c : Coord) : Prop :=
  ∀ d ∈ s.compass, inbound s.shape (step c d.deltas) = true →
    s.cells (step c d.deltas) &&& INUSE ≠ 0

/-- Structural invariant maintained by the generators between steps. -/
structure GInv (s : Core) : Prop where
  outSafe : OutSafe s
  hidVal : HidVal s
  emptyVal : EmptyVal s
  imInb : ∀ c, InMaze s c → Inb s c ∧ ¬Hid s c
  doorsIm : ∀ c, ∀ d ∈ s.compass, s.cells c &&& d.val ≠ 0 → InMaze s c
  doorsDst : ∀ c, ∀ d ∈ s.compass, s.cells c &&& d.val ≠ 0 →
      Inb s (step c d.deltas) ∧ InMaze s (step c d.deltas) ∧
      ¬Hid s (step c d.deltas)
  doorsSym : ∀ c, ∀ d ∈ s.compass, s.cells c &&& d.val ≠ 0 →
      s.cells (step c d.deltas) &&& d.opposite ≠ 0
  bitsDom : ∀ c k, (s.cells c).testBit k = true →
      k = 0 ∨ k = 1 ∨ ∃ d ∈ s.compass, d.val = 2 ^ k

/-- A construction-order certificate: a duplicate-free list containing every
`INMAZE` cell, each entry door-adjacent to at most one earlier entry.  It
witnesses that the door graph grew by attaching fresh cells, hence is
acyclic. -/
structure Cert (s : Core) (L : List Coord) : Prop where
  nodup : L.Nodup
  mem : ∀ c, InMaze s c → c ∈ L
  memIm : ∀ c ∈ L, InMaze s c
  atMostOne : ∀ (i j k : Nat), i < L.length → j < i → k < i →
      doorAdj s (L.getD i []) (L.getD j []) →
      doorAdj s (L.getD i []) (L.getD k []) → j = k

/-! ## Small transport lemmas -/

lemma compassGet_val {shape : List Nat} {compass : List Direction}
    (vc : ValidCompass shape compass) {d : Direction} (hd : d ∈ compass) :
    compassGet compass d.val = some d := by
  have hnd : (compass.map fun d => d.val).Nodup := vc.2.2.1
  unfold compassGet
  have hmem : d ∈ compass.reverse := List.mem_reverse.mpr hd
  rcases hfind : compass.reverse.find? (fun d' => d'.val == d.val) with _ | d'
  · exact absurd (List.find?_eq_none.mp hfind d hmem (by simp)) (by simp)
  · have hd'mem : d' ∈ compass.reverse := List.mem_of_find?_eq_some hfind
    have hval : d'.val = d.val := by
      have := List.find?_some hfind
      simpa using this
    have : d' = d :=
      List.inj_on_of_nodup_map hnd (List.mem_reverse.mp hd'mem) hd hval
    rw [hfind]
    exact congrArg some this

lemma compass_delta_len {shape : List Nat} {compass : List Direction}
    (vc : ValidCompass shape compass) {d : Direction} (hd : d ∈ compass) :
    d.deltas.length = shape.length := vc.2.2.2.1 d hd

lemma inb_length {s : Core} {c : Coord} (h : Inb s c) :
    c.length = s.shape.length := by
  unfold Inb inbound at h
  exact beq_iff_eq.mp (Bool.and_eq_true_iff.mp h).1

/-- Stepping by a compass direction and then by its opposite returns to the
start, for in-bounds cells. -/
lemma step_back {s : Core} (vc : ValidCompass s.shape s.compass)
    {d d' : Direction} (hd : d ∈ s.compass) (hd' : d' ∈ s.compass)
    (hval : d'.val = d.opposite) {c : Coord} (hc : Inb s c) :
    step (step c d.deltas) d'.deltas = c := by
  obtain ⟨d'', hd''mem, hv1, hv2, hdel⟩ := vc.2.2.2.2.2 d hd
  have : d'' = d' := by
    refine List.inj_on_of_nodup_map vc.2.2.1 hd''mem hd' ?_
    rw [hv1, hval]
  subst this
  rw [hdel]
  exact step_step_neg c d.deltas
    (by rw [compass_delta_len vc hd, inb_length hc])

lemma step_ne {s : Core} (vc : ValidCompass s.shape s.compass)
    {d : Direction} (hd : d ∈ s.compass) {c : Coord} (hc : Inb s c) :
    step c d.deltas ≠ c :=
  step_ne_self c d.deltas (by rw [compass_delta_len vc hd, inb_length hc])
    (vc.2.2.2.2.1 d hd)

lemma doorAdj_mono {s s' : Core} (hcompass : s'.compass = s.compass)
    (hmono : ∀ c k, (s.cells c).testBit k = true → (s'.cells c).testBit k = true)
    {a b : Coord} (h : doorAdj s a b) : doorAdj s' a b := by
  obtain ⟨d, hd, hbit, hb⟩ := h
  refine ⟨d, by rw [hcompass]; exact hd, ?_, hb⟩
  rw [and_ne_zero_iff] at hbit ⊢
  obtain ⟨k, h1, h2⟩ := hbit
  exact ⟨k, hmono a k h1, h2⟩

lemma Reach_mono {s s' : Core} (hcompass : s'.compass = s.compass)
    (hmono : ∀ c k, (s.cells c).testBit k = true → (s'.cells c).testBit k = true)
    {a b : Coord} (h : Reach s a b) : Reach s' a b :=
  Relation.ReflTransGen.mono (fun _ _ => doorAdj_mono hcompass hmono) h

/-- A direction bit test survives OR-ing a different single bit. -/
lemma cell_or_bit_other {v : Nat} {j : Nat} (w : Nat) {k : Nat}
    (hw : w = 2 ^ j) (hjk : j ≠ k) : (v ||| w) &&& 2 ^ k ≠ 0 ↔ v &&& 2 ^ k ≠ 0 := by
  rw [hw]
  exact or_pow_and_pow v j k hjk

/-! ## One step of generation -/

/-- Relation between states before and after a (partial) generation step
rooted at `root`: the invariant is preserved, cell bits only grow on
in-bounds non-hidden cells, the half-door count grows by twice the number of
newly claimed cells, newly claimed cells (except `root` itself) have no
empty neighbors left, and every newly claimed cell can walk the new doors to
`root`. -/
structure GenStep (s s' : Core) (root : Coord) : Prop where
  shape_eq : s'.shape = s.shape
  compass_eq : s'.compass = s.compass
  mono : ∀ c k, (s.cells c).testBit k = true → (s'.cells c).testBit k = true
  frame : ∀ c, s'.cells c ≠ s.cells c → Inb s c ∧ ¬Hid s c
  hid_iff : ∀ c, Hid s' c ↔ Hid s c
  ginv : GInv s'
  count : (doorPairs s').length + 2 * imCount s +
      (if s.cells root &&& INMAZE ≠ 0 then 0 else 2) =
      (doorPairs s).length + 2 * imCount s'
  newClosed : ∀ c, InMaze s' c → ¬InMaze s c → c ≠ root → ClosedAt s' c
  oldClosed : ∀ c, InMaze s c → ClosedAt s c → ClosedAt s' c
  reach : ∀ c, InMaze s' c → InMaze s c ∨ Reach s' c root
  cert : ∀ L, Cert s L → ∃ L2, Cert s' (L ++ L2)

lemma hid_mono {s s' : Core}
    (hmono : ∀ c k, (s.cells c).testBit k = true → (s'.cells c).testBit k = true)
    {c : Coord} (h : Hid s c) : Hid s' c := by
  rw [Hid, HIDDEN_pow, hasBit_pow] at h ⊢
  exact hmono c 1 h

lemma inMaze_mono {s s' : Core}
    (hmono : ∀ c k, (s.cells c).testBit k = true → (s'.cells c).testBit k = true)
    {c : Coord} (h : InMaze s c) : InMaze s' c := by
  rw [InMaze, INMAZE_pow, hasBit_pow] at h ⊢
  exact hmono c 0 h

lemma inb_of_shape_eq {s s' : Core} (h : s'.shape = s.shape) {c : Coord} :
    Inb s' c ↔ Inb s c := by rw [Inb, Inb, h]

lemma GenStep_trans {s s1 s2 : Core} {root : Coord}
    (r1 : GenStep s s1 root) (r2 : GenStep s1 s2 root)
    (him : InMaze s1 root) : GenStep s s2 root := by
  refine ⟨r2.shape_eq.trans r1.shape_eq, r2.compass_eq.trans r1.compass_eq,
    fun c k h => r2.mono c k (r1.mono c k h), ?_,
    fun c => (r2.hid_iff c).trans (r1.hid_iff c), r2.ginv, ?_, ?_, ?_, ?_, ?_⟩
  · intro c hne
    by_cases h1 : s1.cells c = s.cells c
    · have := r2.frame c (by rw [← h1] at hne; exact hne)
      rw [inb_of_shape_eq r1.shape_eq] at this
      refine ⟨this.1, fun hh => this.2 (hid_mono r1.mono hh)⟩
    · exact r1.frame c h1
  · have h1 := r1.count
    have h2 := r2.count
    have him' : s1.cells root &&& INMAZE ≠ 0 := him
    rw [if_pos him'] at h2
    by_cases hfresh : s.cells root &&& INMAZE ≠ 0
    · rw [if_pos hfresh] at h1 ⊢
      omega
    · rw [if_neg hfresh] at h1 ⊢
      omega
  · intro c h2 h0 hroot
    by_cases h1 : InMaze s1 c
    · exact r2.oldClosed c h1 (r1.newClosed c h1 h0 hroot)
    · exact r2.newClosed c h2 h1 hroot
  · intro c h1 h2
    exact r2.oldClosed c (inMaze_mono r1.mono h1) (r1.oldClosed c h1 h2)
  · intro c h2
    rcases r2.reach c h2 with h1 | hr
    · rcases r1.reach c h1 with h0 | hr
      · exact Or.inl h0
      · exact Or.inr (Reach_mono r2.compass_eq r2.mono hr)
    · exact Or.inr hr
  · intro L hL
    obtain ⟨L1, hL1⟩ := r1.cert L hL
    obtain ⟨L2, hL2⟩ := r2.cert _ hL1
    exact ⟨L1 ++ L2, by rw [← List.append_assoc]; exact hL2⟩

lemma GenStep_refl {s : Core} {root : Coord} (g : GInv s)
    (him : InMaze s root) : GenStep s s root := by
  refine ⟨rfl, rfl, fun c k h => h, fun c hne => absurd rfl hne,
    fun c => Iff.rfl, g, ?_,
    fun c h2 h0 _ => absurd h2 h0, fun c _ h => h,
    fun c h => Or.inl h, fun L hL => ⟨[], by rw [List.append_nil]; exact hL⟩⟩
  have him' : s.cells root &&& INMAZE ≠ 0 := him
  rw [if_pos him']
  omega

/-! ## Counting under a single cell write -/

lemma imCount_setCell (s : Core) (c : Coord) (v : Nat) (hc : Inb s c) :
    imCount (setCell s c v) + (if s.cells c &&& INMAZE ≠ 0 then 1 else 0) =
    imCount s + (if v &&& INMAZE ≠ 0 then 1 else 0) := by
  unfold imCount
  simp only [setCell_shape]
  have h := filter_length_update (allCoords s.shape) (allCoords_nodup _) c
    ((mem_allCoords _ _).mpr hc)
    (fun a => (setCell s c v).cells a &&& INMAZE != 0)
    (fun a => s.cells a &&& INMAZE != 0)
    (fun a _ ha => by simp only [setCell_cells_ne s c v a ha])
  simp only [setCell_cells_self] at h
  simp only [bne_iff_ne, ne_eq, ite_not] at h ⊢
  omega

lemma doorCount_setCell_ne (s : Core) (c : Coord) (v : Nat) (a : Coord)
    (ha : a ≠ c) : doorCount (setCell s c v) a = doorCount s a := by
  unfold doorCount
  rw [setCell_cells_ne s c v a ha]
  rfl

lemma doorPairsLen_setCell (s : Core) (c : Coord) (v : Nat) (hc : Inb s c) :
    (doorPairs (setCell s c v)).length + doorCount s c =
    (doorPairs s).length +
      (s.compass.filter fun d => v &&& d.val != 0).length := by
  rw [doorPairs_length, doorPairs_length]
  simp only [setCell_shape]
  have h := map_sum_update (allCoords s.shape) (allCoords_nodup _) c
    ((mem_allCoords _ _).mpr hc)
    (doorCount (setCell s c v)) (doorCount s)
    (fun a _ ha => doorCount_setCell_ne s c v a ha)
  have hcc : doorCount (setCell s c v) c =
      (s.compass.filter fun d => v &&& d.val != 0).length := by
    unfold doorCount
    rw [setCell_cells_self]
    rfl
  omega

/-! ## Marking a cell `INMAZE` -/

lemma pow_and_pow_ne {j k : Nat} (h : j ≠ k) : 2 ^ j &&& 2 ^ k = 0 := by
  apply Nat.eq_of_testBit_eq
  intro i
  rw [Nat.testBit_land, Nat.zero_testBit]
  by_cases hji : j = i
  · subst hji
    rw [Nat.testBit_two_pow_of_ne fun hcon => h hcon.symm, Bool.and_false]
  · rw [Nat.testBit_two_pow_of_ne hji, Bool.false_and]

lemma or_and_right_zero {v w m : Nat} (hm : w &&& m = 0) :
    (v ||| w) &&& m ≠ 0 ↔ v &&& m ≠ 0 := by
  rw [lor_and_ne]
  simp [hm]

lemma bne_zero_congr {x y : Nat} (h : x ≠ 0 ↔ y ≠ 0) : (x != 0) = (y != 0) := by
  by_cases hx : x = 0
  · have hy : y = 0 := by
      by_contra hy
      exact absurd hx (h.mpr hy)
    rw [hx, hy]
  · have hy : y ≠ 0 := h.mp hx
    rw [show (x != 0) = true from bne_iff_ne.mpr hx,
      show (y != 0) = true from bne_iff_ne.mpr hy]

lemma vc_val_pow {shape : List Nat} {compass : List Direction}
    (vc : ValidCompass shape compass) {d : Direction} (hd : d ∈ compass) :
    ∃ k, 4 ≤ k ∧ k < 14 ∧ d.val = 2 ^ k := vc.2.1 d hd

lemma vc_opp {shape : List Nat} {compass : List Direction}
    (vc : ValidCompass shape compass) {d : Direction} (hd : d ∈ compass) :
    ∃ d' ∈ compass, d'.val = d.opposite ∧ d'.opposite = d.val ∧
      d'.deltas = d.deltas.map fun x => -x := vc.2.2.2.2.2 d hd

lemma inuse_mono {s s' : Core}
    (hmono : ∀ c k, (s.cells c).testBit k = true → (s'.cells c).testBit k = true)
    {c : Coord} (h : s.cells c &&& INUSE ≠ 0) : s'.cells c &&& INUSE ≠ 0 := by
  rw [and_ne_zero_iff] at h ⊢
  obtain ⟨k, h1, h2⟩ := h
  exact ⟨k, hmono c k h1, h2⟩

lemma closedAt_mono {s s' : Core} (hsh : s'.shape = s.shape)
    (hcp : s'.compass = s.compass)
    (hmono : ∀ c k, (s.cells c).testBit k = true → (s'.cells c).testBit k = true)
    {c : Coord} (h : ClosedAt s c) : ClosedAt s' c := by
  intro d hd hb
  rw [hcp] at hd
  rw [hsh] at hb
  exact inuse_mono hmono (h d hd hb)

lemma doorAdj_congr {s s' : Core} (hcp : s'.compass = s.compass)
    (h : ∀ c (d : Direction), d ∈ s.compass →
      (s'.cells c &&& d.val ≠ 0 ↔ s.cells c &&& d.val ≠ 0)) (a b : Coord) :
    doorAdj s' a b ↔ doorAdj s a b := by
  unfold doorAdj
  rw [hcp]
  constructor
  · rintro ⟨d, hd, hb, rfl⟩
    exact ⟨d, hd, (h a d hd).mp hb, rfl⟩
  · rintro ⟨d, hd, hb, rfl⟩
    exact ⟨d, hd, (h a d hd).mpr hb, rfl⟩

lemma mark_genStep (s : Core) (current : Coord)
    (vc : ValidCompass s.shape s.compass) (g : GInv s)
    (hinb : Inb s current) (hnh : ¬Hid s current) :
    GenStep s (setCell s current (s.cells current ||| INMAZE)) current ∧
    InMaze (setCell s current (s.cells current ||| INMAZE)) current := by
  set v0 := s.cells current with hv0
  set sm := setCell s current (v0 ||| INMAZE) with hsm
  have hcne : ∀ c, c ≠ current → sm.cells c = s.cells c :=
    fun c hc => setCell_cells_ne s current _ c hc
  have hccur : sm.cells current = v0 ||| INMAZE := setCell_cells_self s current _
  have hIm : InMaze sm current := by
    rw [InMaze, hccur, INMAZE_pow]
    exact or_pow_and_pow_self v0 0
  have hInuseCur : sm.cells current &&& INUSE ≠ 0 := by
    rw [hccur, show INUSE = INMAZE ||| HIDDEN from rfl, lor_and_ne]
    exact Or.inr (by decide)
  have hmono : ∀ c k, (s.cells c).testBit k = true → (sm.cells c).testBit k = true := by
    intro c k hk
    by_cases hc : c = current
    · rw [hc] at hk ⊢
      rw [hccur, Nat.testBit_lor]
      rw [← hv0] at hk
      rw [hk, Bool.true_or]
    · rw [hcne c hc]
      exact hk
  have hDirIff : ∀ c (d : Direction), d ∈ s.compass →
      (sm.cells c &&& d.val ≠ 0 ↔ s.cells c &&& d.val ≠ 0) := by
    intro c d hd
    by_cases hc : c = current
    · rw [hc, hccur]
      obtain ⟨k, hk4, _, hval⟩ := vc_val_pow vc hd
      rw [hval, INMAZE_pow, ← hv0]
      exact or_and_right_zero (pow_and_pow_ne (by omega))
    · rw [hcne c hc]
  have hOppIff : ∀ c (d : Direction), d ∈ s.compass →
      (sm.cells c &&& d.opposite ≠ 0 ↔ s.cells c &&& d.opposite ≠ 0) := by
    intro c d hd
    obtain ⟨d', hd', hval', _, _⟩ := vc_opp vc hd
    rw [← hval']
    exact hDirIff c d' hd'
  have hHidIff : ∀ c, Hid sm c ↔ Hid s c := by
    intro c
    by_cases hc : c = current
    · rw [hc, Hid, Hid, hccur, INMAZE_pow, HIDDEN_pow, ← hv0]
      exact or_and_right_zero (pow_and_pow_ne (by omega))
    · rw [Hid, Hid, hcne c hc]
  have hImIff : ∀ c, InMaze sm c ↔ InMaze s c ∨ c = current := by
    intro c
    by_cases hc : c = current
    · rw [hc]
      exact ⟨fun _ => Or.inr rfl, fun _ => hIm⟩
    · rw [InMaze, InMaze, hcne c hc]
      simp [hc]
  have hInb : ∀ c, Inb sm c ↔ Inb s c := fun c => Iff.rfl
  have hAdjIff : ∀ a b, doorAdj sm a b ↔ doorAdj s a b :=
    doorAdj_congr rfl hDirIff
  have hginv : GInv sm := by
    refine ⟨?_, ?_, ?_, ?_, ?_, ?_, ?_, ?_⟩
    · intro c hc
      have hcc : c ≠ current := fun hcon => hc (hcon ▸ hinb)
      rw [hcne c hcc]
      exact g.outSafe c hc
    · intro c hc
      rw [hHidIff c] at hc
      have hcc : c ≠ current := fun hcon => hnh (hcon ▸ hc)
      rw [hcne c hcc]
      exact g.hidVal c hc
    · intro c hc hz
      have hcc : c ≠ current := by
        intro hcon
        rw [hcon] at hz
        exact hInuseCur hz
      rw [hcne c hcc] at hz ⊢
      exact g.emptyVal c hc hz
    · intro c hc
      rcases (hImIff c).mp hc with h | rfl
      · have := g.imInb c h
        exact ⟨this.1, fun hh => this.2 ((hHidIff c).mp hh)⟩
      · exact ⟨hinb, fun hh => hnh ((hHidIff c).mp hh)⟩
    · intro c d hd hb
      rw [hDirIff c d hd] at hb
      exact (hImIff c).mpr (Or.inl (g.doorsIm c d hd hb))
    · intro c d hd hb
      rw [hDirIff c d hd] at hb
      obtain ⟨h1, h2, h3⟩ := g.doorsDst c d hd hb
      exact ⟨h1, (hImIff _).mpr (Or.inl h2), fun hh => h3 ((hHidIff _).mp hh)⟩
    · intro c d hd hb
      rw [hDirIff c d hd] at hb
      rw [hOppIff _ d hd]
      exact g.doorsSym c d hd hb
    · intro c k hk
      by_cases hc : c = current
      · rw [hc, hccur, Nat.testBit_lor] at hk
        rcases Bool.or_eq_true_iff.mp hk with hk | hk
        · rw [hv0] at hk
          exact g.bitsDom current k hk
        · left
          by_contra hk0
          rw [INMAZE_pow, Nat.testBit_two_pow_of_ne fun hcon => hk0 hcon.symm] at hk
          cases hk
      · rw [hcne c hc] at hk
        exact g.bitsDom c k hk
  have hcount : (doorPairs sm).length = (doorPairs s).length ∧
      imCount sm + (if s.cells current &&& INMAZE ≠ 0 then 1 else 0) =
        imCount s + 1 := by
    constructor
    · have h := doorPairsLen_setCell s current (v0 ||| INMAZE) hinb
      have heq : (s.compass.filter fun d => (v0 ||| INMAZE) &&& d.val != 0) =
          s.compass.filter fun d => s.cells current &&& d.val != 0 := by
        refine List.filter_congr fun d hd => ?_
        have h2 := hDirIff current d hd
        rw [hccur] at h2
        exact bne_zero_congr h2
      rw [heq] at h
      rw [show doorCount s current =
          (s.compass.filter fun d => s.cells current &&& d.val != 0).length
          from rfl] at h
      exact Nat.add_right_cancel h
    · have h := imCount_setCell s current (v0 ||| INMAZE) hinb
      have hval : (v0 ||| INMAZE) &&& INMAZE ≠ 0 := by
        rw [INMAZE_pow]
        exact or_pow_and_pow_self v0 0
      rw [if_pos hval] at h
      exact h
  have hcert : ∀ L, Cert s L → ∃ L2, Cert sm (L ++ L2) := by
    intro L hL
    by_cases hfresh : InMaze s current
    · refine ⟨[], ?_⟩
      rw [List.append_nil]
      refine ⟨hL.nodup, ?_, ?_, ?_⟩
      · intro c hc
        rcases (hImIff c).mp hc with h | rfl
        · exact hL.mem c h
        · exact hL.mem c hfresh
      · exact fun c hc => (hImIff c).mpr (Or.inl (hL.memIm c hc))
      · intro i j k hi hj hk h1 h2
        rw [hAdjIff] at h1 h2
        exact hL.atMostOne i j k hi hj hk h1 h2

    · refine ⟨[current], ?_⟩
      have hnotin : current ∉ L := fun hc => hfresh (hL.memIm current hc)
      refine ⟨?_, ?_, ?_, ?_⟩
      · rw [List.nodup_append]
        exact ⟨hL.nodup, List.nodup_singleton current,
          fun a ha hb => hnotin (by rwa [List.mem_singleton.mp hb] at ha)⟩
      · intro c hc
        rcases (hImIff c).mp hc with h | rfl
        · exact List.mem_append_left _ (hL.mem c h)
        · exact List.mem_append_right _ (List.mem_singleton_self c)
      · intro c hc
        rcases List.mem_append.mp hc with h | h
        · exact (hImIff c).mpr (Or.inl (hL.memIm c h))
        · rw [List.mem_singleton.mp h]
          exact hIm
      · intro i j k hi hj hk h1 h2
        rw [List.length_append, List.length_singleton] at hi
        by_cases hiL : i < L.length
        · rw [List.getD_append L [current] [] i hiL,
            List.getD_append L [current] [] j (by omega), hAdjIff] at h1
          rw [List.getD_append L [current] [] i hiL,
            List.getD_append L [current] [] k (by omega), hAdjIff] at h2
          exact hL.atMostOne i j k hiL (by omega) (by omega) h1 h2
        · have hieq : i = L.length := by omega
          have hgi : (L ++ [current]).getD i [] = current := by
            rw [hieq, List.getD_append_right L [current] [] L.length (le_refl _)]
            simp
          rw [hgi, hAdjIff] at h1
          obtain ⟨d, hd, hb, _⟩ := h1
          exact absurd (g.doorsIm current d hd hb) hfresh
  refine ⟨⟨rfl, rfl, hmono, ?_, hHidIff, hginv, ?_, ?_, ?_, ?_, hcert⟩, hIm⟩
  · intro c hne
    by_cases hc : c = current
    · subst hc
      exact ⟨hinb, hnh⟩
    · rw [hcne c hc] at hne
      exact absurd rfl hne
  · rcases hcount with ⟨h1, h2⟩
    by_cases hfresh : s.cells current &&& INMAZE ≠ 0
    · rw [if_pos hfresh]
      rw [if_pos hfresh] at h2
      omega
    · rw [if_neg hfresh]
      rw [if_neg hfresh] at h2
      omega
  · intro c hc h0 hcc
    rcases (hImIff c).mp hc with h | rfl
    · exact absurd h h0
    · exact absurd rfl hcc
  · intro c _ h
    exact @closedAt_mono s sm rfl rfl hmono c h
  · intro c hc
    rcases (hImIff c).mp hc with h | rfl
    · exact Or.inl h
    · exact Or.inr Relation.ReflTransGen.refl

/-! ## Opening a passage to an empty neighbor -/

lemma compassGet_mem {compass : List Direction} {v : Nat} {d : Direction}
    (h : compassGet compass v = some d) : d ∈ compass ∧ d.val = v := by
  unfold compassGet at h
  exact ⟨List.mem_reverse.mp (List.mem_of_find?_eq_some h),
    by simpa using List.find?_some h⟩

lemma eq_neg_map_all_zero (l : List Int)
    (h : l = l.map fun x => -x) : l.any (fun x => x != 0) = false := by
  induction l with
  | nil => rfl
  | cons a t ih =>
      rw [List.map_cons] at h
      have h1 : a = -a := (List.cons.injEq .. ▸ h).1
      have h2 : t = t.map fun x => -x := (List.cons.injEq .. ▸ h).2
      rw [List.any_cons, ih h2, Bool.or_false]
      simp only [bne_eq_false_iff_eq]
      omega

lemma opp_bit_ne {s : Core} (vc : ValidCompass s.shape s.compass)
    {d d' : Direction} (hd : d ∈ s.compass) (hd' : d' ∈ s.compass)
    (hval : d'.val = d.opposite) {kd k' : Nat}
    (hkd : d.val = 2 ^ kd) (hk' : d'.val = 2 ^ k') : kd ≠ k' := by
  intro hcon
  have heq : d' = d :=
    List.inj_on_of_nodup_map vc.2.2.1 hd' hd (by rw [hk', hkd, hcon])
  obtain ⟨d2, hd2, hv2, _, hdel2⟩ := vc_opp vc hd
  have heq2 : d2 = d :=
    List.inj_on_of_nodup_map vc.2.2.1 hd2 hd (by rw [hv2, ← hval, heq])
  rw [heq2] at hdel2
  have hz := eq_neg_map_all_zero d.deltas hdel2
  have hnz := vc.2.2.2.2.1 d hd
  rw [hnz] at hz
  cases hz

/-- All the facts needed about the double write that opens the passage
`current → neigh` in `recurse_gen` (and, for Wilson's algorithm, the shape
of a completed `markpath` stage). -/
lemma open_step (s : Core) (current neigh : Coord) (d : Direction)
    (vc : ValidCompass s.shape s.compass) (g : GInv s)
    (hd : d ∈ s.compass)
    (hinb : Inb s current) (hnh : ¬Hid s current) (him : InMaze s current)
    (hneigh : neigh = step current d.deltas)
    (hninb : Inb s neigh) (hempty : s.cells neigh &&& INUSE = 0)
    (s2 : Core)
    (hs2 : s2 = setCell (setCell s current (s.cells current ||| d.val)) neigh
      ((setCell s current (s.cells current ||| d.val)).cells neigh |||
        (INMAZE ||| d.opposite))) :
    GInv s2 ∧
    (∀ c k, (s.cells c).testBit k = true → (s2.cells c).testBit k = true) ∧
    (∀ c, s2.cells c ≠ s.cells c → Inb s c ∧ ¬Hid s c) ∧
    (doorPairs s2).length = (doorPairs s).length + 2 ∧
    imCount s2 = imCount s + 1 ∧
    (∀ c, InMaze s2 c ↔ InMaze s c ∨ c = neigh) ∧
    doorAdj s2 neigh current ∧
    (∀ L, Cert s L → Cert s2 (L ++ [neigh])) ∧
    s2.shape = s.shape ∧ s2.compass = s.compass ∧
    (∀ c, Hid s2 c ↔ Hid s c) ∧
    s2.cells neigh &&& INUSE ≠ 0 := by
  have hne : neigh ≠ current := by
    rw [hneigh]
    exact step_ne vc hd hinb
  have hcz : s.cells neigh = 0 := g.emptyVal neigh hninb hempty
  obtain ⟨kd, hkd4, hkd14, hkdval⟩ := vc_val_pow vc hd
  obtain ⟨d', hd', hvald', hoppd', hdeld'⟩ := vc_opp vc hd
  obtain ⟨k', hk'4, hk'14, hk'val⟩ := vc_val_pow vc hd'
  have hkne : kd ≠ k' := opp_bit_ne vc hd hd' hvald' hkdval hk'val
  set v0 := s.cells current with hv0
  set s1 := setCell s current (v0 ||| d.val) with hs1
  have hs1cur : s1.cells current = v0 ||| d.val := setCell_cells_self s current _
  have hs1ne : ∀ c, c ≠ current → s1.cells c = s.cells c :=
    fun c hc => setCell_cells_ne s current _ c hc
  have hs1n : s1.cells neigh = 0 := by rw [hs1ne neigh hne, hcz]
  have hval2 : s1.cells neigh ||| (INMAZE ||| d.opposite) = INMAZE ||| d.opposite := by
    rw [hs1n, Nat.zero_or]
  have hc2n : s2.cells neigh = INMAZE ||| d.opposite := by
    rw [hs2, setCell_cells_self, hval2]
  have hc2cur : s2.cells current = v0 ||| d.val := by
    rw [hs2, setCell_cells_ne _ _ _ _ (fun hcon => hne hcon.symm), hs1cur]
  have hc2ne : ∀ c, c ≠ current → c ≠ neigh → s2.cells c = s.cells c := by
    intro c h1 h2
    rw [hs2, setCell_cells_ne _ _ _ _ h2, hs1ne c h1]
  have hshape2 : s2.shape = s.shape := by rw [hs2]; rfl
  have hcomp2 : s2.compass = s.compass := by rw [hs2]; rfl
  have hInbIff : ∀ c, Inb s2 c ↔ Inb s c := fun _ => inb_of_shape_eq hshape2
  have hfresh : s.cells current &&& d.val = 0 := by
    by_contra hb
    have := (g.doorsDst current d hd hb).2.1
    rw [← hneigh] at this
    rw [InMaze] at this
    rw [show s.cells neigh &&& INMAZE = 0 from ?_] at this
    · exact this rfl
    · rw [hcz, Nat.zero_and]
  have hstepback : step neigh d'.deltas = current := by
    rw [hneigh, hdeld']
    exact step_step_neg current d.deltas
      (by rw [compass_delta_len vc hd, inb_length hinb])
  -- how a direction bit test changes on each touched cell
  have hbitcur : ∀ (d2 : Direction), d2 ∈ s.compass →
      (s2.cells current &&& d2.val ≠ 0 ↔ s.cells current &&& d2.val ≠ 0 ∨ d2 = d) := by
    intro d2 hd2
    obtain ⟨k2, hk24, _, hk2val⟩ := vc_val_pow vc hd2
    rw [hc2cur]
    by_cases hd2d : d2 = d
    · subst hd2d
      simp only [eq_self_iff_true, or_true, iff_true]
      rw [hk2val]
      exact or_pow_and_pow_self v0 k2
    · have hk2kd : kd ≠ k2 := by
        intro hcon
        exact hd2d (List.inj_on_of_nodup_map vc.2.2.1 hd2 hd
          (by rw [hk2val, hkdval, hcon]))
      rw [hk2val, hkdval, or_pow_and_pow v0 kd k2 hk2kd, ← hv0]
      simp [hd2d]
  have hbitn : ∀ (d2 : Direction), d2 ∈ s.compass →
      (s2.cells neigh &&& d2.val ≠ 0 ↔ d2 = d') := by
    intro d2 hd2
    obtain ⟨k2, hk24, _, hk2val⟩ := vc_val_pow vc hd2
    rw [hc2n, ← hvald', hk'val, hk2val, INMAZE_pow, lor_and_ne]
    constructor
    · rintro (hb | hb)
      · exact absurd (pow_and_pow_ne (show (0 : Nat) ≠ k2 by omega)) hb
      · by_cases hkk : k' = k2
        · exact (List.inj_on_of_nodup_map vc.2.2.1 hd2 hd'
            (by rw [hk2val, hk'val, hkk]))
        · exact absurd (pow_and_pow_ne hkk) hb
    · rintro rfl
      refine Or.inr ?_
      rw [show k2 = k' from ?_]
      · rw [Nat.and_self]
        positivity
      · have := hk2val.symm.trans hk'val
        exact Nat.pow_right_injective (by norm_num) this
  have hmono : ∀ c k, (s.cells c).testBit k = true → (s2.cells c).testBit k = true := by
    intro c k hk
    by_cases hc : c = current
    · rw [hc] at hk ⊢
      rw [hc2cur, Nat.testBit_lor]
      rw [← hv0] at hk
      rw [hk, Bool.true_or]
    · by_cases hcn : c = neigh
      · rw [hcn] at hk
        rw [hcz, Nat.zero_testBit] at hk
        cases hk
      · rw [hc2ne c hc hcn]
        exact hk
  have hAndMono : ∀ c m, s.cells c &&& m ≠ 0 → s2.cells c &&& m ≠ 0 := by
    intro c m h
    rw [and_ne_zero_iff] at h ⊢
    obtain ⟨k, h1, h2⟩ := h
    exact ⟨k, hmono c k h1, h2⟩
  have hHidIff : ∀ c, Hid s2 c ↔ Hid s c := by
    intro c
    by_cases hc : c = current
    · rw [hc, Hid, Hid, hc2cur, hkdval, HIDDEN_pow, ← hv0]
      exact or_and_right_zero (pow_and_pow_ne (by omega))
    · by_cases hcn : c = neigh
      · rw [hcn, Hid, Hid, hc2n, hcz, ← hvald', hk'val, INMAZE_pow, HIDDEN_pow]
        rw [lor_and_ne]
        constructor
        · rintro (hb | hb)
          · exact absurd (pow_and_pow_ne (by omega : (0 : Nat) ≠ 1)) hb
          · exact absurd (pow_and_pow_ne (by omega : k' ≠ 1)) hb
        · intro hb
          rw [Nat.zero_and] at hb
          exact absurd rfl hb
      · rw [Hid, Hid, hc2ne c hc hcn]
  have hImCur : InMaze s2 current := inMaze_mono hmono him
  have hImN : InMaze s2 neigh := by
    rw [InMaze, hc2n, INMAZE_pow, lor_and_ne]
    refine Or.inl ?_
    rw [Nat.and_self]
    positivity
  have hImIff : ∀ c, InMaze s2 c ↔ InMaze s c ∨ c = neigh := by
    intro c
    by_cases hc : c = current
    · rw [hc]
      exact ⟨fun _ => Or.inl him, fun _ => hImCur⟩
    · by_cases hcn : c = neigh
      · rw [hcn]
        exact ⟨fun _ => Or.inr rfl, fun _ => hImN⟩
      · rw [InMaze, InMaze, hc2ne c hc hcn]
        simp [hcn]
  have hnhN : ¬Hid s neigh := by
    rw [Hid, hcz, Nat.zero_and]
    exact fun h => h rfl
  have hInuseN : s2.cells neigh &&& INUSE ≠ 0 := by
    rw [hc2n, show INUSE = INMAZE ||| HIDDEN from rfl]
    rw [show (INMAZE ||| d.opposite) = (d.opposite ||| INMAZE) from Nat.lor_comm _ _]
    rw [lor_and_ne]
    exact Or.inr (by decide)
  have hInuseCur : s2.cells current &&& INUSE ≠ 0 := by
    refine hAndMono current INUSE ?_
    rw [show INUSE = INMAZE ||| HIDDEN from rfl]
    rw [show s.cells current &&& (INMAZE ||| HIDDEN) ≠ 0 ↔
      s.cells current &&& INMAZE ≠ 0 ∨ s.cells current &&& HIDDEN ≠ 0 from ?_]
    · exact Or.inl him
    · rw [and_ne_zero_iff, and_ne_zero_iff, and_ne_zero_iff]
      constructor
      · rintro ⟨k, h1, h2⟩
        rw [Nat.testBit_lor] at h2
        rcases Bool.or_eq_true_iff.mp h2 with h2 | h2
        · exact Or.inl ⟨k, h1, h2⟩
        · exact Or.inr ⟨k, h1, h2⟩
      · rintro (⟨k, h1, h2⟩ | ⟨k, h1, h2⟩) <;>
          exact ⟨k, h1, by rw [Nat.testBit_lor]; simp [h2]⟩
  have hginv : GInv s2 := by
    refine ⟨?_, ?_, ?_, ?_, ?_, ?_, ?_, ?_⟩
    · intro c hc
      have hc' : ¬Inb s c := fun h => hc ((hInbIff c).mpr h)
      have h1 : c ≠ current := fun hcon => hc' (hcon ▸ hinb)
      have h2 : c ≠ neigh := fun hcon => hc' (hcon ▸ hninb)
      rw [hc2ne c h1 h2]
      exact g.outSafe c hc'
    · intro c hc
      rw [hHidIff c] at hc
      have h1 : c ≠ current := fun hcon => hnh (hcon ▸ hc)
      have h2 : c ≠ neigh := fun hcon => hnhN (hcon ▸ hc)
      rw [hc2ne c h1 h2]
      exact g.hidVal c hc
    · intro c hc hz
      have h1 : c ≠ current := fun hcon => hInuseCur (hcon ▸ hz)
      have h2 : c ≠ neigh := fun hcon => hInuseN (hcon ▸ hz)
      rw [hc2ne c h1 h2] at hz ⊢
      exact g.emptyVal c ((hInbIff c).mp hc) hz
    · intro c hc
      rcases (hImIff c).mp hc with h | rfl
      · have := g.imInb c h
        exact ⟨(hInbIff c).mpr this.1, fun hh => this.2 ((hHidIff c).mp hh)⟩
      · exact ⟨(hInbIff c).mpr hninb, fun hh => hnhN ((hHidIff c).mp hh)⟩
    · intro c d2 hd2 hb
      rw [hcomp2] at hd2
      by_cases hc : c = current
      · rw [hc]
        exact hImCur
      · by_cases hcn : c = neigh
        · rw [hcn]
          exact hImN
        · rw [hc2ne c hc hcn] at hb
          exact (hImIff c).mpr (Or.inl (g.doorsIm c d2 hd2 hb))
    · intro c d2 hd2 hb
      rw [hcomp2] at hd2
      by_cases hc : c = current
      · subst hc
        rcases (hbitcur d2 hd2).mp hb with hold | rfl
        · obtain ⟨t1, t2, t3⟩ := g.doorsDst c d2 hd2 hold
          exact ⟨(hInbIff _).mpr t1, (hImIff _).mpr (Or.inl t2),
            fun hh => t3 ((hHidIff _).mp hh)⟩
        · rw [← hneigh]
          exact ⟨(hInbIff _).mpr hninb, hImN, fun hh => hnhN ((hHidIff _).mp hh)⟩
      · by_cases hcn : c = neigh
        · subst hcn
          have := (hbitn d2 hd2).mp hb
          subst this
          rw [hstepback]
          exact ⟨(hInbIff _).mpr hinb, hImCur, fun hh => hnh ((hHidIff _).mp hh)⟩
        · rw [hc2ne c hc hcn] at hb
          obtain ⟨t1, t2, t3⟩ := g.doorsDst c d2 hd2 hb
          exact ⟨(hInbIff _).mpr t1, inMaze_mono hmono t2,
            fun hh => t3 ((hHidIff _).mp hh)⟩
    · intro c d2 hd2 hb
      rw [hcomp2] at hd2
      by_cases hc : c = current
      · subst hc
        rcases (hbitcur d2 hd2).mp hb with hold | rfl
        · exact hAndMono _ _ (g.doorsSym c d2 hd2 hold)
        · rw [← hneigh, hc2n, ← hvald', hk'val]
          rw [show (INMAZE ||| 2 ^ k') = (2 ^ k' ||| INMAZE) from Nat.lor_comm _ _]
          rw [lor_and_ne]
          refine Or.inl ?_
          rw [Nat.and_self]
          positivity
      · by_cases hcn : c = neigh
        · subst hcn
          have := (hbitn d2 hd2).mp hb
          subst this
          rw [hstepback, hoppd', hc2cur, hkdval]
          exact or_pow_and_pow_self v0 kd
        · rw [hc2ne c hc hcn] at hb
          exact hAndMono _ _ (g.doorsSym c d2 hd2 hb)
    · intro c k hk
      by_cases hc : c = current
      · rw [hc, hc2cur, Nat.testBit_lor] at hk
        rcases Bool.or_eq_true_iff.mp hk with hk | hk
        · rw [hv0] at hk
          rcases g.bitsDom current k hk with h | h | ⟨d2, hd2, hval⟩
          · exact Or.inl h
          · exact Or.inr (Or.inl h)
          · exact Or.inr (Or.inr ⟨d2, hcomp2 ▸ hd2, hval⟩)
        · right; right
          refine ⟨d, ?_, ?_⟩
          · rw [hcomp2]
            exact hd
          · rw [hkdval] at hk ⊢
            congr 1
            by_contra hcon
            rw [Nat.testBit_two_pow_of_ne hcon] at hk
            cases hk
      · by_cases hcn : c = neigh
        · rw [hcn, hc2n, Nat.testBit_lor] at hk
          rcases Bool.or_eq_true_iff.mp hk with hk | hk
          · left
            rw [INMAZE_pow] at hk
            by_contra hcon
            rw [Nat.testBit_two_pow_of_ne fun h => hcon h.symm] at hk
            cases hk
          · right; right
            refine ⟨d', ?_, ?_⟩
            · rw [hcomp2]
              exact hd'
            · rw [← hvald', hk'val] at hk
              rw [hk'val]
              congr 1
              by_contra hcon
              rw [Nat.testBit_two_pow_of_ne hcon] at hk
              cases hk
        · rw [hc2ne c hc hcn] at hk
          rcases g.bitsDom c k hk with h | h | ⟨d2, hd2, hval⟩
          · exact Or.inl h
          · exact Or.inr (Or.inl h)
          · exact Or.inr (Or.inr ⟨d2, hcomp2 ▸ hd2, hval⟩)
  have hcompassNodup : s.compass.Nodup := List.Nodup.of_map _ vc.2.2.1
  have hninb1 : Inb s1 neigh := hninb
  have hdpl1 : (doorPairs s1).length = (doorPairs s).length + 1 := by
    have h1 := doorPairsLen_setCell s current (v0 ||| d.val) hinb
    have hfg1 : ∀ d2 ∈ s.compass, d2 ≠ d →
        ((fun d2 => (v0 ||| d.val) &&& d2.val != 0) d2) =
        ((fun d2 => s.cells current &&& d2.val != 0) d2) := by
      intro d2 hdmem hd2ne
      obtain ⟨k2, _, _, hk2val⟩ := vc_val_pow vc hdmem
      refine bne_zero_congr ?_
      have hk2kd : kd ≠ k2 := by
        intro hcon
        exact hd2ne (List.inj_on_of_nodup_map vc.2.2.1 hdmem hd
          (by rw [hk2val, hkdval, hcon]))
      rw [hkdval, hk2val, ← hv0]
      exact or_pow_and_pow v0 kd k2 hk2kd
    have h := filter_length_update s.compass hcompassNodup d hd
      (fun d2 => (v0 ||| d.val) &&& d2.val != 0)
      (fun d2 => s.cells current &&& d2.val != 0) hfg1
    have hgd : (s.cells current &&& d.val != 0) = false := by
      simp only [bne_eq_false_iff_eq]
      exact hfresh
    have hfd : ((v0 ||| d.val) &&& d.val != 0) = true := by
      simp only [bne_iff_ne, ne_eq]
      rw [hkdval]
      exact or_pow_and_pow_self v0 kd
    simp only [hgd, hfd, Bool.false_eq_true, if_false, if_true] at h
    have hdc : doorCount s current =
        (s.compass.filter fun d2 => s.cells current &&& d2.val != 0).length := rfl
    rw [← hs1] at h1
    omega
  have hdpl2 : (doorPairs s2).length = (doorPairs s1).length + 1 := by
    have h2 := doorPairsLen_setCell s1 neigh
      (s1.cells neigh ||| (INMAZE ||| d.opposite)) hninb1
    rw [← hs2] at h2
    have hdc0 : doorCount s1 neigh = 0 := by
      unfold doorCount
      rw [List.length_eq_zero]
      refine List.filter_eq_nil_iff.mpr fun d2 _ => ?_
      rw [show s1.cells neigh = 0 from hs1n]
      simp
    have hfg2 : ∀ a ∈ s.compass, a ≠ d' →
        ((fun d2 => (s1.cells neigh ||| (INMAZE ||| d.opposite)) &&& d2.val != 0) a) =
        ((fun _ => false) a) := by
      intro a hmem hane
      simp only [bne_eq_false_iff_eq]
      rw [hval2]
      by_contra hb
      exact hane ((hbitn a hmem).mp (by rw [hc2n]; exact hb))
    have h := filter_length_update s.compass hcompassNodup d' hd'
      (fun d2 => (s1.cells neigh ||| (INMAZE ||| d.opposite)) &&& d2.val != 0)
      (fun _ => false) hfg2
    have hfd' : ((s1.cells neigh ||| (INMAZE ||| d.opposite)) &&& d'.val != 0)
        = true := by
      simp only [bne_iff_ne, ne_eq]
      rw [hval2]
      have hb := (hbitn d' hd').mpr rfl
      rw [hc2n] at hb
      exact hb
    simp only [hfd', Bool.false_eq_true, if_false, if_true, List.filter_false,
      List.length_nil] at h
    have hcompeq : s1.compass = s.compass := rfl
    rw [hcompeq] at h2
    omega
  have hdpl : (doorPairs s2).length = (doorPairs s).length + 2 := by omega
  have himc : imCount s2 = imCount s + 1 := by
    have h3 := imCount_setCell s current (v0 ||| d.val) hinb
    have ha : s.cells current &&& INMAZE ≠ 0 := him
    have hb : (v0 ||| d.val) &&& INMAZE ≠ 0 := by
      rw [and_ne_zero_iff] at ha ⊢
      obtain ⟨k, h1, h2⟩ := ha
      exact ⟨k, by rw [Nat.testBit_lor, ← hv0] at *; rw [h1]; rfl, h2⟩
    rw [if_pos ha, if_pos hb, ← hs1] at h3
    have h4 := imCount_setCell s1 neigh
      (s1.cells neigh ||| (INMAZE ||| d.opposite)) hninb1
    have hcn : ¬(s1.cells neigh &&& INMAZE ≠ 0) := by
      rw [hs1n, Nat.zero_and]
      exact fun h => h rfl
    have hdm : (s1.cells neigh ||| (INMAZE ||| d.opposite)) &&& INMAZE ≠ 0 := by
      rw [hval2]
      rw [and_ne_zero_iff]
      exact ⟨0, by rw [Nat.testBit_lor]; rfl, by rfl⟩
    rw [if_pos hdm, if_neg hcn, ← hs2] at h4
    omega
  have hadj : doorAdj s2 neigh current := by
    refine ⟨d', ?_, (hbitn d' hd').mpr rfl, hstepback.symm⟩
    rw [hcomp2]
    exact hd'
  have hAdjOldIff : ∀ a b, a ≠ neigh → b ≠ neigh →
      (doorAdj s2 a b ↔ doorAdj s a b) := by
    intro a b ha hb
    constructor
    · rintro ⟨d2, hd2, hbit, rfl⟩
      rw [hcomp2] at hd2
      by_cases hac : a = current
      · subst hac
        rcases (hbitcur d2 hd2).mp hbit with hold | rfl
        · exact ⟨d2, hd2, hold, rfl⟩
        · exact absurd hneigh.symm hb
      · rw [hc2ne a hac ha] at hbit
        exact ⟨d2, hd2, hbit, rfl⟩
    · rintro ⟨d2, hd2, hbit, rfl⟩
      refine ⟨d2, ?_, hAndMono a d2.val hbit, rfl⟩
      rw [hcomp2]
      exact hd2
  have hOutN : ∀ b, doorAdj s2 neigh b → b = current := by
    rintro b ⟨d2, hd2, hbit, rfl⟩
    rw [hcomp2] at hd2
    have := (hbitn d2 hd2).mp hbit
    subst this
    exact hstepback
  have hgetDinj : ∀ (L : List Coord), L.Nodup → ∀ j k, j < L.length →
      k < L.length → L.getD j [] = L.getD k [] → j = k := by
    intro L hnd j k hj hk h
    rw [List.getD_eq_getElem L [] hj, List.getD_eq_getElem L [] hk] at h
    have h3 := List.nodup_iff_injective_get.mp hnd
      (show L.get ⟨j, hj⟩ = L.get ⟨k, hk⟩ from h)
    exact congrArg Fin.val h3
  have hcert : ∀ L, Cert s L → Cert s2 (L ++ [neigh]) := by
    intro L hL
    have hnin : neigh ∉ L := by
      intro hmem
      have := hL.memIm neigh hmem
      rw [InMaze, hcz, Nat.zero_and] at this
      exact this rfl
    have hmemL : ∀ m, m < L.length → L.getD m [] ∈ L := by
      intro m hm
      rw [List.getD_eq_getElem L [] hm]
      exact List.getElem_mem hm
    have hgetL : ∀ m, m < L.length → (L ++ [neigh]).getD m [] = L.getD m [] :=
      fun m hm => List.getD_append L [neigh] [] m hm
    have hgetN : (L ++ [neigh]).getD L.length [] = neigh := by
      rw [List.getD_append_right L [neigh] [] L.length (le_refl _)]
      simp
    refine ⟨?_, ?_, ?_, ?_⟩
    · rw [List.nodup_append]
      exact ⟨hL.nodup, List.nodup_singleton _, fun a haL han =>
        hnin ((List.mem_singleton.mp han) ▸ haL)⟩
    · intro c hc
      rcases (hImIff c).mp hc with h | rfl
      · exact List.mem_append.mpr (Or.inl (hL.mem c h))
      · exact List.mem_append.mpr (Or.inr (List.mem_singleton.mpr rfl))
    · intro c hc
      rcases List.mem_append.mp hc with h | h
      · exact inMaze_mono hmono (hL.memIm c h)
      · rw [List.mem_singleton.mp h]
        exact hImN
    · intro i j k hi hj hk hadj1 hadj2
      have hilen : i < L.length + 1 := by
        rw [List.length_append, List.length_singleton] at hi
        exact hi
      by_cases hiL : i < L.length
      · have hjL : j < L.length := lt_trans hj hiL
        have hkL : k < L.length := lt_trans hk hiL
        rw [hgetL i hiL, hgetL j hjL] at hadj1
        rw [hgetL i hiL, hgetL k hkL] at hadj2
        have hne1 : L.getD i [] ≠ neigh :=
          fun hcon => hnin (hcon ▸ hmemL i hiL)
        have hne2 : L.getD j [] ≠ neigh :=
          fun hcon => hnin (hcon ▸ hmemL j hjL)
        have hne3 : L.getD k [] ≠ neigh :=
          fun hcon => hnin (hcon ▸ hmemL k hkL)
        exact hL.atMostOne i j k hiL hj hk
          ((hAdjOldIff _ _ hne1 hne2).mp hadj1)
          ((hAdjOldIff _ _ hne1 hne3).mp hadj2)
      · have hieq : i = L.length := by omega
        have hjL : j < L.length := by omega
        have hkL : k < L.length := by omega
        rw [hieq, hgetN, hgetL j hjL] at hadj1
        rw [hieq, hgetN, hgetL k hkL] at hadj2
        exact hgetDinj L hL.nodup j k hjL hkL
          ((hOutN _ hadj1).trans (hOutN _ hadj2).symm)
  have hframe : ∀ c, s2.cells c ≠ s.cells c → Inb s c ∧ ¬Hid s c := by
    intro c hcdiff
    by_cases h1 : c = current
    · subst h1
      exact ⟨hinb, hnh⟩
    · by_cases h2 : c = neigh
      · subst h2
        exact ⟨hninb, hnhN⟩
      · exact absurd (hc2ne c h1 h2) hcdiff
  exact ⟨hginv, hmono, hframe, hdpl, himc, hImIff, hadj, hcert,
    hshape2, hcomp2, hHidIff, hInuseN⟩

/-! ## The recursive generator satisfies the generator-step contract -/

lemma im_not_hid {s : Core} (g : GInv s) {c : Coord} (him : InMaze s c) :
    ¬Hid s c := fun hh => (g.imInb c him).2 hh

lemma vc_congr {s s' : Core} (hsh : s'.shape = s.shape)
    (hcp : s'.compass = s.compass)
    (vc : ValidCompass s.shape s.compass) :
    ValidCompass s'.shape s'.compass := by
  rw [hsh, hcp]
  exact vc

lemma mem_eraseDups_loop {α : Type} [BEq α] [LawfulBEq α] :
    ∀ (as bs : List α) (x : α),
      (x ∈ List.eraseDups.loop as bs ↔ x ∈ as ∨ x ∈ bs.reverse) := by
  intro as
  induction as with
  | nil =>
      intro bs x
      rw [List.eraseDups.loop]
      simp
  | cons a as ih =>
      intro bs x
      rw [List.eraseDups.loop]
      split
      · rename_i hel
        rw [ih bs x]
        have ha : a ∈ bs := List.elem_iff.mp hel
        simp only [List.mem_cons, List.mem_reverse]
        constructor
        · rintro (h | h)
          · exact Or.inl (Or.inr h)
          · exact Or.inr h
        · rintro (h | h)
          · rcases h with rfl | h
            · exact Or.inr ha
            · exact Or.inl h
          · exact Or.inr h
      · rw [ih (a :: bs) x]
        simp only [List.mem_cons, List.mem_reverse]
        constructor
        · rintro (h | h | h)
          · exact Or.inl (Or.inr h)
          · exact Or.inl (Or.inl h)
          · exact Or.inr h
        · rintro (h | h)
          · rcases h with rfl | h
            · exact Or.inr (Or.inl rfl)
            · exact Or.inl h
          · exact Or.inr (Or.inr h)

lemma mem_compassKeys {compass : List Direction} {d : Direction}
    (hd : d ∈ compass) : d.val ∈ compassKeys compass := by
  unfold compassKeys List.eraseDups
  rw [mem_eraseDups_loop]
  exact Or.inl (List.mem_map_of_mem _ hd)

lemma cert_congr {s s' : Core} (hc : ∀ c, s'.cells c = s.cells c)
    (hcp : s'.compass = s.compass) {L : List Coord} (h : Cert s L) :
    Cert s' L := by
  have hadj : ∀ a b, doorAdj s' a b ↔ doorAdj s a b :=
    doorAdj_congr hcp (fun c d _ => by rw [hc c])
  refine ⟨h.nodup, ?_, ?_, ?_⟩
  · intro c hcm
    exact h.mem c (by rwa [InMaze, hc c] at hcm)
  · intro c hcm
    rw [InMaze, hc c]
    exact h.memIm c hcm
  · intro i j k hi hj hk h1 h2
    exact h.atMostOne i j k hi hj hk ((hadj _ _).mp h1) ((hadj _ _).mp h2)

/-- Composing the passage opening `s → s2` with a completed recursive
subtree `s2 → s3` rooted at the fresh cell gives a generator step rooted
at `current`. -/
lemma open_close_genStep (s s2 s3 : Core) (current neigh : Coord)
    (him : InMaze s current)
    (hmono2 : ∀ c k, (s.cells c).testBit k = true → (s2.cells c).testBit k = true)
    (hframe2 : ∀ c, s2.cells c ≠ s.cells c → Inb s c ∧ ¬Hid s c)
    (hdpl : (doorPairs s2).length = (doorPairs s).length + 2)
    (himc : imCount s2 = imCount s + 1)
    (hImIff : ∀ c, InMaze s2 c ↔ InMaze s c ∨ c = neigh)
    (hadj : doorAdj s2 neigh current)
    (hcert2 : ∀ L, Cert s L → Cert s2 (L ++ [neigh]))
    (hshape2 : s2.shape = s.shape) (hcomp2 : s2.compass = s.compass)
    (hHidIff : ∀ c, Hid s2 c ↔ Hid s c)
    (r : GenStep s2 s3 neigh) (hcl : ClosedAt s3 neigh) :
    GenStep s s3 current := by
  have himn : InMaze s2 neigh := (hImIff neigh).mpr (Or.inr rfl)
  refine ⟨r.shape_eq.trans hshape2, r.compass_eq.trans hcomp2,
    fun c k h => r.mono c k (hmono2 c k h), ?_,
    fun c => (r.hid_iff c).trans (hHidIff c), r.ginv, ?_, ?_, ?_, ?_, ?_⟩
  · intro c hne
    by_cases h1 : s2.cells c = s.cells c
    · have h2 := r.frame c (by rw [← h1] at hne; exact hne)
      rw [inb_of_shape_eq hshape2] at h2
      exact ⟨h2.1, fun hh => h2.2 ((hHidIff c).mpr hh)⟩
    · exact hframe2 c h1
  · have h2 := r.count
    have himn' : s2.cells neigh &&& INMAZE ≠ 0 := himn
    rw [if_pos himn'] at h2
    have him' : s.cells current &&& INMAZE ≠ 0 := him
    rw [if_pos him']
    omega
  · intro c h3 h0 _
    by_cases h2 : InMaze s2 c
    · rcases (hImIff c).mp h2 with h | rfl
      · exact absurd h h0
      · exact hcl
    · exact r.newClosed c h3 h2 (fun hcon => h2 (hcon ▸ himn))
  · intro c h1 h2
    exact r.oldClosed c (inMaze_mono hmono2 h1)
      (closedAt_mono hshape2 hcomp2 hmono2 h2)
  · intro c h3
    have hadj3 : doorAdj s3 neigh current := doorAdj_mono r.compass_eq r.mono hadj
    rcases r.reach c h3 with h2 | hr
    · rcases (hImIff c).mp h2 with h | rfl
      · exact Or.inl h
      · exact Or.inr (Relation.ReflTransGen.single hadj3)
    · exact Or.inr (hr.tail hadj3)
  · intro L hL
    obtain ⟨L2, hL2⟩ := r.cert (L ++ [neigh]) (hcert2 L hL)
    exact ⟨[neigh] ++ L2, by rw [← List.append_assoc]; exact hL2⟩

/-- The direction loop of `recurse_gen`: assuming the recursive call `rg`
satisfies the generator contract, the loop is a generator step and leaves
every processed in-bounds direction in use. -/
lemma recurse_list_spec (rg : Core → Coord → Option (Core × List Event))
    (hrg : ∀ s c s' evs, ValidCompass s.shape s.compass → GInv s →
      Inb s c → ¬Hid s c → rg s c = some (s', evs) →
      GenStep s s' c ∧ ClosedAt s' c) :
    ∀ (dvs : List Nat) (s : Core) (current : Coord) (s4 : Core)
      (evs : List Event),
      ValidCompass s.shape s.compass → GInv s → Inb s current →
      InMaze s current →
      recurse_list rg s current dvs = some (s4, evs) →
      GenStep s s4 current ∧
      ∀ d2 ∈ s.compass, d2.val ∈ dvs →
        inbound s.shape (step current d2.deltas) = true →
        s4.cells (step current d2.deltas) &&& INUSE ≠ 0 := by
  intro dvs
  induction dvs with
  | nil =>
      intro s current s4 evs vc g hinb him hrec
      simp only [recurse_list] at hrec
      cases hrec
      exact ⟨GenStep_refl g him,
        fun d2 _ hdv _ => absurd hdv (List.not_mem_nil _)⟩
  | cons dv rest ih =>
      intro s current s4 evs vc g hinb him hrec
      have hnh : ¬Hid s current := im_not_hid g him
      simp only [recurse_list] at hrec
      split at hrec
      · cases hrec
      · rename_i d hcg
        obtain ⟨hdmem, hdval⟩ := compassGet_mem hcg
        split at hrec
        · rename_i hcond
          obtain ⟨hstep, hclosed⟩ := ih s current s4 evs vc g hinb him hrec
          refine ⟨hstep, ?_⟩
          intro d2 hd2 hdv2 hinbd
          rcases List.mem_cons.mp hdv2 with heq | hmem
          · have hd2d : d2 = d := List.inj_on_of_nodup_map vc.2.2.1 hd2 hdmem
              (by rw [heq, hdval])
            subst hd2d
            rcases Bool.or_eq_true_iff.mp hcond with hb | hb
            · rw [Bool.not_eq_true'] at hb
              rw [hinbd] at hb
              cases hb
            · exact inuse_mono hstep.mono (bne_iff_ne.mp hb)
          · exact hclosed d2 hd2 hmem hinbd
        · rename_i hcond
          rw [Bool.not_eq_true, Bool.or_eq_false_iff] at hcond
          obtain ⟨hc1, hc2⟩ := hcond
          rw [Bool.not_eq_false'] at hc1
          rw [bne_eq_false_iff_eq] at hc2
          have hninb' : Inb s (step current d.deltas) := hc1
          split at hrec
          · cases hrec
          · rename_i s3 ev2 hr1
            split at hrec
            · cases hrec
            · rename_i s4' ev3 hr2
              cases hrec
              have hO := open_step s current (step current d.deltas) d vc g
                hdmem hinb hnh him rfl hninb' hc2
                (setCell (setCell s current (s.cells current ||| dv))
                  (step current d.deltas)
                  ((setCell s current (s.cells current ||| dv)).cells
                    (step current d.deltas) ||| (INMAZE ||| d.opposite)))
                (by rw [hdval])
              obtain ⟨hginv2, hmono2, hframe2, hdpl2, himc2, hImIff2, hadj2,
                hcert2, hshape2, hcomp2, hHidIff2, hInuse2⟩ := hO
              have vc2 := vc_congr hshape2 hcomp2 vc
              have hinbN2 := (inb_of_shape_eq hshape2).mpr hninb'
              have himN2 := (hImIff2 (step current d.deltas)).mpr (Or.inr rfl)
              have hnhN2 := im_not_hid hginv2 himN2
              obtain ⟨r, hcl⟩ := hrg _ (step current d.deltas) s3 ev2 vc2
                hginv2 hinbN2 hnhN2 hr1
              have hstep1 : GenStep s s3 current :=
                open_close_genStep s _ s3 current (step current d.deltas) him
                  hmono2 hframe2 hdpl2 himc2 hImIff2 hadj2 hcert2 hshape2
                  hcomp2 hHidIff2 r hcl
              have him3 : InMaze s3 current := inMaze_mono hstep1.mono him
              have vc3 := vc_congr hstep1.shape_eq hstep1.compass_eq vc
              have hinb3 := (inb_of_shape_eq hstep1.shape_eq).mpr hinb
              obtain ⟨hstep2, hclosed2⟩ := ih s3 current _ _ vc3
                hstep1.ginv hinb3 him3 hr2
              refine ⟨GenStep_trans hstep1 hstep2 him3, ?_⟩
              intro d2 hd2 hdv2 hinbd
              rcases List.mem_cons.mp hdv2 with heq | hmem
              · have hd2d : d2 = d := List.inj_on_of_nodup_map vc.2.2.1 hd2
                  hdmem (by rw [heq, hdval])
                subst hd2d
                exact inuse_mono hstep2.mono (inuse_mono r.mono hInuse2)
              · exact hclosed2 d2 (by rw [hstep1.compass_eq]; exact hd2) hmem
                  (by rw [hstep1.shape_eq]; exact hinbd)

/-- `recurse_gen` is a generator step rooted at `current`, and on completion
`current` has no reachable empty neighbor left. -/
lemma recurse_gen_spec : ∀ (fuel : Nat) (s : Core) (current : Coord)
    (s' : Core) (evs : List Event),
    ValidCompass s.shape s.compass → GInv s →
    Inb s current → ¬Hid s current →
    recurse_gen fuel s current = some (s', evs) →
    GenStep s s' current ∧ ClosedAt s' current ∧ InMaze s' current := by
  intro fuel
  induction fuel with
  | zero =>
      intro s current s' evs _ _ _ _ hrec
      simp only [recurse_gen] at hrec
      cases hrec
  | succ fuel ih =>
      intro s current s' evs vc g hinb hnh hrec
      simp only [recurse_gen] at hrec
      obtain ⟨hmark, hIm1⟩ := mark_genStep s current vc g hinb hnh
      set SH := shuffle (setCell s current (s.cells current ||| INMAZE))
        (compassKeys (setCell s current (s.cells current ||| INMAZE)).compass)
        with hSH
      split at hrec
      · cases hrec
      · rename_i s3 evs3 hlist
        cases hrec
        have vcS : ValidCompass SH.2.shape SH.2.compass := vc
        have gS : GInv SH.2 := ⟨hmark.ginv.outSafe, hmark.ginv.hidVal,
          hmark.ginv.emptyVal, hmark.ginv.imInb, hmark.ginv.doorsIm,
          hmark.ginv.doorsDst, hmark.ginv.doorsSym, hmark.ginv.bitsDom⟩
        have hinbS : Inb SH.2 current := hinb
        have himS : InMaze SH.2 current := hIm1
        obtain ⟨R, hclosedAll⟩ := recurse_list_spec (recurse_gen fuel)
          (fun a b c2 d2 e f g2 h i =>
            ⟨(ih a b c2 d2 e f g2 h i).1, (ih a b c2 d2 e f g2 h i).2.1⟩)
          SH.1 SH.2 current _ _ vcS gS hinbS himS hlist
        have R1 : GenStep (setCell s current (s.cells current ||| INMAZE))
            s' current := ⟨R.shape_eq, R.compass_eq, R.mono, R.frame,
          R.hid_iff, R.ginv, R.count, R.newClosed, R.oldClosed, R.reach,
          fun L hL => R.cert L (@cert_congr
            (setCell s current (s.cells current ||| INMAZE)) SH.2
            (fun _ => rfl) rfl L hL)⟩
        refine ⟨GenStep_trans hmark R1 hIm1, ?_, inMaze_mono R1.mono hIm1⟩
        intro d hd hinbd
        rw [R1.compass_eq] at hd
        rw [R1.shape_eq] at hinbd
        have hdv : d.val ∈ SH.1 :=
          (shuffle_perm _ _).mem_iff.mpr (mem_compassKeys hd)
        exact hclosedAll d (show d ∈ SH.2.compass from hd) hdv
          (show inbound SH.2.shape (step current d.deltas) = true from hinbd)

/-! ## Symmetry and acyclicity of the door graph -/

/-- With a valid compass and the invariant, every door is two-way. -/
lemma doorAdj_symm {s : Core} (vc : ValidCompass s.shape s.compass)
    (g : GInv s) {a b : Coord} (h : doorAdj s a b) : doorAdj s b a := by
  obtain ⟨d, hd, hbit, rfl⟩ := h
  have hinba : Inb s a := (g.imInb a (g.doorsIm a d hd hbit)).1
  obtain ⟨d', hd', hval', _, hdel'⟩ := vc_opp vc hd
  refine ⟨d', hd', ?_, ?_⟩
  · rw [hval']
    exact g.doorsSym a d hd hbit
  · rw [hdel']
    exact (step_step_neg a d.deltas
      (by rw [compass_delta_len vc hd, inb_length hinba])).symm

lemma reach_symm {s : Core} (vc : ValidCompass s.shape s.compass)
    (g : GInv s) {a b : Coord} (h : Reach s a b) : Reach s b a := by
  induction h with
  | refl => exact Relation.ReflTransGen.refl
  | tail _ hadj ih =>
      exact Relation.ReflTransGen.trans
        (Relation.ReflTransGen.single (doorAdj_symm vc g hadj)) ih

/-- The construction-order certificate rules out door cycles: the cycle
element appearing latest in the certificate would be door-adjacent to two
distinct earlier entries. -/
lemma cert_acyclic {s : Core} (vc : ValidCompass s.shape s.compass)
    (g : GInv s) {L : List Coord} (hL : Cert s L) (l : List Coord) :
    ¬IsDoorCycle s l := by
  rintro ⟨hlen, hnd, hch, hclose⟩
  have h0 : 0 < l.length := by omega
  have hm1 : l.length - 1 < l.length := by omega
  have hstep : ∀ (i : Nat) (h : i + 1 < l.length),
      doorAdj s (l.get ⟨i, by omega⟩) (l.get ⟨i + 1, h⟩) :=
    fun i h => List.chain'_iff_get.mp hch i (by omega)
  have hcl0 : doorAdj s (l.get ⟨l.length - 1, hm1⟩) (l.get ⟨0, h0⟩) := by
    apply hclose
    · rw [List.head?_eq_getElem?, List.getElem?_eq_getElem h0]
      rfl
    · rw [List.getLast?_eq_getElem?, List.getElem?_eq_getElem hm1]
      rfl
  have hmemL : ∀ (i : Nat) (h : i < l.length), l.get ⟨i, h⟩ ∈ L := by
    intro i h
    refine hL.mem _ ?_
    by_cases hlast : i + 1 < l.length
    · obtain ⟨d, hd, hbit, _⟩ := hstep i hlast
      exact g.doorsIm _ d hd hbit
    · have hieq : i = l.length - 1 := by omega
      subst hieq
      obtain ⟨d, hd, hbit, _⟩ := hcl0
      exact g.doorsIm _ d hd hbit
  have getc : ∀ (i j : Nat) (hi : i < l.length) (hj : j < l.length), i = j →
      l.get ⟨i, hi⟩ = l.get ⟨j, hj⟩ := by
    intro i j hi hj hij
    subst hij
    rfl
  have hlne : l ≠ [] := by
    intro hcon
    rw [hcon] at hlen
    simp at hlen
  set J := (List.range L.length).filter (fun j => decide (L.getD j [] ∈ l))
    with hJ
  have hJmem : ∀ (a : Coord), a ∈ l →
      ∃ j, j ∈ J ∧ j < L.length ∧ L.getD j [] = a := by
    intro a hal
    have haL : a ∈ L := by
      obtain ⟨i, hi, heq⟩ := List.mem_iff_getElem.mp hal
      rw [← heq]
      exact hmemL i hi
    obtain ⟨j, hj, hjeq⟩ := List.mem_iff_getElem.mp haL
    have hgd : L.getD j [] = a := by
      rw [List.getD_eq_getElem L [] hj]
      exact hjeq
    refine ⟨j, ?_, hj, hgd⟩
    rw [hJ, List.mem_filter]
    refine ⟨List.mem_range.mpr hj, ?_⟩
    rw [decide_eq_true_iff]
    rw [hgd]
    exact hal
  have hJne : J ≠ [] := by
    obtain ⟨j, hjJ, _, _⟩ := hJmem (l.get ⟨0, h0⟩) (List.get_mem l 0 h0)
    intro hcon
    rw [hcon] at hjJ
    cases hjJ
  obtain ⟨jmax, hjmax⟩ : ∃ jm : Nat, J.maximum = (jm : WithBot Nat) := by
    cases hq : J.maximum with
    | bot => exact absurd (List.maximum_eq_bot.mp hq) hJne
    | coe jm => exact ⟨jm, rfl⟩
  have hjmJ : jmax ∈ J := List.maximum_mem hjmax
  have hjmax_lt : jmax < L.length := by
    rw [hJ] at hjmJ
    exact List.mem_range.mp (List.mem_filter.mp hjmJ).1
  have hxmem : L.getD jmax [] ∈ l := by
    rw [hJ] at hjmJ
    have h2 := (List.mem_filter.mp hjmJ).2
    rwa [decide_eq_true_iff] at h2
  set x := L.getD jmax [] with hx
  obtain ⟨ist, hist, hxeq⟩ := List.mem_iff_getElem.mp hxmem
  have main : ∀ (iu iv : Nat) (hu : iu < l.length) (hv : iv < l.length),
      iu ≠ iv → iu ≠ ist → iv ≠ ist →
      doorAdj s x (l.get ⟨iu, hu⟩) → doorAdj s (l.get ⟨iv, hv⟩) x → False := by
    intro iu iv hu hv huv hux hvx he1 he2
    have hgetinj : ∀ (i j : Nat) (hi : i < l.length) (hj : j < l.length),
        l.get ⟨i, hi⟩ = l.get ⟨j, hj⟩ → i = j := by
      intro i j hi hj hcon
      exact congrArg Fin.val (List.nodup_iff_injective_get.mp hnd hcon)
    have hune : l.get ⟨iu, hu⟩ ≠ l.get ⟨iv, hv⟩ :=
      fun hcon => huv (hgetinj iu iv hu hv hcon)
    have huxne : l.get ⟨iu, hu⟩ ≠ x := by
      intro hcon
      exact hux (hgetinj iu ist hu hist (hcon.trans hxeq.symm))
    have hvxne : l.get ⟨iv, hv⟩ ≠ x := by
      intro hcon
      exact hvx (hgetinj iv ist hv hist (hcon.trans hxeq.symm))
    obtain ⟨ju, hjuJ, hju, hjueq⟩ := hJmem (l.get ⟨iu, hu⟩)
      (List.get_mem l iu hu)
    obtain ⟨jv, hjvJ, hjv, hjveq⟩ := hJmem (l.get ⟨iv, hv⟩)
      (List.get_mem l iv hv)
    have hjule : ju ≤ jmax := List.le_maximum_of_mem hjuJ hjmax
    have hjvle : jv ≤ jmax := List.le_maximum_of_mem hjvJ hjmax
    have hjult : ju < jmax := by
      rcases lt_or_eq_of_le hjule with h | h
      · exact h
      · refine absurd ?_ huxne
        rw [← hjueq, h]
    have hjvlt : jv < jmax := by
      rcases lt_or_eq_of_le hjvle with h | h
      · exact h
      · refine absurd ?_ hvxne
        rw [← hjveq, h]
    have hjj := hL.atMostOne jmax ju jv hjmax_lt hjult hjvlt
      (by rw [hjueq, ← hx]; exact he1)
      (by rw [hjveq, ← hx]; exact doorAdj_symm vc g he2)
    refine hune ?_
    rw [← hjueq, ← hjveq, hjj]
  by_cases hA : ist + 1 < l.length
  · by_cases hB : 0 < ist
    · refine main (ist + 1) (ist - 1) hA (by omega) (by omega) (by omega)
        (by omega) ?_ ?_
      · have h := hstep ist hA
        rw [show l.get ⟨ist, hist⟩ = x from hxeq] at h
        exact h
      · have h := hstep (ist - 1) (by omega)
        rw [getc (ist - 1 + 1) ist (by omega) hist (by omega)] at h
        rw [show l.get ⟨ist, hist⟩ = x from hxeq] at h
        exact h
    · have hz : ist = 0 := by omega
      subst hz
      refine main 1 (l.length - 1) (by omega) (by omega) (by omega) (by omega)
        (by omega) ?_ ?_
      · have h := hstep 0 (by omega)
        rw [show l.get ⟨0, h0⟩ = x from hxeq] at h
        exact h
      · have h := hcl0
        rw [show l.get ⟨0, h0⟩ = x from hxeq] at h
        exact h
  · have hz : ist = l.length - 1 := by omega
    subst hz
    refine main 0 (l.length - 1 - 1) h0 (by omega) (by omega) (by omega)
      (by omega) ?_ ?_
    · have h := hcl0
      rw [show l.get ⟨l.length - 1, hm1⟩ = x from hxeq] at h
      exact h
    · have h := hstep (l.length - 1 - 1) (by omega)
      rw [getc (l.length - 1 - 1 + 1) (l.length - 1) (by omega) hm1 (by omega)]
        at h
      rw [show l.get ⟨l.length - 1, hm1⟩ = x from hxeq] at h
      exact h

/-! ## Transport along pointwise-equal cores; the cleaned initial state -/

lemma ginv_congr {s s' : Core} (hc : s'.cells = s.cells)
    (hsh : s'.shape = s.shape) (hcp : s'.compass = s.compass)
    (g : GInv s) : GInv s' := by
  refine ⟨?_, ?_, ?_, ?_, ?_, ?_, ?_, ?_⟩
  · simp only [OutSafe, Inb]
    rw [hsh, hc]
    exact g.outSafe
  · simp only [HidVal, Hid]
    rw [hc]
    exact g.hidVal
  · simp only [EmptyVal, Inb]
    rw [hsh, hc]
    exact g.emptyVal
  · simp only [InMaze, Inb, Hid]
    rw [hsh, hc]
    exact g.imInb
  · simp only [InMaze]
    rw [hcp, hc]
    exact g.doorsIm
  · simp only [Inb, InMaze, Hid]
    rw [hcp, hsh, hc]
    exact g.doorsDst
  · rw [hcp, hc]
    exact g.doorsSym
  · rw [hcp, hc]
    exact g.bitsDom

lemma doorPairs_congr {s s' : Core} (hc : s'.cells = s.cells)
    (hsh : s'.shape = s.shape) (hcp : s'.compass = s.compass) :
    doorPairs s' = doorPairs s := by
  unfold doorPairs
  rw [hsh, hcp, hc]

lemma imCount_congr {s s' : Core} (hc : s'.cells = s.cells)
    (hsh : s'.shape = s.shape) : imCount s' = imCount s := by
  unfold imCount
  rw [hsh, hc]

lemma emptyCells_congr {s s' : Core} (hc : s'.cells = s.cells)
    (hsh : s'.shape = s.shape) : emptyCells s' = emptyCells s := by
  unfold emptyCells
  rw [hsh, hc]

lemma nhCells_congr {s s' : Core} (hc : s'.cells = s.cells)
    (hsh : s'.shape = s.shape) : nhCells s' = nhCells s := by
  unfold nhCells
  rw [hsh, hc]

lemma reach_congr {s s' : Core} (hc : s'.cells = s.cells)
    (hcp : s'.compass = s.compass) (a b : Coord) :
    Reach s' a b ↔ Reach s a b := by
  have hadj : doorAdj s' = doorAdj s := by
    funext a b
    exact propext (doorAdj_congr hcp (fun c d _ => by rw [hc]) a b)
  rw [Reach, Reach, hadj]

lemma and_hidden_bit {x k : Nat} (h : (x &&& HIDDEN).testBit k = true) :
    k = 1 := by
  rw [Nat.testBit_land] at h
  by_contra hk
  rw [HIDDEN_pow, Nat.testBit_two_pow_of_ne (fun hcon => hk hcon.symm),
    Bool.and_false] at h
  cases h

lemma clean_and_eq_zero (s : Core) (c : Coord) {m : Nat}
    (hm : m.testBit 1 = false) : (clean s).cells c &&& m = 0 := by
  apply Nat.eq_of_testBit_eq
  intro k
  rw [Nat.testBit_land, Nat.zero_testBit]
  cases hq : ((clean s).cells c).testBit k
  · rw [Bool.false_and]
  · have hk := and_hidden_bit hq
    subst hk
    rw [hm, Bool.and_false]

lemma not_inmaze_clean (s : Core) (c : Coord) : ¬InMaze (clean s) c := by
  rw [InMaze]
  intro h
  exact h (clean_and_eq_zero s c (by decide))

lemma clean_hid_iff (s : Core) (c : Coord) : Hid (clean s) c ↔ Hid s c := by
  rw [Hid, Hid, show (clean s).cells c = s.cells c &&& HIDDEN from rfl,
    Nat.land_assoc, Nat.and_self]

lemma ginv_clean (s : Core) (vc : ValidCompass s.shape s.compass) :
    GInv (clean s) := by
  have hval : ∀ d ∈ s.compass, (d.val).testBit 1 = false := by
    intro d hd
    obtain ⟨k2, hk24, _, hk2val⟩ := vc_val_pow vc hd
    rw [hk2val]
    exact Nat.testBit_two_pow_of_ne (by omega)
  refine ⟨?_, ?_, ?_, ?_, ?_, ?_, ?_, ?_⟩
  · intro c _
    exact clean_and_eq_zero s c (by decide)
  · intro c hc
    have hb1 : ((clean s).cells c).testBit 1 = true := by
      rw [Hid, HIDDEN_pow, hasBit_pow] at hc
      exact hc
    apply Nat.eq_of_testBit_eq
    intro k
    by_cases hk : k = 1
    · subst hk
      rw [hb1]
      decide
    · have hf : ((clean s).cells c).testBit k = false := by
        cases hq : ((clean s).cells c).testBit k
        · rfl
        · exact absurd (and_hidden_bit hq) hk
      rw [hf, HIDDEN_pow, Nat.testBit_two_pow_of_ne (fun hcon => hk hcon.symm)]
  · intro c _ hz
    apply Nat.eq_of_testBit_eq
    intro k
    rw [Nat.zero_testBit]
    cases hq : ((clean s).cells c).testBit k
    · rfl
    · have hk := and_hidden_bit hq
      subst hk
      exfalso
      have hb : ((clean s).cells c &&& INUSE).testBit 1 = true := by
        rw [Nat.testBit_land, hq]
        decide
      rw [hz, Nat.zero_testBit] at hb
      cases hb
  · intro c hc
    exact absurd hc (not_inmaze_clean s c)
  · intro c d hd hb
    exact absurd (clean_and_eq_zero s c (hval d hd)) hb
  · intro c d hd hb
    exact absurd (clean_and_eq_zero s c (hval d hd)) hb
  · intro c d hd hb
    exact absurd (clean_and_eq_zero s c (hval d hd)) hb
  · intro c k hk
    right; left
    exact and_hidden_bit hk

lemma imCount_clean (s : Core) : imCount (clean s) = 0 := by
  unfold imCount
  rw [List.length_eq_zero]
  refine List.filter_eq_nil_iff.mpr fun c _ => ?_
  simp only [bne_iff_ne, ne_eq, not_not]
  exact clean_and_eq_zero s c (by decide)

lemma doorPairsLen_clean (s : Core) (vc : ValidCompass s.shape s.compass) :
    (doorPairs (clean s)).length = 0 := by
  unfold doorPairs
  rw [List.length_eq_zero]
  refine List.flatMap_eq_nil_iff.mpr fun c _ => ?_
  rw [List.map_eq_nil_iff]
  refine List.filter_eq_nil_iff.mpr fun d hd => ?_
  obtain ⟨k2, hk24, _, hk2val⟩ := vc_val_pow vc hd
  simp only [bne_iff_ne, ne_eq, not_not]
  apply clean_and_eq_zero
  rw [hk2val]
  exact Nat.testBit_two_pow_of_ne (by omega)

lemma cert_clean (s : Core) : Cert (clean s) [] := by
  refine ⟨List.nodup_nil, ?_, ?_, ?_⟩
  · intro c hc
    exact absurd hc (not_inmaze_clean s c)
  · intro c hc
    cases hc
  · intro i j k hi _ _ _ _
    exact absurd hi (by simp)

/-! ## Connectivity of the non-hidden region and completeness -/

/-- Grid adjacency between in-bounds non-hidden cells. -/
def nhAdjB (s : Core) (u v : Coord) : Bool :=
  inbound s.shape u && inbound s.shape v &&
  (s.cells u &&& HIDDEN == 0) && (s.cells v &&& HIDDEN == 0) &&
  s.compass.any fun d => v == step u d.deltas

def nhAdj (s : Core) (u v : Coord) : Prop := nhAdjB s u v = true

def growOnce (s : Core) (acc : List Coord) : List Coord :=
  acc ++ (nhCells s).filter fun c =>
    decide (c ∉ acc) && acc.any fun a => nhAdjB s a c

def growN : Nat → Core → List Coord → List Coord
  | 0, _, acc => acc
  | n + 1, s, acc => growN n s (growOnce s acc)

/-- Closure of the first non-hidden cell under `nhAdjB`. -/
def nhClosure (s : Core) : List Coord :=
  match nhCells s with
  | [] => []
  | c :: _ => growN (nhCells s).length s [c]

/-- The non-hidden region is connected, as checked by closure saturation. -/
def NHConnected (s : Core) : Prop := ∀ c ∈ nhCells s, c ∈ nhClosure s

lemma growOnce_sound {s : Core} {c0 : Coord} {acc : List Coord}
    (h : ∀ a ∈ acc, Relation.ReflTransGen (nhAdj s) c0 a) :
    ∀ b ∈ growOnce s acc, Relation.ReflTransGen (nhAdj s) c0 b := by
  intro b hb
  rcases List.mem_append.mp hb with hmem | hmem
  · exact h b hmem
  · obtain ⟨_, hcond⟩ := List.mem_filter.mp hmem
    rw [Bool.and_eq_true] at hcond
    obtain ⟨a, ha, hadj⟩ := List.any_eq_true.mp hcond.2
    exact (h a ha).tail hadj

lemma growN_sound {s : Core} {c0 : Coord} :
    ∀ (n : Nat) (acc : List Coord),
    (∀ a ∈ acc, Relation.ReflTransGen (nhAdj s) c0 a) →
    ∀ b ∈ growN n s acc, Relation.ReflTransGen (nhAdj s) c0 b := by
  intro n
  induction n with
  | zero =>
      intro acc h b hb
      exact h b hb
  | succ n ih =>
      intro acc h b hb
      exact ih _ (growOnce_sound h) b hb

lemma nhClosure_sound {s : Core} {c0 : Coord} {rest : List Coord}
    (hb : nhCells s = c0 :: rest) :
    ∀ b ∈ nhClosure s, Relation.ReflTransGen (nhAdj s) c0 b := by
  intro b hmem
  unfold nhClosure at hmem
  rw [hb] at hmem
  refine growN_sound _ _ ?_ b hmem
  intro a ha
  rw [List.mem_singleton.mp ha]

lemma nhAdj_symm {s : Core} (vc : ValidCompass s.shape s.compass)
    {u v : Coord} (h : nhAdj s u v) : nhAdj s v u := by
  rw [nhAdj, nhAdjB] at h ⊢
  simp only [Bool.and_eq_true, List.any_eq_true] at h ⊢
  obtain ⟨⟨⟨⟨h1, h2⟩, h3⟩, h4⟩, d, hd, hstep⟩ := h
  rw [beq_iff_eq] at hstep
  obtain ⟨d', hd', _, _, hdel'⟩ := vc_opp vc hd
  refine ⟨⟨⟨⟨h2, h1⟩, h4⟩, h3⟩, d', hd', ?_⟩
  rw [beq_iff_eq, hstep, hdel']
  exact (step_step_neg u d.deltas
    (by rw [compass_delta_len vc hd, inb_length h1])).symm

lemma beq_zero_congr {x y : Nat} (h : x ≠ 0 ↔ y ≠ 0) : (x == 0) = (y == 0) := by
  have h2 := bne_zero_congr h
  rw [bne, bne] at h2
  exact Bool.not_inj h2

lemma nhAdj_congr_hid {s s' : Core} (hsh : s'.shape = s.shape)
    (hcp : s'.compass = s.compass) (hhid : ∀ c, Hid s' c ↔ Hid s c)
    (u v : Coord) : nhAdj s' u v ↔ nhAdj s u v := by
  have hb : ∀ c, (s'.cells c &&& HIDDEN == 0) = (s.cells c &&& HIDDEN == 0) := by
    intro c
    refine beq_zero_congr ?_
    have h2 := hhid c
    rw [Hid, Hid] at h2
    exact h2
  rw [nhAdj, nhAdj, nhAdjB, nhAdjB, hsh, hcp, hb u, hb v]

lemma inuse_zero_bit {x : Nat} (hz : x &&& INUSE = 0) {j : Nat} (hj : j < 2) :
    x &&& 2 ^ j = 0 := by
  apply Nat.eq_of_testBit_eq
  intro k
  rw [Nat.testBit_land, Nat.zero_testBit]
  cases hq : x.testBit k
  · rw [Bool.false_and]
  · by_cases hk : j = k
    · subst hk
      exfalso
      have hb : (x &&& INUSE).testBit j = true := by
        rw [Nat.testBit_land, hq, Bool.true_and]
        have hj2 : j = 0 ∨ j = 1 := by omega
        rcases hj2 with rfl | rfl <;> decide
      rw [hz, Nat.zero_testBit] at hb
      cases hb
    · rw [Nat.testBit_two_pow_of_ne hk, Bool.and_false]

lemma inuse_not_hid_im {s : Core} {c : Coord}
    (h1 : s.cells c &&& INUSE ≠ 0) (h2 : ¬Hid s c) : InMaze s c := by
  rw [Hid] at h2
  rw [InMaze]
  rw [and_ne_zero_iff] at h1 ⊢
  obtain ⟨k, hk1, hk2⟩ := h1
  have hk01 : k = 0 ∨ k = 1 := by
    by_contra hcon
    push_neg at hcon
    rw [show INUSE.testBit k = false from Nat.testBit_lt_two_pow ?_] at hk2
    · cases hk2
    · calc INUSE < 2 ^ 2 := by decide
        _ ≤ 2 ^ k := Nat.pow_le_pow_right (by norm_num) (by omega)
  rcases hk01 with rfl | rfl
  · exact ⟨0, hk1, by decide⟩
  · exfalso
    apply h2
    rw [and_ne_zero_iff]
    exact ⟨1, hk1, by decide⟩

/-- If every in-maze cell is closed, every non-hidden cell that can reach an
in-maze cell through the grid is itself in the maze. -/
lemma nhreach_all_im {s' : Core} (vc : ValidCompass s'.shape s'.compass)
    (hclosed : ∀ c, InMaze s' c → ClosedAt s' c)
    {root : Coord} (hrootIm : InMaze s' root) :
    ∀ u, Relation.ReflTransGen (nhAdj s') u root → InMaze s' u := by
  intro u hpath
  induction hpath using Relation.ReflTransGen.head_induction_on with
  | refl => exact hrootIm
  | head hadj htail ih =>
      rename_i a c
      rw [nhAdj, nhAdjB] at hadj
      simp only [Bool.and_eq_true, List.any_eq_true] at hadj
      obtain ⟨⟨⟨⟨h1, h2⟩, h3⟩, h4⟩, d, hd, hstep⟩ := hadj
      rw [beq_iff_eq] at hstep
      obtain ⟨d', hd', _, _, hdel'⟩ := vc_opp vc hd
      have hback : step c d'.deltas = a := by
        rw [hstep, hdel']
        exact step_step_neg a d.deltas
          (by rw [compass_delta_len vc hd, inb_length h1])
      have hiu := hclosed c ih d' hd' (by rw [hback]; exact h1)
      rw [hback] at hiu
      refine inuse_not_hid_im hiu ?_
      rw [Hid]
      intro hcon
      exact hcon (beq_iff_eq.mp h3)

/-- Completeness: with a closed in-maze region, a root in the maze, and
grid-connectivity of the non-hidden cells to the root, no empty cell
remains. -/
lemma empties_nil_of_connected {s' : Core}
    (vc : ValidCompass s'.shape s'.compass)
    (hclosed : ∀ c, InMaze s' c → ClosedAt s' c)
    {root : Coord} (hrootIm : InMaze s' root)
    (hconn : ∀ u, Inb s' u → ¬Hid s' u →
      Relation.ReflTransGen (nhAdj s') u root) :
    emptyCells s' = [] := by
  rw [List.eq_nil_iff_forall_not_mem]
  intro c hc
  unfold emptyCells at hc
  rw [List.mem_filter] at hc
  obtain ⟨hmem, hz⟩ := hc
  rw [beq_iff_eq] at hz
  have hinb : Inb s' c := (mem_allCoords s'.shape c).mp hmem
  have hnh : ¬Hid s' c := by
    rw [Hid, HIDDEN_pow]
    intro hcon
    exact hcon (inuse_zero_bit hz (by omega))
  have him := nhreach_all_im vc hclosed hrootIm c (hconn c hinb hnh)
  rw [InMaze, INMAZE_pow] at him
  exact him (inuse_zero_bit hz (by omega))

lemma mem_emptyCells_clean (s : Core) (c : Coord) :
    c ∈ emptyCells (clean s) ↔ Inb s c ∧ ¬Hid s c := by
  unfold emptyCells
  rw [List.mem_filter]
  have h1 : ((clean s).cells c &&& INUSE) = s.cells c &&& HIDDEN := by
    rw [show (clean s).cells c = s.cells c &&& HIDDEN from rfl, Nat.land_assoc]
    rfl
  constructor
  · rintro ⟨hmem, hz⟩
    rw [beq_iff_eq, h1] at hz
    exact ⟨(mem_allCoords s.shape c).mp hmem, by rw [Hid, hz]; exact fun h => h rfl⟩
  · rintro ⟨hinb, hnh⟩
    refine ⟨(mem_allCoords s.shape c).mpr hinb, ?_⟩
    rw [beq_iff_eq, h1]
    by_contra hcon
    exact hnh hcon

lemma mem_nhCells {s : Core} {c : Coord} :
    c ∈ nhCells s ↔ Inb s c ∧ ¬Hid s c := by
  unfold nhCells
  rw [List.mem_filter, mem_allCoords]
  constructor
  · rintro ⟨h1, h2⟩
    exact ⟨h1, by rw [Hid]; intro hcon; exact hcon (beq_iff_eq.mp h2)⟩
  · rintro ⟨h1, h2⟩
    refine ⟨h1, ?_⟩
    rw [beq_iff_eq]
    rw [Hid] at h2
    by_contra hcon
    exact h2 hcon

lemma emptyCells_clean_eq (s : Core) : emptyCells (clean s) = nhCells s := by
  unfold emptyCells nhCells
  rw [show (clean s).shape = s.shape from rfl]
  refine List.filter_congr fun c _ => ?_
  refine beq_zero_congr ?_
  rw [show (clean s).cells c &&& INUSE = s.cells c &&& HIDDEN from ?_]
  · rw [show (clean s).cells c = s.cells c &&& HIDDEN from rfl, Nat.land_assoc]
    rfl

lemma bne_beq_congr {x y : Nat} (h : x ≠ 0 ↔ y = 0) : (x != 0) = (y == 0) := by
  cases hq : (y == 0)
  · have hy : y ≠ 0 := by
      intro hcon
      rw [hcon] at hq
      cases hq
    simp only [bne_eq_false_iff_eq]
    by_contra hxx
    exact hy (h.mp hxx)
  · rw [beq_iff_eq] at hq
    exact bne_iff_ne.mpr (h.mpr hq)

lemma rtg_symm {α : Type} {r : α → α → Prop} (hs : ∀ {a b}, r a b → r b a)
    {a b : α} (h : Relation.ReflTransGen r a b) :
    Relation.ReflTransGen r b a := by
  induction h with
  | refl => exact Relation.ReflTransGen.refl
  | tail _ hstep ih =>
      exact Relation.ReflTransGen.trans
        (Relation.ReflTransGen.single (hs hstep)) ih

/-- `recursive_loop` preserves the invariant, the shape, the compass and
hiddenness (used for the door-symmetry claim without any connectivity
hypothesis). -/
lemma recursive_loop_ginv : ∀ (fuel : Nat) (s : Core) (res : Core × List Event),
    ValidCompass s.shape s.compass → GInv s →
    recursive_loop fuel s = some res →
    GInv res.1 ∧ res.1.shape = s.shape ∧ res.1.compass = s.compass ∧
    (∀ c, Hid res.1 c ↔ Hid s c) := by
  intro fuel
  induction fuel with
  | zero =>
      intro s res vc g hrec
      rw [recursive_loop] at hrec
      split at hrec
      · cases hrec
        exact ⟨g, rfl, rfl, fun c => Iff.rfl⟩
      · cases hrec
  | succ fuel ih =>
      intro s res vc g hrec
      rw [recursive_loop] at hrec
      split at hrec
      · cases hrec
        exact ⟨g, rfl, rfl, fun c => Iff.rfl⟩
      · rename_i hne2
        simp only [] at hrec
        split at hrec
        · cases hrec
        · rename_i s2 evs2 hgen
          split at hrec
          · cases hrec
          · rename_i s3 evs3 hloop2
            cases hrec
            have hlenpos : 0 < (emptyCells s).length := by
              rw [List.length_pos]
              intro hcon
              exact hne2 (by rw [hcon]; rfl)
            have hdrlt := draw_lt s (emptyCells s).length hlenpos
            have hcmem : (emptyCells s).getD (draw s (emptyCells s).length).1 []
                ∈ emptyCells s := by
              rw [List.getD_eq_getElem _ _ hdrlt]
              exact List.getElem_mem hdrlt
            have hcprops := hcmem
            unfold emptyCells at hcprops
            rw [List.mem_filter] at hcprops
            obtain ⟨hcall, hcz⟩ := hcprops
            rw [beq_iff_eq] at hcz
            have hcinb : Inb s ((emptyCells s).getD
                (draw s (emptyCells s).length).1 []) :=
              (mem_allCoords s.shape _).mp hcall
            have hcnh : ¬Hid s ((emptyCells s).getD
                (draw s (emptyCells s).length).1 []) := by
              rw [Hid, HIDDEN_pow]
              intro hcon
              exact hcon (inuse_zero_bit hcz (by omega))
            have vcD : ValidCompass (draw s (emptyCells s).length).2.shape
                (draw s (emptyCells s).length).2.compass := vc
            have gD : GInv (draw s (emptyCells s).length).2 :=
              ⟨g.outSafe, g.hidVal, g.emptyVal, g.imInb, g.doorsIm,
                g.doorsDst, g.doorsSym, g.bitsDom⟩
            obtain ⟨R, _, _⟩ := recurse_gen_spec fuel
              (draw s (emptyCells s).length).2 _ s2 evs2 vcD gD hcinb hcnh hgen
            have vc2 : ValidCompass s2.shape s2.compass := by
              rw [show s2.shape = s.shape from R.shape_eq,
                show s2.compass = s.compass from R.compass_eq]
              exact vc
            obtain ⟨hg3, hsh3, hcp3, hhid3⟩ := ih s2 (s3, evs3) vc2 R.ginv hloop2
            refine ⟨hg3, hsh3.trans R.shape_eq, hcp3.trans R.compass_eq, ?_⟩
            intro c
            exact (hhid3 c).trans (R.hid_iff c)

/-- When the non-hidden region is connected and nonempty, the recursive
generator (if it completes) builds exactly one spanning tree: the final
state covers every non-hidden cell, is pairwise door-connected, acyclic,
and has `N - 1` passages (`2 N - 2` half-doors). -/
lemma recursive_generate_tree (fuel : Nat) (s sf : Core) (evs : List Event)
    (vc : ValidCompass s.shape s.compass)
    (hconn : NHConnected s) (hne : nhCells s ≠ [])
    (hrec : recursive_generate fuel s = some (sf, evs)) :
    sf.shape = s.shape ∧ sf.compass = s.compass ∧ GInv sf ∧
    (∀ c, Inb s c → ¬Hid s c → InMaze sf c) ∧
    (∀ c, InMaze sf c → Inb s c ∧ ¬Hid s c) ∧
    (∀ a b, InMaze sf a → InMaze sf b → Reach sf a b) ∧
    (∀ l, ¬IsDoorCycle sf l) ∧
    (doorPairs sf).length + 2 = 2 * (nhCells s).length := by
  unfold recursive_generate at hrec
  simp only [] at hrec
  split at hrec
  · cases hrec
  · rename_i s2 evs2 hloop
    cases hrec
    rw [recursive_loop.eq_def] at hloop
    simp only [] at hloop
    rw [emptyCells_clean_eq] at hloop
    have hie : (nhCells s).isEmpty = false := by
      cases hq : nhCells s with
      | nil => exact absurd hq hne
      | cons a t => rfl
    rw [hie] at hloop
    simp only [Bool.false_eq_true, if_false] at hloop
    split at hloop
    · cases hloop
    · rename_i fuel2
      split at hloop
      · cases hloop
      · rename_i s3 evs3 hgen
        split at hloop
        · cases hloop
        · rename_i s4 evs4 hloop2
          cases hloop
          have hlen0 : 0 < (nhCells s).length := List.length_pos.mpr hne
          have hdrlt := draw_lt (clean s) (nhCells s).length hlen0
          have hcurmem : (nhCells s).getD
              (draw (clean s) (nhCells s).length).1 [] ∈ nhCells s := by
            rw [List.getD_eq_getElem _ _ hdrlt]
            exact List.getElem_mem hdrlt
          obtain ⟨hcinb, hcnh⟩ := mem_nhCells.mp hcurmem
          have vcD : ValidCompass (draw (clean s) (nhCells s).length).2.shape
              (draw (clean s) (nhCells s).length).2.compass := vc
          have gD : GInv (draw (clean s) (nhCells s).length).2 := by
            have g1 := ginv_clean s vc
            exact ⟨g1.outSafe, g1.hidVal, g1.emptyVal, g1.imInb, g1.doorsIm,
              g1.doorsDst, g1.doorsSym, g1.bitsDom⟩
          have hinbD : Inb (draw (clean s) (nhCells s).length).2
              ((nhCells s).getD (draw (clean s) (nhCells s).length).1 []) :=
            hcinb
          have hnhD : ¬Hid (draw (clean s) (nhCells s).length).2
              ((nhCells s).getD (draw (clean s) (nhCells s).length).1 []) := by
            intro hh
            exact hcnh ((clean_hid_iff s _).mp hh)
          obtain ⟨R, hcl, hIm⟩ := recurse_gen_spec fuel2
            (draw (clean s) (nhCells s).length).2 _ s3 evs3 vcD gD hinbD
            hnhD hgen
          have hsh3 : s3.shape = s.shape := R.shape_eq
          have hcp3 : s3.compass = s.compass := R.compass_eq
          have hhid3 : ∀ c, Hid s3 c ↔ Hid s c := by
            intro c
            exact (R.hid_iff c).trans (clean_hid_iff s c)
          have g3 : GInv s3 := R.ginv
          have vc3 : ValidCompass s3.shape s3.compass := vc_congr hsh3 hcp3 vc
          have hclosed3 : ∀ c, InMaze s3 c → ClosedAt s3 c := by
            intro c hc
            by_cases hcc : c = (nhCells s).getD
                (draw (clean s) (nhCells s).length).1 []
            · rw [hcc]
              exact hcl
            · refine R.newClosed c hc ?_ hcc
              exact not_inmaze_clean s c
          have hnhadj3 : ∀ u v2, nhAdj s3 u v2 ↔ nhAdj s u v2 :=
            nhAdj_congr_hid hsh3 hcp3 hhid3
          obtain ⟨c0, rest, hc0⟩ : ∃ c0 rest, nhCells s = c0 :: rest := by
            cases hq : nhCells s with
            | nil => exact absurd hq hne
            | cons c0 rest => exact ⟨c0, rest, rfl⟩
          have hsym : ∀ {a b : Coord}, nhAdj s a b → nhAdj s b a :=
            fun h => nhAdj_symm vc h
          have hconn3 : ∀ u, Inb s3 u → ¬Hid s3 u →
              Relation.ReflTransGen (nhAdj s3) u
                ((nhCells s).getD (draw (clean s) (nhCells s).length).1 []) := by
            intro u hinbu hnhu
            have hu : u ∈ nhCells s := mem_nhCells.mpr
              ⟨by rwa [Inb, hsh3] at hinbu, fun hh => hnhu ((hhid3 u).mpr hh)⟩
            have h1 := rtg_symm hsym (nhClosure_sound hc0 u (hconn u hu))
            have h2 := nhClosure_sound hc0 _ (hconn _ hcurmem)
            exact Relation.ReflTransGen.mono
              (fun a b hab => (hnhadj3 a b).mpr hab) (h1.trans h2)
          have hempties3 : emptyCells s3 = [] :=
            empties_nil_of_connected vc3 hclosed3 hIm hconn3
          rw [recursive_loop.eq_def] at hloop2
          simp only [] at hloop2
          rw [hempties3] at hloop2
          simp only [List.isEmpty_nil, if_true] at hloop2
          have hsf3 : s3 = sf := congrArg Prod.fst (Option.some.inj hloop2)
          subst hsf3
          have hallim : ∀ c, Inb s c → ¬Hid s c → InMaze s3 c := by
            intro c hcinb2 hcnh2
            have hnh3 : ¬Hid s3 c := fun hh => hcnh2 ((hhid3 c).mp hh)
            have hinb3 : Inb s3 c := by
              rw [Inb, hsh3]
              exact hcinb2
            by_contra him
            have hmem : c ∈ emptyCells s3 := by
              unfold emptyCells
              rw [List.mem_filter]
              refine ⟨(mem_allCoords s3.shape c).mpr hinb3, ?_⟩
              rw [beq_iff_eq]
              by_contra hcon2
              exact him (inuse_not_hid_im hcon2 hnh3)
            rw [hempties3] at hmem
            cases hmem
          refine ⟨hsh3, hcp3, g3, hallim, ?_, ?_, ?_, ?_⟩
          · intro c hc
            have h2 := g3.imInb c hc
            exact ⟨by rw [Inb, hsh3] at h2; exact h2.1,
              fun hh => h2.2 ((hhid3 c).mpr hh)⟩
          · intro a b ha hb
            rcases R.reach a ha with h | h1
            · exact absurd h (not_inmaze_clean s a)
            · rcases R.reach b hb with h | h2
              · exact absurd h (not_inmaze_clean s b)
              · exact h1.trans (reach_symm vc3 g3 h2)
          · intro l
            obtain ⟨L2, hL2⟩ := R.cert [] (@cert_congr (clean s)
              (draw (clean s) (nhCells s).length).2 (fun _ => rfl) rfl []
              (cert_clean s))
            rw [List.nil_append] at hL2
            exact cert_acyclic vc3 g3 hL2 l
          · have hcnt := R.count
            have himcD : imCount (draw (clean s) (nhCells s).length).2 = 0 :=
              imCount_clean s
            have hdplD :
                (doorPairs (draw (clean s) (nhCells s).length).2).length = 0 :=
              doorPairsLen_clean s vc
            have hcz : (clean s).cells ((nhCells s).getD
                (draw (clean s) (nhCells s).length).1 []) = 0 := by
              rw [show (clean s).cells ((nhCells s).getD
                (draw (clean s) (nhCells s).length).1 []) =
                s.cells ((nhCells s).getD
                  (draw (clean s) (nhCells s).length).1 []) &&& HIDDEN from rfl]
              rw [Hid] at hcnh
              by_contra hcon
              exact hcnh hcon
            have hfresh : ¬((draw (clean s) (nhCells s).length).2.cells
                ((nhCells s).getD (draw (clean s) (nhCells s).length).1 []) &&&
                INMAZE ≠ 0) := by
              intro hcon
              rw [show (draw (clean s) (nhCells s).length).2.cells
                ((nhCells s).getD (draw (clean s) (nhCells s).length).1 []) =
                (clean s).cells ((nhCells s).getD
                  (draw (clean s) (nhCells s).length).1 []) from rfl, hcz,
                Nat.zero_and] at hcon
              exact hcon rfl
            rw [if_neg hfresh, himcD, hdplD] at hcnt
            have hfilters : ((allCoords s3.shape).filter
                fun c => s3.cells c &&& INMAZE != 0) =
                ((allCoords s3.shape).filter
                  fun c => s3.cells c &&& HIDDEN == 0) := by
              refine List.filter_congr fun c hcmem => ?_
              have hinb3 : Inb s3 c := (mem_allCoords s3.shape c).mp hcmem
              refine bne_beq_congr ?_
              constructor
              · intro him2
                have h2 := (g3.imInb c him2).2
                rw [Hid] at h2
                by_contra hcon
                exact h2 hcon
              · intro hh2
                refine hallim c (by rw [Inb, hsh3] at hinb3; exact hinb3) ?_
                intro hh
                exact ((hhid3 c).mpr hh) hh2
            have hlen_eq : (nhCells s3).length = imCount s3 := by
              unfold nhCells imCount
              rw [hfilters]
            have hnh_eq : nhCells s3 = nhCells s := by
              unfold nhCells
              rw [hsh3]
              refine List.filter_congr fun c _ => ?_
              refine beq_zero_congr ?_
              have h2 := hhid3 c
              rw [Hid, Hid] at h2
              exact h2
            rw [← hnh_eq, hlen_eq]
            omega

/-! ## Wilson's algorithm: arrow paths -/

lemma pow_and_DIR {k : Nat} (h4 : 4 ≤ k) (h14 : k < 14) :
    2 ^ k &&& DIR = 2 ^ k := by
  apply Nat.eq_of_testBit_eq
  intro j
  rw [Nat.testBit_land, testBit_DIR]
  by_cases hj : k = j
  · subst hj
    rw [Nat.testBit_two_pow_self]
    simp [h4, h14]
  · rw [Nat.testBit_two_pow_of_ne hj, Bool.false_and]

lemma val_andNot_DIR {k : Nat} (h4 : 4 ≤ k) (h14 : k < 14) :
    andNot (2 ^ k) DIR = 0 := by
  rw [andNot, pow_and_DIR h4 h14, Nat.xor_self]

/-- The cells visited by an arrow path. -/
def pathCells (ps : List (Coord × Direction)) : List Coord := ps.map Prod.fst

lemma pathCells_cons (q : Coord) (d : Direction) (t : List (Coord × Direction)) :
    pathCells ((q, d) :: t) = q :: pathCells t := rfl

/-- `clearpath` follows the arrow chain `qs` from its head to `e` and erases
exactly the arrow cells. -/
lemma clearpath_spec : ∀ (qs : List (Coord × Direction)) (fuel : Nat)
    (s : Core) (e : Coord) (s' : Core) (evs : List Event),
    ValidCompass s.shape s.compass →
    (∀ (i : Nat) (h : i < qs.length),
      s.cells (qs.get ⟨i, h⟩).1 = (qs.get ⟨i, h⟩).2.val) →
    (∀ (i : Nat) (h : i < qs.length), (qs.get ⟨i, h⟩).2 ∈ s.compass) →
    (∀ (i : Nat) (h : i < qs.length),
      step (qs.get ⟨i, h⟩).1 (qs.get ⟨i, h⟩).2.deltas =
        (pathCells qs ++ [e]).getD (i + 1) []) →
    (pathCells qs ++ [e]).Nodup →
    clearpath fuel s ((pathCells qs ++ [e]).getD 0 []) e = some (s', evs) →
    s'.shape = s.shape ∧ s'.compass = s.compass ∧
    (∀ k, s'.rng k = s.rng k) ∧
    (∀ c, s'.cells c = if c ∈ pathCells qs then 0 else s.cells c) := by
  intro qs
  induction qs with
  | nil =>
      intro fuel s e s' evs vc hcells hdir hlinks hnd hrun
      rw [show ((pathCells ([] : List (Coord × Direction)) ++ [e]).getD 0 [])
        = e from rfl] at hrun
      rw [clearpath.eq_def] at hrun
      simp only [if_true] at hrun
      cases hrun
      refine ⟨rfl, rfl, fun k => rfl, fun c => ?_⟩
      rw [if_neg]
      intro hcon
      cases hcon
  | cons qd t ih =>
      intro fuel s e s' evs vc hcells hdir hlinks hnd hrun
      obtain ⟨q0, d0⟩ := qd
      have hnd' : (q0 :: (pathCells t ++ [e])).Nodup := hnd
      rw [show ((pathCells ((q0, d0) :: t) ++ [e]).getD 0 []) = q0 from rfl]
        at hrun
      rw [clearpath.eq_def] at hrun
      simp only [] at hrun
      have hq0e : q0 ≠ e := by
        intro hcon
        refine (List.nodup_cons.mp hnd').1 ?_
        rw [hcon]
        exact List.mem_append_right _ (List.mem_singleton_self e)
      rw [if_neg hq0e] at hrun
      split at hrun
      · cases hrun
      · rename_i fuel2
        have hc0 : s.cells q0 = d0.val := hcells 0 (Nat.succ_pos t.length)
        have hd0mem : d0 ∈ s.compass := hdir 0 (Nat.succ_pos t.length)
        obtain ⟨k0, hk04, hk014, hk0val⟩ := vc_val_pow vc hd0mem
        have hdirval : s.cells q0 &&& DIR = d0.val := by
          rw [hc0, hk0val]
          exact pow_and_DIR hk04 hk014
        rw [hdirval] at hrun
        split at hrun
        · rename_i hcgnone
          rw [setCell_compass, compassGet_val vc hd0mem] at hcgnone
          cases hcgnone
        · rename_i d hcg
          rw [setCell_compass, compassGet_val vc hd0mem] at hcg
          have hdd : d0 = d := Option.some.inj hcg
          subst hdd
          split at hrun
          · cases hrun
          · rename_i s2 evs2 hclear
            cases hrun
            have hS1q0 : (setCell s q0 (andNot (s.cells q0) DIR)).cells q0 = 0 := by
              rw [setCell_cells_self, hc0, hk0val]
              exact val_andNot_DIR hk04 hk014
            have hq0nt : q0 ∉ pathCells t :=
              fun hcon => (List.nodup_cons.mp hnd').1 (List.mem_append_left _ hcon)
            have hlink0 : step q0 d0.deltas = (pathCells t ++ [e]).getD 0 [] :=
              hlinks 0 (Nat.succ_pos t.length)
            rw [hlink0] at hclear
            obtain ⟨hsh, hcp, hrng, hcells2⟩ := ih fuel2
              (setCell s q0 (andNot (s.cells q0) DIR)) e _ _ vc
              (fun i h => by
                rw [setCell_cells_ne _ _ _ _ (fun hcon => hq0nt (by
                  rw [← hcon]
                  exact List.mem_map_of_mem Prod.fst (List.get_mem t i h)))]
                exact hcells (i + 1) (Nat.succ_lt_succ h))
              (fun i h => hdir (i + 1) (Nat.succ_lt_succ h))
              (fun i h => hlinks (i + 1) (Nat.succ_lt_succ h))
              (List.nodup_cons.mp hnd').2 hclear
            refine ⟨hsh, hcp, hrng, fun c => ?_⟩
            rw [hcells2 c, pathCells_cons]
            by_cases hct : c ∈ pathCells t
            · rw [if_pos hct, if_pos (List.mem_cons_of_mem q0 hct)]
            · rw [if_neg hct]
              by_cases hcq : c = q0
              · subst hcq
                rw [if_pos (List.mem_cons_self c (pathCells t)), hS1q0]
              · rw [setCell_cells_ne _ _ _ _ hcq, if_neg (fun hcon => ?_)]
                rcases List.mem_cons.mp hcon with h | h
                · exact hcq h
                · exact hct h

/-- The cell updates performed by `markpath` along the arrow chain `qs`
ending at the tree cell `e`, with the loop-carried `opposite` bit. -/
def markCells (e : Coord) :
    Nat → List (Coord × Direction) → (Coord → Nat) → Coord → Nat
  | opposite, [], cells => fun c => if c = e then cells e ||| opposite else cells c
  | opposite, (q, d) :: t, cells =>
      markCells e d.opposite t
        (fun c => if c = q then cells c ||| (opposite ||| INMAZE) else cells c)

lemma markCells_congr (e : Coord) : ∀ (qs : List (Coord × Direction))
    (opp : Nat) (cells1 cells2 : Coord → Nat),
    (∀ c, cells1 c = cells2 c) →
    ∀ c, markCells e opp qs cells1 c = markCells e opp qs cells2 c := by
  intro qs
  induction qs with
  | nil =>
      intro opp c1 c2 h c
      simp only [markCells]
      by_cases hc : c = e
      · rw [if_pos hc, if_pos hc, h e]
      · rw [if_neg hc, if_neg hc, h c]
  | cons qd t ih =>
      obtain ⟨q, d⟩ := qd
      intro opp c1 c2 h c
      simp only [markCells]
      refine ih d.opposite _ _ (fun c2x => ?_) c
      by_cases hq : c2x = q
      · rw [if_pos hq, if_pos hq, h c2x]
      · rw [if_neg hq, if_neg hq, h c2x]

/-- `markpath` follows the arrow chain and performs exactly the
`markCells` updates. -/
lemma markpath_spec : ∀ (qs : List (Coord × Direction)) (opposite : Nat)
    (fuel : Nat) (s : Core) (e : Coord) (s' : Core) (evs : List Event),
    ValidCompass s.shape s.compass →
    (∀ (i : Nat) (h : i < qs.length),
      s.cells (qs.get ⟨i, h⟩).1 = (qs.get ⟨i, h⟩).2.val) →
    (∀ (i : Nat) (h : i < qs.length), (qs.get ⟨i, h⟩).2 ∈ s.compass) →
    (∀ (i : Nat) (h : i < qs.length),
      step (qs.get ⟨i, h⟩).1 (qs.get ⟨i, h⟩).2.deltas =
        (pathCells qs ++ [e]).getD (i + 1) []) →
    (pathCells qs ++ [e]).Nodup →
    markpath fuel s ((pathCells qs ++ [e]).getD 0 []) e opposite =
      some (s', evs) →
    s'.shape = s.shape ∧ s'.compass = s.compass ∧
    (∀ k, s'.rng k = s.rng k) ∧
    (∀ c, s'.cells c = markCells e opposite qs s.cells c) := by
  intro qs
  induction qs with
  | nil =>
      intro opposite fuel s e s' evs vc hcells hdir hlinks hnd hrun
      rw [show ((pathCells ([] : List (Coord × Direction)) ++ [e]).getD 0 [])
        = e from rfl] at hrun
      rw [markpath.eq_def] at hrun
      simp only [if_true] at hrun
      cases hrun
      refine ⟨rfl, rfl, fun k => rfl, fun c => ?_⟩
      simp only [markCells]
      rw [setCell_cells]
  | cons qd t ih =>
      intro opposite fuel s e s' evs vc hcells hdir hlinks hnd hrun
      obtain ⟨q0, d0⟩ := qd
      have hnd' : (q0 :: (pathCells t ++ [e])).Nodup := hnd
      rw [show ((pathCells ((q0, d0) :: t) ++ [e]).getD 0 []) = q0 from rfl]
        at hrun
      rw [markpath.eq_def] at hrun
      simp only [] at hrun
      have hq0e : q0 ≠ e := by
        intro hcon
        refine (List.nodup_cons.mp hnd').1 ?_
        rw [hcon]
        exact List.mem_append_right _ (List.mem_singleton_self e)
      rw [if_neg hq0e] at hrun
      split at hrun
      · cases hrun
      · rename_i fuel2
        have hc0 : s.cells q0 = d0.val := hcells 0 (Nat.succ_pos t.length)
        have hd0mem : d0 ∈ s.compass := hdir 0 (Nat.succ_pos t.length)
        obtain ⟨k0, hk04, hk014, hk0val⟩ := vc_val_pow vc hd0mem
        have hdirval : s.cells q0 &&& DIR = d0.val := by
          rw [hc0, hk0val]
          exact pow_and_DIR hk04 hk014
        rw [hdirval] at hrun
        split at hrun
        · rename_i hcgnone
          rw [setCell_compass, compassGet_val vc hd0mem] at hcgnone
          cases hcgnone
        · rename_i d hcg
          rw [setCell_compass, compassGet_val vc hd0mem] at hcg
          have hdd : d0 = d := Option.some.inj hcg
          subst hdd
          split at hrun
          · cases hrun
          · rename_i s2 evs2 hmark
            cases hrun
            have hq0nt : q0 ∉ pathCells t :=
              fun hcon =>
                (List.nodup_cons.mp hnd').1 (List.mem_append_left _ hcon)
            have hlink0 : step q0 d0.deltas = (pathCells t ++ [e]).getD 0 [] :=
              hlinks 0 (Nat.succ_pos t.length)
            rw [hlink0] at hmark
            obtain ⟨hsh, hcp, hrng, hcells2⟩ := ih d0.opposite fuel2
              (setCell s q0 (s.cells q0 ||| (opposite ||| INMAZE))) e _ _ vc
              (fun i h => by
                rw [setCell_cells_ne _ _ _ _ (fun hcon => hq0nt (by
                  rw [← hcon]
                  exact List.mem_map_of_mem Prod.fst (List.get_mem t i h)))]
                exact hcells (i + 1) (Nat.succ_lt_succ h))
              (fun i h => hdir (i + 1) (Nat.succ_lt_succ h))
              (fun i h => hlinks (i + 1) (Nat.succ_lt_succ h))
              (List.nodup_cons.mp hnd').2 hmark
            refine ⟨hsh, hcp, hrng, fun c => ?_⟩
            rw [hcells2 c]
            simp only [markCells]
            refine markCells_congr e t d0.opposite _ _ (fun c2x => ?_) c
            by_cases hq : c2x = q0
            · rw [setCell_cells, if_pos hq, if_pos hq, hq]
            · rw [setCell_cells, if_neg hq, if_neg hq]

/-- Closed form of the cells after attaching the arrow chain `qs` to the
tree at `e`, written as repeated passage openings from `e` backwards over
the walk-erased base cells. -/
def attachCells (e : Coord) :
    List (Coord × Direction) → (Coord → Nat) → Coord → Nat
  | [], cells => cells
  | (q, d) :: t, cells =>
      let inner := attachCells e t cells
      let tgt := (pathCells t ++ [e]).getD 0 []
      fun c =>
        if c = q then
          (if q = tgt then inner tgt ||| d.opposite else inner q) |||
            (INMAZE ||| d.val)
        else if c = tgt then inner tgt ||| d.opposite
        else inner c

lemma headD_mem_append (l : List Coord) (e : Coord) :
    (l ++ [e]).getD 0 [] ∈ l ++ [e] := by
  have h : 0 < (l ++ [e]).length := by
    rw [List.length_append, List.length_singleton]
    omega
  rw [List.getD_eq_getElem _ _ h]
  exact List.getElem_mem h

lemma attachCells_out (e : Coord) : ∀ (qs : List (Coord × Direction))
    (cells : Coord → Nat) (c : Coord),
    c ∉ pathCells qs → c ≠ e → attachCells e qs cells c = cells c := by
  intro qs
  induction qs with
  | nil =>
      intro cells c _ _
      rfl
  | cons qd t ih =>
      obtain ⟨q, d⟩ := qd
      intro cells c hnp hne
      have hcq : c ≠ q := by
        intro hcon
        exact hnp (by rw [pathCells_cons, hcon]; exact List.mem_cons_self q _)
      have hnpt : c ∉ pathCells t := by
        intro hcon
        exact hnp (by rw [pathCells_cons]; exact List.mem_cons_of_mem q hcon)
      have hctgt : c ≠ (pathCells t ++ [e]).getD 0 [] := by
        intro hcon
        rcases List.mem_append.mp (hcon ▸ headD_mem_append (pathCells t) e)
          with h | h
        · exact hnpt h
        · exact hne (List.mem_singleton.mp h)
      simp only [attachCells]
      rw [if_neg hcq, if_neg hctgt]
      exact ih cells c hnpt hne

lemma attachCells_local (e : Coord) : ∀ (qs : List (Coord × Direction))
    (cells1 cells2 : Coord → Nat) (c : Coord), cells1 c = cells2 c →
    attachCells e qs cells1 c = attachCells e qs cells2 c := by
  intro qs
  induction qs with
  | nil =>
      intro cells1 cells2 c h
      exact h
  | cons qd t ih =>
      obtain ⟨q, d⟩ := qd
      intro cells1 cells2 c h
      simp only [attachCells]
      by_cases hcq : c = q
      · rw [if_pos hcq, if_pos hcq]
        by_cases hqt : q = (pathCells t ++ [e]).getD 0 []
        · rw [if_pos hqt, if_pos hqt, ih cells1 cells2 _ (by rw [← hqt, ← hcq]; exact h)]
        · rw [if_neg hqt, if_neg hqt, ih cells1 cells2 _ (by rw [← hcq]; exact h)]
      · rw [if_neg hcq, if_neg hcq]
        by_cases hct : c = (pathCells t ++ [e]).getD 0 []
        · rw [if_pos hct, if_pos hct, ih cells1 cells2 _ (by rw [← hct]; exact h)]
        · rw [if_neg hct, if_neg hct]
          exact ih cells1 cells2 c h

/-- Bridge between the sequential `markCells` updates and the closed
`attachCells` form over the erased path. -/
lemma markCells_eq_attach (e : Coord) : ∀ (qs : List (Coord × Direction))
    (opposite : Nat) (cells : Coord → Nat),
    (∀ (i : Nat) (h : i < qs.length),
      cells (qs.get ⟨i, h⟩).1 = (qs.get ⟨i, h⟩).2.val) →
    (pathCells qs ++ [e]).Nodup →
    ∀ c, markCells e opposite qs cells c =
      (if c = (pathCells qs ++ [e]).getD 0 []
       then attachCells e qs
         (fun x => if x ∈ pathCells qs then 0 else cells x) c ||| opposite
       else attachCells e qs
         (fun x => if x ∈ pathCells qs then 0 else cells x) c) := by
  intro qs
  induction qs with
  | nil =>
      intro opposite cells _ _ c
      simp only [markCells, attachCells]
      have hz : ∀ x, (if x ∈ pathCells ([] : List (Coord × Direction))
          then 0 else cells x) = cells x := by
        intro x
        rw [if_neg]
        intro hcon
        cases hcon
      rw [show ((pathCells ([] : List (Coord × Direction)) ++ [e]).getD 0 [])
        = e from rfl]
      by_cases hc : c = e
      · rw [if_pos hc, if_pos hc, hz c, hc]
      · rw [if_neg hc, if_neg hc, hz c]
  | cons qd t ih =>
      obtain ⟨q0, d0⟩ := qd
      intro opposite cells harrows hnd c
      have hnd' : (q0 :: (pathCells t ++ [e])).Nodup := hnd
      have hq0nt : q0 ∉ pathCells t :=
        fun hcon => (List.nodup_cons.mp hnd').1 (List.mem_append_left _ hcon)
      have hq0e : q0 ≠ e := by
        intro hcon
        refine (List.nodup_cons.mp hnd').1 ?_
        rw [hcon]
        exact List.mem_append_right _ (List.mem_singleton_self e)
      have hq0tgt : q0 ≠ (pathCells t ++ [e]).getD 0 [] := by
        intro hcon
        rcases List.mem_append.mp (hcon ▸ headD_mem_append (pathCells t) e)
          with h | h
        · exact hq0nt h
        · exact hq0e (List.mem_singleton.mp h)
      have harrow0 : cells q0 = d0.val := harrows 0 (Nat.succ_pos t.length)
      -- the two zeroed input functions agree off `q0`
      have hzagree : ∀ x, x ≠ q0 →
          (if x ∈ pathCells t then 0
           else (fun y => if y = q0 then cells y ||| (opposite ||| INMAZE)
             else cells y) x) =
          (if x ∈ pathCells ((q0, d0) :: t) then 0 else cells x) := by
        intro x hx
        rw [pathCells_cons]
        by_cases hxt : x ∈ pathCells t
        · rw [if_pos hxt, if_pos (List.mem_cons_of_mem q0 hxt)]
        · rw [if_neg hxt, if_neg (fun hcon => ?_)]
          · simp only []
            rw [if_neg hx]
          · rcases List.mem_cons.mp hcon with h | h
            · exact hx h
            · exact hxt h
      simp only [markCells]
      rw [ih d0.opposite _
        (fun i h => by
          have hne : (t.get ⟨i, h⟩).1 ≠ q0 := fun hcon => hq0nt (by
            rw [← hcon]
            exact List.mem_map_of_mem Prod.fst (List.get_mem t i h))
          show (if (t.get ⟨i, h⟩).1 = q0
            then cells (t.get ⟨i, h⟩).1 ||| (opposite ||| INMAZE)
            else cells (t.get ⟨i, h⟩).1) = (t.get ⟨i, h⟩).2.val
          rw [if_neg hne]
          exact harrows (i + 1) (Nat.succ_lt_succ h))
        (List.nodup_cons.mp hnd').2 c]
      rw [show ((pathCells ((q0, d0) :: t) ++ [e]).getD 0 []) = q0 from rfl]
      simp only [attachCells]
      by_cases hcq : c = q0
      · subst hcq
        rw [if_neg hq0tgt, if_pos rfl, if_pos rfl, if_neg hq0tgt]
        have hiq : attachCells e t (fun x =>
            if x ∈ pathCells ((c, d0) :: t) then 0 else cells x) c = 0 := by
          rw [attachCells_out e t _ c hq0nt hq0e, if_pos]
          rw [pathCells_cons]
          exact List.mem_cons_self c _
        have hAq : attachCells e t (fun x => if x ∈ pathCells t then 0
            else (fun y => if y = c then cells y ||| (opposite ||| INMAZE)
              else cells y) x) c = cells c ||| (opposite ||| INMAZE) := by
          rw [attachCells_out e t _ c hq0nt hq0e, if_neg hq0nt]
          simp only []
          rw [if_true]
        rw [hAq, hiq]
        rw [harrow0, Nat.zero_or]
        apply Nat.eq_of_testBit_eq
        intro k
        simp only [Nat.testBit_lor]
        cases (d0.val).testBit k <;> cases opposite.testBit k <;>
          cases INMAZE.testBit k <;> rfl
      · rw [if_neg hcq, if_neg hcq]
        have hloc : attachCells e t (fun x => if x ∈ pathCells t then 0
            else (fun y => if y = q0 then cells y ||| (opposite ||| INMAZE)
              else cells y) x) c =
            attachCells e t (fun x =>
              if x ∈ pathCells ((q0, d0) :: t) then 0 else cells x) c :=
          attachCells_local e t _ _ c (hzagree c hcq)
        by_cases hct : c = (pathCells t ++ [e]).getD 0 []
        · rw [if_pos hct, if_pos hct, hloc, hct]
        · rw [if_neg hct, if_neg hct, hloc]

lemma attachCells_cons_head (e q : Coord) (d : Direction)
    (t : List (Coord × Direction)) (cells : Coord → Nat)
    (hq : q ≠ (pathCells t ++ [e]).getD 0 []) :
    attachCells e ((q, d) :: t) cells q =
      attachCells e t cells q ||| (INMAZE ||| d.val) := by
  simp only [attachCells]
  rw [if_neg hq]
  simp

lemma attachCells_cons_tgt (e q : Coord) (d : Direction)
    (t : List (Coord × Direction)) (cells : Coord → Nat)
    (hq : (pathCells t ++ [e]).getD 0 [] ≠ q) :
    attachCells e ((q, d) :: t) cells ((pathCells t ++ [e]).getD 0 []) =
      attachCells e t cells ((pathCells t ++ [e]).getD 0 []) ||| d.opposite := by
  simp only [attachCells]
  rw [if_neg hq]
  simp

lemma attachCells_cons_other (e q c : Coord) (d : Direction)
    (t : List (Coord × Direction)) (cells : Coord → Nat)
    (hq : c ≠ q) (ht : c ≠ (pathCells t ++ [e]).getD 0 []) :
    attachCells e ((q, d) :: t) cells c = attachCells e t cells c := by
  simp only [attachCells]
  rw [if_neg hq, if_neg ht]

lemma inuse_of_bits {x : Nat} (h1 : x &&& INMAZE = 0) (h2 : x &&& HIDDEN = 0) :
    x &&& INUSE = 0 := by
  apply Nat.eq_of_testBit_eq
  intro k
  rw [Nat.testBit_land, Nat.zero_testBit, show INUSE = INMAZE ||| HIDDEN
    from rfl, Nat.testBit_lor]
  have hb1 : (x.testBit k && INMAZE.testBit k) = false := by
    rw [← Nat.testBit_land, h1, Nat.zero_testBit]
  have hb2 : (x.testBit k && HIDDEN.testBit k) = false := by
    rw [← Nat.testBit_land, h2, Nat.zero_testBit]
  rw [Bool.and_or_distrib_left, hb1, hb2, Bool.or_self]

lemma getD_snoc2_agree (l : List Coord) (a b : Coord) (i : Nat)
    (hi : i ≤ l.length) :
    ((l ++ [a]) ++ [b]).getD i [] = (l ++ [a]).getD i [] := by
  refine List.getD_append _ _ _ i ?_
  rw [List.length_append, List.length_singleton]
  omega

lemma getD_drop_chain (l : List Coord) (j i : Nat) :
    (l.drop j).getD i [] = l.getD (j + i) [] := by
  rw [List.getD_eq_getElem?_getD, List.getD_eq_getElem?_getD,
    List.getElem?_drop]

lemma getD_take_chain (l : List Coord) (j i : Nat) (hj : j < l.length)
    (hi : i ≤ j) : (l.take j ++ [l.getD j []]).getD i [] = l.getD i [] := by
  have hlen : (l.take j).length = j := by
    rw [List.length_take]
    exact Nat.min_eq_left (Nat.le_of_lt hj)
  rcases Nat.lt_or_ge i j with h | h
  · rw [List.getD_append _ _ _ i (by rw [hlen]; exact h),
      List.getD_eq_getElem?_getD, List.getD_eq_getElem?_getD,
      List.getElem?_take, if_pos h]
  · have hij : i = j := Nat.le_antisymm hi h
    subst hij
    rw [List.getD_append_right _ _ _ i (by rw [hlen]), hlen, Nat.sub_self]
    rfl

lemma forall_get_snoc {α : Type} {P : α → Prop} {l : List α} {x : α}
    (hl : ∀ (i : Nat) (h : i < l.length), P (l.get ⟨i, h⟩)) (hx : P x) :
    ∀ (i : Nat) (h : i < (l ++ [x]).length), P ((l ++ [x]).get ⟨i, h⟩) := by
  intro i h
  rcases Nat.lt_or_ge i l.length with hi | hi
  · rw [show (l ++ [x]).get ⟨i, h⟩ = l.get ⟨i, hi⟩ from
      List.getElem_append_left hi]
    exact hl i hi
  · have hix : i = l.length := by
      rw [List.length_append, List.length_singleton] at h
      omega
    subst hix
    have hget : (l ++ [x]).get ⟨l.length, h⟩ = x := by
      rw [List.get_eq_getElem, List.getElem_append_right (Nat.le_refl _)]
      simp
    rw [hget]
    exact hx

lemma forall_get_take {α : Type} {P : α → Prop} {l : List α}
    (hl : ∀ (i : Nat) (h : i < l.length), P (l.get ⟨i, h⟩)) (j : Nat) :
    ∀ (i : Nat) (h : i < (l.take j).length), P ((l.take j).get ⟨i, h⟩) := by
  intro i h
  have hi : i < l.length := by
    rw [List.length_take] at h
    omega
  have he : (l.take j).get ⟨i, h⟩ = l.get ⟨i, hi⟩ := by
    rw [List.get_eq_getElem, List.get_eq_getElem]
    show (List.take j l)[i] = l[i]
    exact List.getElem_take l
  rw [he]
  exact hl i hi

lemma forall_get_drop {α : Type} {P : α → Prop} {l : List α}
    (hl : ∀ (i : Nat) (h : i < l.length), P (l.get ⟨i, h⟩)) (j : Nat) :
    ∀ (i : Nat) (h : i < (l.drop j).length), P ((l.drop j).get ⟨i, h⟩) := by
  intro i h
  have hi : j + i < l.length := by
    rw [List.length_drop] at h
    omega
  have he : (l.drop j).get ⟨i, h⟩ = l.get ⟨j + i, hi⟩ := by
    rw [List.get_eq_getElem, List.get_eq_getElem]
    show (List.drop j l)[i] = l[j + i]
    exact List.getElem_drop l
  rw [he]
  exact hl (j + i) hi

lemma nodup_snoc {l : List Coord} {b : Coord} (hnd : l.Nodup) (hb : b ∉ l) :
    (l ++ [b]).Nodup := by
  rw [List.nodup_append]
  refine ⟨hnd, List.nodup_singleton b, ?_⟩
  intro x hx hxb
  rw [List.mem_singleton] at hxb
  subst hxb
  exact hb hx

lemma pathCells_get {ps : List (Coord × Direction)} {c : Coord}
    (h : c ∈ pathCells ps) :
    ∃ (j : Nat) (hj : j < ps.length), (ps.get ⟨j, hj⟩).1 = c := by
  obtain ⟨n, hn⟩ := List.mem_iff_get.mp h
  have hlen : (pathCells ps).length = ps.length := List.length_map _ _
  refine ⟨n.1, by rw [← hlen]; exact n.2, ?_⟩
  rw [← hn]
  exact (List.getElem_map Prod.fst).symm

lemma pathCells_length (ps : List (Coord × Direction)) :
    (pathCells ps).length = ps.length := List.length_map _ _

lemma take_mem_of_get {α : Type} (l : List α) (j i : Nat) (hi : i < l.length)
    (hij : i < j) : l.get ⟨i, hi⟩ ∈ l.take j := by
  have h' : i < (l.take j).length := by
    rw [List.length_take]
    exact lt_min hij hi
  have he : (l.take j).get ⟨i, h'⟩ = l.get ⟨i, hi⟩ := by
    rw [List.get_eq_getElem, List.get_eq_getElem]
    show (List.take j l)[i] = l[i]
    exact List.getElem_take l
  rw [← he]
  exact List.get_mem _ _ _

/-- Attaching an erased arrow chain to the tree opens one passage per chain
cell: the invariant is preserved, cells only gain bits, `INMAZE` spreads
exactly over the chain, the construction certificate extends by the chain
in reverse order, and every chain cell reaches the attachment point `e`. -/
lemma attach_steps (sb : Core) (e : Coord)
    (vc : ValidCompass sb.shape sb.compass) (g : GInv sb)
    (hime : InMaze sb e) :
    ∀ (qs : List (Coord × Direction)),
    (∀ (i : Nat) (h : i < qs.length), Inb sb (qs.get ⟨i, h⟩).1) →
    (∀ (i : Nat) (h : i < qs.length), sb.cells (qs.get ⟨i, h⟩).1 = 0) →
    (∀ (i : Nat) (h : i < qs.length), (qs.get ⟨i, h⟩).2 ∈ sb.compass) →
    (∀ (i : Nat) (h : i < qs.length),
      step (qs.get ⟨i, h⟩).1 (qs.get ⟨i, h⟩).2.deltas =
        (pathCells qs ++ [e]).getD (i + 1) []) →
    (pathCells qs ++ [e]).Nodup →
    ∀ (s2 : Core), s2.shape = sb.shape → s2.compass = sb.compass →
      (∀ k, s2.rng k = sb.rng k) →
      (∀ c, s2.cells c = attachCells e qs sb.cells c) →
    GInv s2 ∧
    (∀ c k, (sb.cells c).testBit k = true → (s2.cells c).testBit k = true) ∧
    (∀ c, s2.cells c ≠ sb.cells c → Inb sb c ∧ ¬Hid sb c) ∧
    (doorPairs s2).length = (doorPairs sb).length + 2 * qs.length ∧
    imCount s2 = imCount sb + qs.length ∧
    (∀ c, InMaze s2 c ↔ InMaze sb c ∨ c ∈ pathCells qs) ∧
    (∀ c, Hid s2 c ↔ Hid sb c) ∧
    (∀ L, Cert sb L → Cert s2 (L ++ (pathCells qs).reverse)) ∧
    (∀ c ∈ pathCells qs, Reach s2 c e) := by
  intro qs
  induction qs with
  | nil =>
      intro _ _ _ _ _ s2 hshape hcompass hrng hcells
      have hs2 : s2 = sb := core_ext s2 sb hshape hcells hcompass hrng
      subst hs2
      refine ⟨g, fun c k h => h, fun c hne => absurd rfl hne, by simp,
        by simp, ?_, fun c => Iff.rfl, ?_, ?_⟩
      · intro c
        constructor
        · exact fun h => Or.inl h
        · rintro (h | h)
          · exact h
          · cases h
      · intro L hL
        rw [show pathCells ([] : List (Coord × Direction)) = [] from rfl,
          List.reverse_nil, List.append_nil]
        exact hL
      · intro c hc
        cases hc
  | cons qd t ih =>
      obtain ⟨q0, d0⟩ := qd
      intro hInb hc0 hDirs hLinks hnd s2 hshape hcompass hrng hcells
      have hnd' : (q0 :: (pathCells t ++ [e])).Nodup := hnd
      have hq0nt : q0 ∉ pathCells t :=
        fun hcon => (List.nodup_cons.mp hnd').1 (List.mem_append_left _ hcon)
      have hq0e : q0 ≠ e := by
        intro hcon
        refine (List.nodup_cons.mp hnd').1 ?_
        rw [hcon]
        exact List.mem_append_right _ (List.mem_singleton_self e)
      have hq0tgt : q0 ≠ (pathCells t ++ [e]).getD 0 [] := by
        intro hcon
        rcases List.mem_append.mp (hcon ▸ headD_mem_append (pathCells t) e)
          with h | h
        · exact hq0nt h
        · exact hq0e (List.mem_singleton.mp h)
      -- the intermediate state after attaching only the tail
      have hsm := ih
        (fun i h => hInb (i + 1) (Nat.succ_lt_succ h))
        (fun i h => hc0 (i + 1) (Nat.succ_lt_succ h))
        (fun i h => hDirs (i + 1) (Nat.succ_lt_succ h))
        (fun i h => hLinks (i + 1) (Nat.succ_lt_succ h))
        (List.nodup_cons.mp hnd').2
        { sb with cells := attachCells e t sb.cells }
        rfl rfl (fun _ => rfl) (fun _ => rfl)
      obtain ⟨gm, monom, framem, dplm, imcm, imiffm, hidiffm, certm, reachm⟩ :=
        hsm
      -- facts about the target cell of the head arrow
      have htgtE : (pathCells t ++ [e]).getD 0 [] = e ∨
          (pathCells t ++ [e]).getD 0 [] ∈ pathCells t := by
        rcases List.mem_append.mp (headD_mem_append (pathCells t) e) with h | h
        · exact Or.inr h
        · exact Or.inl (List.mem_singleton.mp h)
      have htgtInb : Inb sb ((pathCells t ++ [e]).getD 0 []) ∧
          ¬Hid sb ((pathCells t ++ [e]).getD 0 []) := by
        cases t with
        | nil => exact ⟨(g.imInb e hime).1, (g.imInb e hime).2⟩
        | cons p1 t' =>
            have h1 : Inb sb p1.1 := hInb 1 (by
              rw [List.length_cons, List.length_cons]
              omega)
            have h2 : sb.cells p1.1 = 0 := hc0 1 (by
              rw [List.length_cons, List.length_cons]
              omega)
            have hp1 : (pathCells (p1 :: t') ++ [e]).getD 0 [] = p1.1 := by
              obtain ⟨c1, dd1⟩ := p1
              rfl
            rw [hp1]
            refine ⟨h1, ?_⟩
            rw [Hid, h2, Nat.zero_and]
            exact fun hcon => hcon rfl
      have htgtIm : InMaze { sb with cells := attachCells e t sb.cells }
          ((pathCells t ++ [e]).getD 0 []) := by
        rcases htgtE with h | h
        · rw [h]
          exact (imiffm e).mpr (Or.inl hime)
        · exact (imiffm _).mpr (Or.inr h)
      -- the head arrow and its reverse direction
      have hd0mem : d0 ∈ sb.compass := hDirs 0 (Nat.succ_pos t.length)
      have hq0Inb : Inb sb q0 := hInb 0 (Nat.succ_pos t.length)
      have hq0z : sb.cells q0 = 0 := hc0 0 (Nat.succ_pos t.length)
      have hlink0 : step q0 d0.deltas = (pathCells t ++ [e]).getD 0 [] :=
        hLinks 0 (Nat.succ_pos t.length)
      obtain ⟨d0', hd'mem, hvald', hoppd', hdeld'⟩ := vc_opp vc hd0mem
      have hback : step ((pathCells t ++ [e]).getD 0 []) d0'.deltas = q0 := by
        rw [← hlink0]
        exact step_back vc hd0mem hd'mem hvald' hq0Inb
      -- the final state is one open_step beyond the intermediate state
      have hsmq0 : attachCells e t sb.cells q0 = 0 := by
        rw [attachCells_out e t sb.cells q0 hq0nt hq0e, hq0z]
      have hs2eq : s2 = setCell
          (setCell { sb with cells := attachCells e t sb.cells }
            ((pathCells t ++ [e]).getD 0 [])
            ({ sb with cells := attachCells e t sb.cells }.cells
              ((pathCells t ++ [e]).getD 0 []) ||| d0'.val))
          q0
          ((setCell { sb with cells := attachCells e t sb.cells }
            ((pathCells t ++ [e]).getD 0 [])
            ({ sb with cells := attachCells e t sb.cells }.cells
              ((pathCells t ++ [e]).getD 0 []) ||| d0'.val)).cells q0 |||
            (INMAZE ||| d0'.opposite)) := by
        refine core_ext _ _ hshape ?_ hcompass hrng
        intro c
        rw [hcells c, setCell_cells]
        by_cases hcq : c = q0
        · subst hcq
          rw [if_pos rfl,
            setCell_cells_ne _ _ _ _ hq0tgt, hoppd',
            attachCells_cons_head e c d0 t sb.cells hq0tgt]
        · rw [if_neg hcq, setCell_cells]
          by_cases hct : c = (pathCells t ++ [e]).getD 0 []
          · subst hct
            rw [if_pos rfl, hvald',
              attachCells_cons_tgt e q0 d0 t sb.cells hcq]
          · rw [if_neg hct, attachCells_cons_other e q0 c d0 t sb.cells hcq hct]
      have hstep := open_step { sb with cells := attachCells e t sb.cells }
        ((pathCells t ++ [e]).getD 0 []) q0 d0' vc gm hd'mem
        htgtInb.1 (fun hcon => htgtInb.2 ((hidiffm _).mp hcon)) htgtIm
        hback.symm hq0Inb
        (by
          show attachCells e t sb.cells q0 &&& INUSE = 0
          rw [hsmq0, Nat.zero_and])
        s2 hs2eq
      obtain ⟨g2, mono2, frame2, dpl2, imc2, imiff2, hadj2, cert2, hsh2, hcp2,
        hhid2, _⟩ := hstep
      have monoC : ∀ c k, (sb.cells c).testBit k = true →
          (s2.cells c).testBit k = true :=
        fun c k h => mono2 c k (monom c k h)
      have reachLift : ∀ a b,
          Reach { sb with cells := attachCells e t sb.cells } a b →
          Reach s2 a b :=
        fun a b h => Reach_mono hcp2 mono2 h
      have reachTgt : Reach s2 ((pathCells t ++ [e]).getD 0 []) e := by
        rcases htgtE with h | h
        · rw [h]
          exact Relation.ReflTransGen.refl
        · exact reachLift _ _ (reachm _ h)
      refine ⟨g2, monoC, ?_, ?_, ?_, ?_, ?_, ?_, ?_⟩
      · intro c hne
        by_cases hmid : s2.cells c =
            { sb with cells := attachCells e t sb.cells }.cells c
        · refine framem c ?_
          intro hcon
          exact hne (hmid.trans hcon)
        · obtain ⟨hi, hh⟩ := frame2 c hmid
          exact ⟨hi, fun hcon => hh ((hidiffm c).mpr hcon)⟩
      · rw [dpl2, dplm, List.length_cons]
        omega
      · rw [imc2, imcm, List.length_cons]
        omega
      · intro c
        rw [imiff2 c, imiffm c, pathCells_cons, List.mem_cons]
        constructor
        · rintro ((h | h) | h)
          · exact Or.inl h
          · exact Or.inr (Or.inr h)
          · exact Or.inr (Or.inl h)
        · rintro (h | h | h)
          · exact Or.inl (Or.inl h)
          · exact Or.inr h
          · exact Or.inl (Or.inr h)
      · intro c
        rw [hhid2 c, hidiffm c]
      · intro L hL
        have h1 := cert2 _ (certm L hL)
        rw [pathCells_cons, List.reverse_cons, ← List.append_assoc]
        exact h1
      · intro c hc
        rw [pathCells_cons, List.mem_cons] at hc
        rcases hc with h | h
        · subst h
          exact Relation.ReflTransGen.trans
            (Relation.ReflTransGen.single hadj2) reachTgt
        · exact reachLift _ _ (reachm c h)

/-- Partial correctness of the `while walking` loop of `wilsons_generate`:
if the loop terminates, the final state extends the walk-base tree state by
one attached branch.  `sb` is the abstract base state (the current tree),
`ps` the arrow path already laid down from `start`, `current` the walking
head. -/
lemma walkLoop_spec (sb : Core) (start : Coord)
    (vc : ValidCompass sb.shape sb.compass) (g : GInv sb) :
    ∀ (fuel : Nat) (s : Core) (current : Coord)
      (ps : List (Coord × Direction)) (s' : Core) (evs : List Event),
    s.shape = sb.shape → s.compass = sb.compass →
    (∀ c, c ∉ pathCells ps → c ≠ current → s.cells c = sb.cells c) →
    s.cells current = 0 →
    sb.cells current = 0 →
    Inb sb current →
    (∀ (i : Nat) (h : i < ps.length),
      s.cells (ps.get ⟨i, h⟩).1 = (ps.get ⟨i, h⟩).2.val) →
    (∀ (i : Nat) (h : i < ps.length), (ps.get ⟨i, h⟩).2 ∈ sb.compass) →
    (∀ (i : Nat) (h : i < ps.length), Inb sb (ps.get ⟨i, h⟩).1) →
    (∀ (i : Nat) (h : i < ps.length), sb.cells (ps.get ⟨i, h⟩).1 = 0) →
    (∀ (i : Nat) (h : i < ps.length),
      step (ps.get ⟨i, h⟩).1 (ps.get ⟨i, h⟩).2.deltas =
        (pathCells ps ++ [current]).getD (i + 1) []) →
    (pathCells ps ++ [current]).Nodup →
    (pathCells ps ++ [current]).getD 0 [] = start →
    walkLoop fuel s start current = some (s', evs) →
    s'.shape = sb.shape ∧ s'.compass = sb.compass ∧ GInv s' ∧
    (∀ c k, (sb.cells c).testBit k = true → (s'.cells c).testBit k = true) ∧
    (∀ c, s'.cells c ≠ sb.cells c → Inb sb c ∧ ¬Hid sb c) ∧
    (∀ c, Hid s' c ↔ Hid sb c) ∧
    (∃ m, (doorPairs s').length = (doorPairs sb).length + 2 * m ∧
      imCount s' = imCount sb + m) ∧
    (∀ L, Cert sb L → ∃ L2, Cert s' L2) ∧
    (∀ c, InMaze s' c → InMaze sb c ∨ ∃ e, InMaze sb e ∧ Reach s' c e) := by
  intro fuel
  induction fuel with
  | zero =>
      intro s current ps s' evs _ _ _ _ _ _ _ _ _ _ _ _ _ hrun
      rw [walkLoop.eq_def] at hrun
      simp only [] at hrun
      cases hrun
  | succ fuel ih =>
      intro s current ps s' evs hshape hcompass houts hcur0 hbcur0 hInbC
        harrows hdirs hInbP hbase0 hlinks hnd hstart hrun
      have hndA := List.nodup_append.mp hnd
      have hcurP : current ∉ pathCells ps :=
        fun hmem => hndA.2.2 hmem (List.mem_singleton_self current)
      have hs0c : ∀ c,
          (draw s (compassKeys s.compass).length).2.cells c = s.cells c :=
        fun _ => rfl
      rw [walkLoop.eq_def] at hrun
      simp only [] at hrun
      split at hrun
      · cases hrun
      · split at hrun
        · cases hrun
        · rename_i d hcg
          have hdmemS : d ∈ sb.compass := by
            rw [← hcompass]
            exact (compassGet_mem hcg).1
          have hdval : d.val =
              (compassKeys s.compass).getD
                (draw s (compassKeys s.compass).length).1 0 :=
            (compassGet_mem hcg).2
          obtain ⟨kd, hk4, hk14, hkval⟩ := vc_val_pow vc hdmemS
          split at hrun
          · -- out of bounds or hidden: redraw with the same walk state
            exact ih (draw s (compassKeys s.compass).length).2 current ps s'
              evs hshape hcompass houts hcur0 hbcur0 hInbC harrows hdirs
              hInbP hbase0 hlinks hnd hstart hrun
          · rename_i hguard
            rw [Bool.or_eq_true, Bool.not_eq_true'] at hguard
            push_neg at hguard
            obtain ⟨hg1, hg2⟩ := hguard
            have hInbN : Inb sb (step current d.deltas) := by
              show inbound sb.shape (step current d.deltas) = true
              rw [← hshape]
              exact Bool.ne_false_iff.mp hg1
            have hhidN : s.cells (step current d.deltas) &&& HIDDEN = 0 := by
              have h2 : ¬(s.cells (step current d.deltas) &&& HIDDEN ≠ 0) := by
                intro hcon
                exact hg2 (bne_iff_ne.mpr hcon)
              exact not_not.mp h2
            -- the freshly written arrow at `current`
            have hs1cur : (setCell (draw s (compassKeys s.compass).length).2
                current (andNot
                  ((draw s (compassKeys s.compass).length).2.cells current)
                  DIR |||
                  (compassKeys s.compass).getD
                    (draw s (compassKeys s.compass).length).1 0)).cells
                current = d.val := by
              rw [setCell_cells_self, hs0c current, hcur0, ← hdval]
              rw [andNot, Nat.zero_and, Nat.zero_xor, Nat.zero_or]
            split at hrun
            · -- walk-end: the neighbor is already in the maze
              rename_i hIM
              have hIM' : s.cells (step current d.deltas) &&& INMAZE ≠ 0 :=
                bne_iff_ne.mp hIM
              have hneCur : step current d.deltas ≠ current := by
                intro hcon
                rw [hcon, hcur0, Nat.zero_and] at hIM'
                exact hIM' rfl
              have hneP : step current d.deltas ∉ pathCells ps := by
                intro hmem
                obtain ⟨j, hj, hget⟩ := pathCells_get hmem
                obtain ⟨k2, hk24, _, hk2val⟩ := vc_val_pow vc (hdirs j hj)
                have hval : s.cells (step current d.deltas) =
                    (ps.get ⟨j, hj⟩).2.val := by
                  rw [← hget]
                  exact harrows j hj
                rw [hval, hk2val, INMAZE_pow,
                  pow_and_pow_ne (by omega)] at hIM'
                exact hIM' rfl
              have hIMsb : InMaze sb (step current d.deltas) := by
                rw [InMaze, ← houts _ hneP hneCur]
                exact hIM'
              split at hrun
              · cases hrun
              · rename_i s2 evs2 hmark
                cases hrun
                have hpc : pathCells (ps ++ [(current, d)]) =
                    pathCells ps ++ [current] := List.map_append _ _ _
                have harrows1 : ∀ (i : Nat)
                    (h : i < (ps ++ [(current, d)]).length),
                    (setCell (draw s (compassKeys s.compass).length).2
                      current (andNot
                        ((draw s (compassKeys s.compass).length).2.cells
                          current) DIR |||
                        (compassKeys s.compass).getD
                          (draw s (compassKeys s.compass).length).1 0)).cells
                      ((ps ++ [(current, d)]).get ⟨i, h⟩).1 =
                      ((ps ++ [(current, d)]).get ⟨i, h⟩).2.val := by
                  refine @forall_get_snoc _
                    (fun q => (setCell (draw s (compassKeys s.compass).length).2
                      current (andNot
                        ((draw s (compassKeys s.compass).length).2.cells
                          current) DIR |||
                        (compassKeys s.compass).getD
                          (draw s (compassKeys s.compass).length).1 0)).cells
                      q.1 = q.2.val) ps (current, d) ?_ hs1cur
                  intro i h
                  rw [setCell_cells_ne _ _ _ _ (fun hcon => hcurP (by
                    rw [← hcon]
                    exact List.mem_map_of_mem Prod.fst (List.get_mem ps i h))),
                    hs0c]
                  exact harrows i h
                have hdirs1 : ∀ (i : Nat)
                    (h : i < (ps ++ [(current, d)]).length),
                    ((ps ++ [(current, d)]).get ⟨i, h⟩).2 ∈ sb.compass :=
                  @forall_get_snoc _ (fun q => q.2 ∈ sb.compass) ps
                    (current, d) hdirs hdmemS
                have hInb1 : ∀ (i : Nat)
                    (h : i < (ps ++ [(current, d)]).length),
                    Inb sb ((ps ++ [(current, d)]).get ⟨i, h⟩).1 :=
                  @forall_get_snoc _ (fun q => Inb sb q.1) ps
                    (current, d) hInbP hInbC
                have hbase01 : ∀ (i : Nat)
                    (h : i < (ps ++ [(current, d)]).length),
                    sb.cells ((ps ++ [(current, d)]).get ⟨i, h⟩).1 = 0 :=
                  @forall_get_snoc _ (fun q => sb.cells q.1 = 0) ps
                    (current, d) hbase0 hbcur0
                have hlinks1 : ∀ (i : Nat)
                    (h : i < (ps ++ [(current, d)]).length),
                    step ((ps ++ [(current, d)]).get ⟨i, h⟩).1
                      ((ps ++ [(current, d)]).get ⟨i, h⟩).2.deltas =
                      (pathCells (ps ++ [(current, d)]) ++
                        [step current d.deltas]).getD (i + 1) [] := by
                  intro i h
                  rw [hpc]
                  rcases Nat.lt_or_ge i ps.length with hi | hi
                  · have hgeti : (ps ++ [(current, d)]).get ⟨i, h⟩ =
                        ps.get ⟨i, hi⟩ := by
                      rw [List.get_eq_getElem, List.get_eq_getElem]
                      exact List.getElem_append_left hi
                    rw [hgeti, getD_snoc2_agree _ _ _ (i + 1)
                      (by rw [pathCells_length]; omega)]
                    exact hlinks i hi
                  · have hix : i = ps.length := by
                      rw [List.length_append, List.length_singleton] at h
                      omega
                    subst hix
                    have hgeti : (ps ++ [(current, d)]).get ⟨ps.length, h⟩ =
                        (current, d) := by
                      rw [List.get_eq_getElem,
                        List.getElem_append_right (Nat.le_refl _)]
                      simp
                    rw [hgeti, List.getD_append_right _ _ _ _ (by
                      rw [List.length_append, pathCells_length,
                        List.length_singleton])]
                    rw [List.length_append, pathCells_length,
                      List.length_singleton, Nat.sub_self]
                    rfl
                have hnd1 : (pathCells (ps ++ [(current, d)]) ++
                    [step current d.deltas]).Nodup := by
                  rw [hpc]
                  refine nodup_snoc hnd ?_
                  intro hmem
                  rcases List.mem_append.mp hmem with h | h
                  · exact hneP h
                  · exact hneCur (List.mem_singleton.mp h)
                have hstart1 : (pathCells (ps ++ [(current, d)]) ++
                    [step current d.deltas]).getD 0 [] = start := by
                  rw [hpc, getD_snoc2_agree _ _ _ 0 (Nat.zero_le _)]
                  exact hstart
                obtain ⟨hmsh, hmcp, hmrng, hmcells⟩ :=
                  markpath_spec (ps ++ [(current, d)]) 0 fuel _
                    (step current d.deltas) s' evs2
                    (by
                      show ValidCompass s.shape s.compass
                      rw [hshape, hcompass]
                      exact vc)
                    harrows1
                    (fun i h => by
                      have := hdirs1 i h
                      rw [← hcompass] at this
                      exact this)
                    hlinks1 hnd1
                    (by rw [hstart1]; exact hmark)
                have hcellsA : ∀ c, s'.cells c =
                    attachCells (step current d.deltas)
                      (ps ++ [(current, d)]) sb.cells c := by
                  intro c
                  rw [hmcells c, markCells_eq_attach (step current d.deltas)
                    (ps ++ [(current, d)]) 0 _ harrows1 hnd1 c]
                  have hZ : ∀ x, (if x ∈ pathCells (ps ++ [(current, d)])
                      then 0
                      else (setCell (draw s (compassKeys s.compass).length).2
                        current (andNot
                          ((draw s (compassKeys s.compass).length).2.cells
                            current) DIR |||
                          (compassKeys s.compass).getD
                            (draw s (compassKeys s.compass).length).1
                            0)).cells x) = sb.cells x := by
                    intro x
                    by_cases hx : x ∈ pathCells (ps ++ [(current, d)])
                    · rw [if_pos hx]
                      rw [hpc] at hx
                      rcases List.mem_append.mp hx with h | h
                      · obtain ⟨i2, hi2, hg2⟩ := pathCells_get h
                        rw [← hg2]
                        exact (hbase0 i2 hi2).symm
                      · rw [List.mem_singleton.mp h]
                        exact hbcur0.symm
                    · rw [if_neg hx]
                      rw [hpc] at hx
                      have hxc : x ≠ current := fun hcon => hx (by
                        rw [hcon]
                        exact List.mem_append_right _
                          (List.mem_singleton_self _))
                      have hxp : x ∉ pathCells ps :=
                        fun hcon => hx (List.mem_append_left _ hcon)
                      rw [setCell_cells_ne _ _ _ _ hxc, hs0c]
                      exact houts x hxp hxc
                  by_cases hc : c = (pathCells (ps ++ [(current, d)]) ++
                      [step current d.deltas]).getD 0 []
                  · rw [if_pos hc, Nat.or_zero]
                    exact attachCells_local _ _ _ _ c (hZ c)
                  · rw [if_neg hc]
                    exact attachCells_local _ _ _ _ c (hZ c)
                obtain ⟨gF, monoF, frameF, dplF, imcF, imiffF, hidF, certF,
                    reachF⟩ :=
                  attach_steps { sb with rng := s'.rng }
                    (step current d.deltas) vc
                    (@ginv_congr sb { sb with rng := s'.rng } rfl rfl rfl g)
                    hIMsb (ps ++ [(current, d)]) hInb1 hbase01 hdirs1
                    hlinks1 hnd1 s' (hmsh.trans hshape) (hmcp.trans hcompass)
                    (fun k => rfl) hcellsA
                refine ⟨hmsh.trans hshape, hmcp.trans hcompass, gF, monoF,
                  frameF, hidF,
                  ⟨(ps ++ [(current, d)]).length, dplF, imcF⟩, ?_, ?_⟩
                · intro L hL
                  exact ⟨L ++ (pathCells (ps ++ [(current, d)])).reverse,
                    certF L (@cert_congr sb { sb with rng := s'.rng }
                      (fun c => rfl) rfl L hL)⟩
                · intro c hc
                  rcases (imiffF c).mp hc with h | h
                  · exact Or.inl h
                  · exact Or.inr ⟨step current d.deltas, hIMsb, reachF c h⟩
            · rename_i hIMf
              have hIMn : s.cells (step current d.deltas) &&& INMAZE = 0 := by
                have h2 : ¬(s.cells (step current d.deltas) &&& INMAZE ≠ 0) :=
                  fun hcon => hIMf (bne_iff_ne.mpr hcon)
                exact not_not.mp h2
              split at hrun
              · -- walk-loop: the neighbor is on the current arrow path
                rename_i hDIR
                have hDIR' : s.cells (step current d.deltas) &&& DIR ≠ 0 :=
                  bne_iff_ne.mp hDIR
                have hneCur : step current d.deltas ≠ current := by
                  intro hcon
                  rw [hcon, hcur0, Nat.zero_and] at hDIR'
                  exact hDIR' rfl
                have hmemP : step current d.deltas ∈ pathCells ps := by
                  by_contra hmem
                  have hce : s.cells (step current d.deltas) =
                      sb.cells (step current d.deltas) :=
                    houts _ hmem hneCur
                  obtain ⟨k, hxk, hdk⟩ := (and_ne_zero_iff _ _).mp hDIR'
                  rw [testBit_DIR] at hdk
                  have hk4' : 4 ≤ k :=
                    of_decide_eq_true (Bool.and_eq_true_iff.mp hdk).1
                  rcases g.bitsDom (step current d.deltas) k
                      (by rw [← hce]; exact hxk) with h | h | ⟨d2, hd2, hval⟩
                  · omega
                  · omega
                  · have hdoor : sb.cells (step current d.deltas) &&&
                        d2.val ≠ 0 := by
                      rw [hval]
                      exact (and_ne_zero_iff _ _).mpr ⟨k,
                        by rw [← hce]; exact hxk,
                        Nat.testBit_two_pow_self⟩
                    have him := g.doorsIm _ d2 hd2 hdoor
                    rw [InMaze, ← hce] at him
                    exact him hIMn
                obtain ⟨j, hj, hgetj⟩ := pathCells_get hmemP
                have hjpc : j < (pathCells ps).length := by
                  rw [pathCells_length]
                  exact hj
                have hndP : (pathCells ps).Nodup := hndA.1
                have hpcd : pathCells (ps.drop j) = (pathCells ps).drop j :=
                  List.map_drop _ _ _
                have hpct : pathCells (ps.take j) = (pathCells ps).take j :=
                  List.map_take _ _ _
                have hdropA : (pathCells ps).drop j ++ [current] =
                    ((pathCells ps) ++ [current]).drop j :=
                  (List.drop_append_of_le_length
                    (Nat.le_of_lt hjpc)).symm
                have hneighD : (pathCells ps).getD j [] =
                    step current d.deltas := by
                  rw [List.getD_eq_getElem _ _ hjpc]
                  show (List.map Prod.fst ps)[j] = step current d.deltas
                  rw [List.getElem_map]
                  exact hgetj
                have hstart0 : (pathCells (ps.drop j) ++ [current]).getD 0 []
                    = step current d.deltas := by
                  rw [hpcd, hdropA, getD_drop_chain, Nat.add_zero,
                    List.getD_append _ _ _ j hjpc]
                  exact hneighD
                split at hrun
                · cases hrun
                · rename_i s2 evs2 hclear
                  have harrowsS1 : ∀ (i : Nat) (h : i < ps.length),
                      (setCell (draw s (compassKeys s.compass).length).2
                        current (andNot
                          ((draw s (compassKeys s.compass).length).2.cells
                            current) DIR |||
                          (compassKeys s.compass).getD
                            (draw s (compassKeys s.compass).length).1
                            0)).cells (ps.get ⟨i, h⟩).1 =
                        (ps.get ⟨i, h⟩).2.val := by
                    intro i h
                    rw [setCell_cells_ne _ _ _ _ (fun hcon => hcurP (by
                      rw [← hcon]
                      exact List.mem_map_of_mem Prod.fst
                        (List.get_mem ps i h))), hs0c]
                    exact harrows i h
                  have harrowsD := @forall_get_drop _
                    (fun q => (setCell (draw s (compassKeys s.compass).length).2
                      current (andNot
                        ((draw s (compassKeys s.compass).length).2.cells
                          current) DIR |||
                        (compassKeys s.compass).getD
                          (draw s (compassKeys s.compass).length).1
                          0)).cells q.1 = q.2.val) ps harrowsS1 j
                  have hdirsD := @forall_get_drop _
                    (fun q => q.2 ∈ sb.compass) ps hdirs j
                  have hlinksD : ∀ (i : Nat) (h : i < (ps.drop j).length),
                      step ((ps.drop j).get ⟨i, h⟩).1
                        ((ps.drop j).get ⟨i, h⟩).2.deltas =
                        (pathCells (ps.drop j) ++ [current]).getD (i + 1)
                          [] := by
                    intro i h
                    have hji : j + i < ps.length := by
                      rw [List.length_drop] at h
                      omega
                    have hgd : (ps.drop j).get ⟨i, h⟩ =
                        ps.get ⟨j + i, hji⟩ := by
                      rw [List.get_eq_getElem, List.get_eq_getElem]
                      show (List.drop j ps)[i] = ps[j + i]
                      exact List.getElem_drop ps
                    rw [hgd, hpcd, hdropA, getD_drop_chain,
                      show j + (i + 1) = (j + i) + 1 from by omega]
                    exact hlinks (j + i) hji
                  have hndD : (pathCells (ps.drop j) ++ [current]).Nodup := by
                    rw [hpcd, hdropA]
                    exact List.Sublist.nodup (List.drop_sublist _ _) hnd
                  obtain ⟨hcsh, hccp, hcrng, hccells⟩ :=
                    clearpath_spec (ps.drop j) fuel _ current s2 evs2
                      (by
                        show ValidCompass s.shape s.compass
                        rw [hshape, hcompass]
                        exact vc)
                      harrowsD
                      (fun i h => by
                        have := hdirsD i h
                        rw [← hcompass] at this
                        exact this)
                      hlinksD hndD
                      (by rw [hstart0]; exact hclear)
                  split at hrun
                  · cases hrun
                  · rename_i s4 evs3 hrun2
                    cases hrun
                    -- set up the invariant for the shortened path
                    have hs2cur : s2.cells current = d.val := by
                      rw [hccells current, if_neg (fun hcon => hcurP (by
                        rw [hpcd] at hcon
                        exact List.mem_of_mem_drop hcon))]
                      exact hs1cur
                    have hs3cur : (setCell s2 current
                        (andNot (s2.cells current) DIR)).cells current
                        = 0 := by
                      rw [setCell_cells_self, hs2cur, hkval]
                      exact val_andNot_DIR hk4 hk14
                    have hd0 : 0 < (ps.drop j).length := by
                      rw [List.length_drop]
                      omega
                    have hmemD : step current d.deltas ∈
                        pathCells (ps.drop j) := by
                      have hgd0 : (ps.drop j).get ⟨0, hd0⟩ =
                          ps.get ⟨j, hj⟩ := by
                        rw [List.get_eq_getElem, List.get_eq_getElem]
                        show (List.drop j ps)[0] = ps[j]
                        exact List.getElem_drop ps
                      rw [← hgetj, ← hgd0]
                      exact List.mem_map_of_mem Prod.fst (List.get_mem _ _ _)
                    have hsplit : pathCells ps =
                        pathCells (ps.take j) ++ pathCells (ps.drop j) := by
                      rw [hpct, hpcd, List.take_append_drop]
                    have houts3 : ∀ c, c ∉ pathCells (ps.take j) →
                        c ≠ step current d.deltas →
                        (setCell s2 current
                          (andNot (s2.cells current) DIR)).cells c =
                          sb.cells c := by
                      intro c hc1 hc2
                      by_cases hcc : c = current
                      · rw [hcc, hs3cur, hbcur0]
                      · rw [setCell_cells_ne _ _ _ _ hcc, hccells c]
                        by_cases hcd : c ∈ pathCells (ps.drop j)
                        · rw [if_pos hcd]
                          have hcm : c ∈ pathCells ps := by
                            rw [hsplit]
                            exact List.mem_append_right _ hcd
                          obtain ⟨i2, hi2, hg2⟩ := pathCells_get hcm
                          rw [← hg2]
                          exact (hbase0 i2 hi2).symm
                        · rw [if_neg hcd]
                          have hcp2 : c ∉ pathCells ps := by
                            intro hcon
                            rw [hsplit] at hcon
                            rcases List.mem_append.mp hcon with h | h
                            · exact hc1 h
                            · exact hcd h
                          rw [setCell_cells_ne _ _ _ _ hcc, hs0c]
                          exact houts c hcp2 hcc
                    have hcur3 : (setCell s2 current
                        (andNot (s2.cells current) DIR)).cells
                        (step current d.deltas) = 0 := by
                      rw [setCell_cells_ne _ _ _ _ hneCur, hccells _,
                        if_pos hmemD]
                    have hbcur3 : sb.cells (step current d.deltas) = 0 := by
                      rw [← hgetj]
                      exact hbase0 j hj
                    have hInbC3 : Inb sb (step current d.deltas) := by
                      rw [← hgetj]
                      exact hInbP j hj
                    have harrowsT : ∀ (i : Nat)
                        (h : i < (ps.take j).length),
                        (setCell s2 current
                          (andNot (s2.cells current) DIR)).cells
                          ((ps.take j).get ⟨i, h⟩).1 =
                          ((ps.take j).get ⟨i, h⟩).2.val := by
                      intro i h
                      have hij : i < j := by
                        rw [List.length_take] at h
                        omega
                      have hi : i < ps.length := Nat.lt_trans hij hj
                      have hgt : (ps.take j).get ⟨i, h⟩ =
                          ps.get ⟨i, hi⟩ := by
                        rw [List.get_eq_getElem, List.get_eq_getElem]
                        show (List.take j ps)[i] = ps[i]
                        exact List.getElem_take ps
                      rw [hgt]
                      have hpim : (ps.get ⟨i, hi⟩).1 ∈ pathCells ps :=
                        List.mem_map_of_mem Prod.fst (List.get_mem ps i hi)
                      have hpimT : (ps.get ⟨i, hi⟩).1 ∈
                          (pathCells ps).take j := by
                        rw [← hpct]
                        exact List.mem_map_of_mem Prod.fst
                          (take_mem_of_get ps j i hi hij)
                      have hpiD : (ps.get ⟨i, hi⟩).1 ∉
                          pathCells (ps.drop j) := by
                        intro hcon
                        rw [hpcd] at hcon
                        exact List.disjoint_take_drop hndP (Nat.le_refl j)
                          hpimT hcon
                      have hpic : (ps.get ⟨i, hi⟩).1 ≠ current :=
                        fun hcon => hcurP (hcon ▸ hpim)
                      rw [setCell_cells_ne _ _ _ _ hpic, hccells _,
                        if_neg hpiD, setCell_cells_ne _ _ _ _ hpic, hs0c]
                      exact harrows i hi
                    have hdirsT := @forall_get_take _
                      (fun q => q.2 ∈ sb.compass) ps hdirs j
                    have hInbT := @forall_get_take _
                      (fun q => Inb sb q.1) ps hInbP j
                    have hbase0T := @forall_get_take _
                      (fun q => sb.cells q.1 = 0) ps hbase0 j
                    have hlinksT : ∀ (i : Nat)
                        (h : i < (ps.take j).length),
                        step ((ps.take j).get ⟨i, h⟩).1
                          ((ps.take j).get ⟨i, h⟩).2.deltas =
                          (pathCells (ps.take j) ++
                            [step current d.deltas]).getD (i + 1) [] := by
                      intro i h
                      have hij : i < j := by
                        rw [List.length_take] at h
                        omega
                      have hi : i < ps.length := Nat.lt_trans hij hj
                      have hgt : (ps.take j).get ⟨i, h⟩ =
                          ps.get ⟨i, hi⟩ := by
                        rw [List.get_eq_getElem, List.get_eq_getElem]
                        show (List.take j ps)[i] = ps[i]
                        exact List.getElem_take ps
                      rw [hgt, hpct, ← hneighD,
                        getD_take_chain (pathCells ps) j (i + 1) hjpc
                          (by omega)]
                      have hl := hlinks i hi
                      rw [List.getD_append _ _ _ (i + 1)
                        (by rw [pathCells_length]; omega)] at hl
                      exact hl
                    have hndT : (pathCells (ps.take j) ++
                        [step current d.deltas]).Nodup := by
                      rw [hpct, ← hneighD, List.getD_eq_getElem _ _ hjpc,
                        ← List.concat_eq_append, List.take_concat_get]
                      refine List.Sublist.nodup ?_ hnd
                      exact (List.take_sublist _ _).trans
                        (List.sublist_append_left _ _)
                    have hstartT : (pathCells (ps.take j) ++
                        [step current d.deltas]).getD 0 [] = start := by
                      rw [hpct, ← hneighD,
                        getD_take_chain (pathCells ps) j 0 hjpc
                          (Nat.zero_le _)]
                      have hs := hstart
                      rw [List.getD_append _ _ _ 0
                        (by rw [pathCells_length]; omega)] at hs
                      exact hs
                    exact ih (setCell s2 current
                        (andNot (s2.cells current) DIR))
                      (step current d.deltas) (ps.take j) s' evs3
                      (hcsh.trans hshape) (hccp.trans hcompass) houts3
                      hcur3 hbcur3 hInbC3 harrowsT hdirsT hInbT hbase0T
                      hlinksT hndT hstartT hrun2
              · -- walk-step: the neighbor is fresh; extend the path
                rename_i hDIRf
                have hDIRn : s.cells (step current d.deltas) &&& DIR = 0 := by
                  have h2 : ¬(s.cells (step current d.deltas) &&& DIR ≠ 0) :=
                    fun hcon => hDIRf (bne_iff_ne.mpr hcon)
                  exact not_not.mp h2
                have hneCur : step current d.deltas ≠ current :=
                  step_ne vc hdmemS hInbC
                have hneP : step current d.deltas ∉ pathCells ps := by
                  intro hmem
                  obtain ⟨j, hj, hget⟩ := pathCells_get hmem
                  obtain ⟨k2, hk24, hk214, hk2val⟩ :=
                    vc_val_pow vc (hdirs j hj)
                  have hval : s.cells (step current d.deltas) =
                      (ps.get ⟨j, hj⟩).2.val := by
                    rw [← hget]
                    exact harrows j hj
                  rw [hval, hk2val, pow_and_DIR hk24 hk214] at hDIRn
                  have hpos : (0 : Nat) < 2 ^ k2 :=
                    Nat.pos_pow_of_pos k2 (by omega)
                  omega
                have hsbn : sb.cells (step current d.deltas) = 0 := by
                  have hce : s.cells (step current d.deltas) =
                      sb.cells (step current d.deltas) :=
                    houts _ hneP hneCur
                  refine g.emptyVal _ hInbN ?_
                  rw [← hce]
                  exact inuse_of_bits hIMn hhidN
                split at hrun
                · cases hrun
                · rename_i s2 evs2 hrun2
                  cases hrun
                  have hpc : pathCells (ps ++ [(current, d)]) =
                      pathCells ps ++ [current] := List.map_append _ _ _
                  have houts1 : ∀ c, c ∉ pathCells (ps ++ [(current, d)]) →
                      c ≠ step current d.deltas →
                      (setCell (draw s (compassKeys s.compass).length).2
                        current (andNot
                          ((draw s (compassKeys s.compass).length).2.cells
                            current) DIR |||
                          (compassKeys s.compass).getD
                            (draw s (compassKeys s.compass).length).1
                            0)).cells c = sb.cells c := by
                    intro c hc1 hc2
                    rw [hpc] at hc1
                    have hxc : c ≠ current := fun hcon => hc1 (by
                      rw [hcon]
                      exact List.mem_append_right _
                        (List.mem_singleton_self _))
                    have hxp : c ∉ pathCells ps :=
                      fun hcon => hc1 (List.mem_append_left _ hcon)
                    rw [setCell_cells_ne _ _ _ _ hxc, hs0c]
                    exact houts c hxp hxc
                  have hcur1 : (setCell
                      (draw s (compassKeys s.compass).length).2
                      current (andNot
                        ((draw s (compassKeys s.compass).length).2.cells
                          current) DIR |||
                        (compassKeys s.compass).getD
                          (draw s (compassKeys s.compass).length).1
                          0)).cells (step current d.deltas) = 0 := by
                    rw [setCell_cells_ne _ _ _ _ hneCur, hs0c,
                      houts _ hneP hneCur]
                    exact hsbn
                  have harrows1 : ∀ (i : Nat)
                      (h : i < (ps ++ [(current, d)]).length),
                      (setCell (draw s (compassKeys s.compass).length).2
                        current (andNot
                          ((draw s (compassKeys s.compass).length).2.cells
                            current) DIR |||
                          (compassKeys s.compass).getD
                            (draw s (compassKeys s.compass).length).1
                            0)).cells
                        ((ps ++ [(current, d)]).get ⟨i, h⟩).1 =
                        ((ps ++ [(current, d)]).get ⟨i, h⟩).2.val := by
                    refine @forall_get_snoc _
                      (fun q => (setCell
                        (draw s (compassKeys s.compass).length).2
                        current (andNot
                          ((draw s (compassKeys s.compass).length).2.cells
                            current) DIR |||
                          (compassKeys s.compass).getD
                            (draw s (compassKeys s.compass).length).1
                            0)).cells q.1 = q.2.val) ps (current, d) ?_
                        hs1cur
                    intro i h
                    rw [setCell_cells_ne _ _ _ _ (fun hcon => hcurP (by
                      rw [← hcon]
                      exact List.mem_map_of_mem Prod.fst
                        (List.get_mem ps i h))), hs0c]
                    exact harrows i h
                  have hdirs1 : ∀ (i : Nat)
                      (h : i < (ps ++ [(current, d)]).length),
                      ((ps ++ [(current, d)]).get ⟨i, h⟩).2 ∈ sb.compass :=
                    @forall_get_snoc _ (fun q => q.2 ∈ sb.compass) ps
                      (current, d) hdirs hdmemS
                  have hInb1 : ∀ (i : Nat)
                      (h : i < (ps ++ [(current, d)]).length),
                      Inb sb ((ps ++ [(current, d)]).get ⟨i, h⟩).1 :=
                    @forall_get_snoc _ (fun q => Inb sb q.1) ps
                      (current, d) hInbP hInbC
                  have hbase01 : ∀ (i : Nat)
                      (h : i < (ps ++ [(current, d)]).length),
                      sb.cells ((ps ++ [(current, d)]).get ⟨i, h⟩).1 = 0 :=
                    @forall_get_snoc _ (fun q => sb.cells q.1 = 0) ps
                      (current, d) hbase0 hbcur0
                  have hlinks1 : ∀ (i : Nat)
                      (h : i < (ps ++ [(current, d)]).length),
                      step ((ps ++ [(current, d)]).get ⟨i, h⟩).1
                        ((ps ++ [(current, d)]).get ⟨i, h⟩).2.deltas =
                        (pathCells (ps ++ [(current, d)]) ++
                          [step current d.deltas]).getD (i + 1) [] := by
                    intro i h
                    rw [hpc]
                    rcases Nat.lt_or_ge i ps.length with hi | hi
                    · have hgeti : (ps ++ [(current, d)]).get ⟨i, h⟩ =
                          ps.get ⟨i, hi⟩ := by
                        rw [List.get_eq_getElem, List.get_eq_getElem]
                        exact List.getElem_append_left hi
                      rw [hgeti, getD_snoc2_agree _ _ _ (i + 1)
                        (by rw [pathCells_length]; omega)]
                      exact hlinks i hi
                    · have hix : i = ps.length := by
                        rw [List.length_append, List.length_singleton] at h
                        omega
                      subst hix
                      have hgeti : (ps ++ [(current, d)]).get
                          ⟨ps.length, h⟩ = (current, d) := by
                        rw [List.get_eq_getElem,
                          List.getElem_append_right (Nat.le_refl _)]
                        simp
                      rw [hgeti, List.getD_append_right _ _ _ _ (by
                        rw [List.length_append, pathCells_length,
                          List.length_singleton])]
                      rw [List.length_append, pathCells_length,
                        List.length_singleton, Nat.sub_self]
                      rfl
                  have hnd1 : (pathCells (ps ++ [(current, d)]) ++
                      [step current d.deltas]).Nodup := by
                    rw [hpc]
                    refine nodup_snoc hnd ?_
                    intro hmem
                    rcases List.mem_append.mp hmem with h | h
                    · exact hneP h
                    · exact hneCur (List.mem_singleton.mp h)
                  have hstart1 : (pathCells (ps ++ [(current, d)]) ++
                      [step current d.deltas]).getD 0 [] = start := by
                    rw [hpc, getD_snoc2_agree _ _ _ 0 (Nat.zero_le _)]
                    exact hstart
                  exact ih (setCell (draw s (compassKeys s.compass).length).2
                      current (andNot
                        ((draw s (compassKeys s.compass).length).2.cells
                          current) DIR |||
                        (compassKeys s.compass).getD
                          (draw s (compassKeys s.compass).length).1 0))
                    (step current d.deltas)
                    (ps ++ [(current, d)]) s' evs2 hshape hcompass houts1
                    hcur1 hsbn hInbN harrows1 hdirs1 hInb1 hbase01 hlinks1
                    hnd1 hstart1 hrun2

lemma inmaze_of_inuse {x : Nat} (h : x &&& INUSE ≠ 0) (hh : x &&& HIDDEN = 0) :
    x &&& INMAZE ≠ 0 := by
  obtain ⟨k, hxk, huk⟩ := (and_ne_zero_iff _ _).mp h
  match k with
  | 0 =>
      refine (and_ne_zero_iff _ _).mpr ⟨0, hxk, ?_⟩
      decide
  | 1 =>
      exfalso
      have h1 : (x &&& HIDDEN).testBit 1 = false := by
        rw [hh, Nat.zero_testBit]
      rw [Nat.testBit_land, hxk,
        show HIDDEN.testBit 1 = true from by decide, Bool.and_self] at h1
      cases h1
  | n + 2 =>
      exfalso
      have hf : INUSE.testBit (n + 2) = false := by
        refine Nat.testBit_lt_two_pow ?_
        have h4 : (4 : Nat) ≤ 2 ^ (n + 2) := by
          calc (4 : Nat) = 2 ^ 2 := by norm_num
          _ ≤ 2 ^ (n + 2) := Nat.pow_le_pow_right (by norm_num) (by omega)
        show INUSE < 2 ^ (n + 2)
        have : INUSE = 3 := rfl
        omega
      rw [hf] at huk
      cases huk

/-- Pairwise connectivity of the maze cells survives attaching new cells
that each reach some old cell. -/
lemma conn_extend {sb s2 : Core} (vc2 : ValidCompass s2.shape s2.compass)
    (g2 : GInv s2) (hcompass : s2.compass = sb.compass)
    (hmono : ∀ c k, (sb.cells c).testBit k = true →
      (s2.cells c).testBit k = true)
    (hnew : ∀ c, InMaze s2 c → InMaze sb c ∨ ∃ e, InMaze sb e ∧ Reach s2 c e)
    (hconn : ∀ a b, InMaze sb a → InMaze sb b → Reach sb a b) :
    ∀ a b, InMaze s2 a → InMaze s2 b → Reach s2 a b := by
  have hlift : ∀ x y, Reach sb x y → Reach s2 x y :=
    fun x y h => Reach_mono hcompass hmono h
  intro a b ha hb
  have hA : ∃ ea, InMaze sb ea ∧ Reach s2 a ea := by
    rcases hnew a ha with h | h
    · exact ⟨a, h, Relation.ReflTransGen.refl⟩
    · exact h
  have hB : ∃ eb, InMaze sb eb ∧ Reach s2 b eb := by
    rcases hnew b hb with h | h
    · exact ⟨b, h, Relation.ReflTransGen.refl⟩
    · exact h
  obtain ⟨ea, hea, hra⟩ := hA
  obtain ⟨eb, heb, hrb⟩ := hB
  exact hra.trans ((hlift _ _ (hconn ea eb hea heb)).trans
    (reach_symm vc2 g2 hrb))

/-- Partial correctness of the `while empties` loop of `wilsons_generate`:
on success the maze invariants survive, pairwise connectivity is maintained,
doors and cells grow in lockstep, and no empty cell remains. -/
lemma wilsons_loop_spec : ∀ (fuel : Nat) (s s' : Core) (evs : List Event),
    ValidCompass s.shape s.compass → GInv s →
    (∀ a b, InMaze s a → InMaze s b → Reach s a b) →
    wilsons_loop fuel s = some (s', evs) →
    s'.shape = s.shape ∧ s'.compass = s.compass ∧ GInv s' ∧
    (∀ c, Hid s' c ↔ Hid s c) ∧
    (∃ m, (doorPairs s').length = (doorPairs s).length + 2 * m ∧
      imCount s' = imCount s + m) ∧
    (∀ L, Cert s L → ∃ L2, Cert s' L2) ∧
    (∀ a b, InMaze s' a → InMaze s' b → Reach s' a b) ∧
    emptyCells s' = [] := by
  intro fuel
  induction fuel with
  | zero =>
      intro s s' evs vc g hconn hrun
      rw [wilsons_loop.eq_def] at hrun
      simp only [] at hrun
      split at hrun
      · rename_i hemp
        have hs : s = s' := congrArg Prod.fst (Option.some.inj hrun)
        subst hs
        exact ⟨rfl, rfl, g, fun c => Iff.rfl, ⟨0, by omega, by omega⟩,
          fun L hL => ⟨L, hL⟩, hconn, List.isEmpty_iff.mp hemp⟩
      · cases hrun
  | succ fuel ih =>
      intro s s' evs vc g hconn hrun
      rw [wilsons_loop.eq_def] at hrun
      simp only [] at hrun
      split at hrun
      · rename_i hemp
        have hs : s = s' := congrArg Prod.fst (Option.some.inj hrun)
        subst hs
        exact ⟨rfl, rfl, g, fun c => Iff.rfl, ⟨0, by omega, by omega⟩,
          fun L hL => ⟨L, hL⟩, hconn, List.isEmpty_iff.mp hemp⟩
      · rename_i hemp
        split at hrun
        · cases hrun
        · rename_i s2 evs2 hwalk
          split at hrun
          · cases hrun
          · rename_i s3 evs3 hloop
            cases hrun
            -- the walk start cell is a drawn empty cell
            have hlen0 : 0 < (emptyCells s).length := by
              rcases Nat.eq_zero_or_pos (emptyCells s).length with h | h
              · exact absurd (List.isEmpty_iff_length_eq_zero.mpr h) hemp
              · exact h
            have hdrlt : (draw s (emptyCells s).length).1 <
                (emptyCells s).length := draw_lt s _ hlen0
            have hmemC : (emptyCells s).getD
                (draw s (emptyCells s).length).1 [] ∈ emptyCells s := by
              rw [List.getD_eq_getElem _ _ hdrlt]
              exact List.getElem_mem hdrlt
            obtain ⟨hmemA, hmemZ⟩ := List.mem_filter.mp hmemC
            have hinbC : Inb s ((emptyCells s).getD
                (draw s (emptyCells s).length).1 []) :=
              (mem_allCoords s.shape _).mp hmemA
            have hcellC : s.cells ((emptyCells s).getD
                (draw s (emptyCells s).length).1 []) = 0 :=
              g.emptyVal _ hinbC (beq_iff_eq.mp hmemZ)
            -- unfold the walk wrapper
            rw [walk] at hwalk
            split at hwalk
            · cases hwalk
            · rename_i s4 evs4 hwl
              have hs42 : s4 = s2 := congrArg Prod.fst (Option.some.inj hwalk)
              subst hs42
              obtain ⟨hWsh, hWcp, hWg, hWmono, hWframe, hWhid, ⟨m1, hWdpl,
                  hWimc⟩, hWcert, hWreach⟩ :=
                walkLoop_spec s ((emptyCells s).getD
                    (draw s (emptyCells s).length).1 []) vc g fuel
                  (draw s (emptyCells s).length).2
                  ((emptyCells s).getD (draw s (emptyCells s).length).1 [])
                  [] s4 evs4 rfl rfl (fun c _ _ => rfl) hcellC hcellC hinbC
                  (fun i h => absurd h (Nat.not_lt_zero i))
                  (fun i h => absurd h (Nat.not_lt_zero i))
                  (fun i h => absurd h (Nat.not_lt_zero i))
                  (fun i h => absurd h (Nat.not_lt_zero i))
                  (fun i h => absurd h (Nat.not_lt_zero i))
                  (List.nodup_singleton _) rfl hwl
              have vc4 : ValidCompass s4.shape s4.compass := by
                rw [hWsh, hWcp]
                exact vc
              have hconn4 : ∀ a b, InMaze s4 a → InMaze s4 b →
                  Reach s4 a b :=
                conn_extend vc4 hWg hWcp hWmono hWreach hconn
              obtain ⟨hLsh, hLcp, hLg, hLhid, ⟨m2, hLdpl, hLimc⟩, hLcert,
                  hLconn, hLemp⟩ := ih s4 s' evs3 vc4 hWg hconn4 hloop
              refine ⟨hLsh.trans hWsh, hLcp.trans hWcp, hLg,
                fun c => (hLhid c).trans (hWhid c),
                ⟨m1 + m2, by omega, by omega⟩, ?_, hLconn, hLemp⟩
              intro L hL
              obtain ⟨L2, hL2⟩ := hWcert L hL
              exact hLcert L2 hL2

/-- `wilsons_generate`, when it completes on a grid with at least one
non-hidden cell, produces a spanning tree of the non-hidden cells: the maze
flag covers exactly those cells, all of them are pairwise connected through
open doors, the door graph has no cycle, and there are exactly
`#cells - 1` passages (each counted as two half-doors). -/
lemma wilsons_generate_tree (fuel : Nat) (s sf : Core) (evs : List Event)
    (vc : ValidCompass s.shape s.compass)
    (hne : nhCells s ≠ [])
    (hrun : wilsons_generate fuel s = some (sf, evs)) :
    sf.shape = s.shape ∧ sf.compass = s.compass ∧ GInv sf ∧
    (∀ c, Inb s c → ¬Hid s c → InMaze sf c) ∧
    (∀ c, InMaze sf c → Inb s c ∧ ¬Hid s c) ∧
    (∀ a b, InMaze sf a → InMaze sf b → Reach sf a b) ∧
    (∀ l, ¬IsDoorCycle sf l) ∧
    (doorPairs sf).length + 2 = 2 * (nhCells s).length ∧
    (∀ c, Hid sf c ↔ Hid s c) := by
  rw [wilsons_generate] at hrun
  simp only [] at hrun
  split at hrun
  · rename_i hemp
    exfalso
    rw [List.isEmpty_iff, emptyCells_clean_eq] at hemp
    exact hne hemp
  · rename_i hemp
    split at hrun
    · cases hrun
    · rename_i s4 evs4 hloop
      cases hrun
      obtain ⟨coord, hcoord⟩ : ∃ c, (emptyCells (clean s)).getD
          (draw (clean s) (emptyCells (clean s)).length).1 [] = c := ⟨_, rfl⟩
      rw [hcoord] at hloop
      have hlen0 : 0 < (emptyCells (clean s)).length := by
        rcases Nat.eq_zero_or_pos (emptyCells (clean s)).length with h | h
        · exfalso
          apply hne
          rw [← emptyCells_clean_eq]
          exact List.length_eq_zero.mp h
        · exact h
      have hdrlt : (draw (clean s) (emptyCells (clean s)).length).1 <
          (emptyCells (clean s)).length := draw_lt _ _ hlen0
      have hmemC : coord ∈ emptyCells (clean s) := by
        rw [← hcoord, List.getD_eq_getElem _ _ hdrlt]
        exact List.getElem_mem hdrlt
      obtain ⟨hinbC, hnhC⟩ := (mem_emptyCells_clean s coord).mp hmemC
      have gC : GInv (clean s) := ginv_clean s vc
      have hczero : (clean s).cells coord = 0 := by
        obtain ⟨hmemA, hmemZ⟩ := List.mem_filter.mp hmemC
        exact gC.emptyVal _ ((mem_allCoords _ _).mp hmemA)
          (beq_iff_eq.mp hmemZ)
      have gD : GInv (draw (clean s) (emptyCells (clean s)).length).2 :=
        @ginv_congr (clean s)
          (draw (clean s) (emptyCells (clean s)).length).2 rfl rfl rfl gC
      have hnhD : ¬Hid (draw (clean s) (emptyCells (clean s)).length).2
          coord := by
        intro hcon
        rw [Hid, show (draw (clean s)
          (emptyCells (clean s)).length).2.cells coord = 0 from hczero,
          Nat.zero_and] at hcon
        exact hcon rfl
      obtain ⟨R, hImSeed⟩ := mark_genStep
        (draw (clean s) (emptyCells (clean s)).length).2 coord vc gD
        hinbC hnhD
      have hvaleq : setCell (draw (clean s) (emptyCells (clean s)).length).2
          coord ((draw (clean s) (emptyCells (clean s)).length).2.cells
            coord ||| INMAZE) =
          setCell (draw (clean s) (emptyCells (clean s)).length).2 coord
            INMAZE := by
        rw [show (draw (clean s)
          (emptyCells (clean s)).length).2.cells coord = 0 from hczero,
          Nat.zero_or]
      rw [← hvaleq] at hloop
      have himiff : ∀ c, InMaze (setCell
          (draw (clean s) (emptyCells (clean s)).length).2 coord
          ((draw (clean s) (emptyCells (clean s)).length).2.cells coord |||
            INMAZE)) c → c = coord := by
        intro c hc
        by_contra hcc
        rw [InMaze, setCell_cells_ne _ _ _ _ hcc] at hc
        exact not_inmaze_clean s c hc
      have hconnSM : ∀ a b,
          InMaze (setCell (draw (clean s) (emptyCells (clean s)).length).2
            coord ((draw (clean s)
              (emptyCells (clean s)).length).2.cells coord ||| INMAZE)) a →
          InMaze (setCell (draw (clean s) (emptyCells (clean s)).length).2
            coord ((draw (clean s)
              (emptyCells (clean s)).length).2.cells coord ||| INMAZE)) b →
          Reach (setCell (draw (clean s) (emptyCells (clean s)).length).2
            coord ((draw (clean s)
              (emptyCells (clean s)).length).2.cells coord ||| INMAZE))
            a b := by
        intro a b ha hb
        rw [himiff a ha, himiff b hb]
        exact Relation.ReflTransGen.refl
      obtain ⟨hLsh, hLcp, hLg, hLhid, ⟨m, hLdpl, hLimc⟩, hLcert, hLconn,
          hLemp⟩ :=
        wilsons_loop_spec fuel
          (setCell (draw (clean s) (emptyCells (clean s)).length).2 coord
            ((draw (clean s) (emptyCells (clean s)).length).2.cells coord |||
              INMAZE)) sf evs4 vc R.ginv hconnSM hloop
      -- the hidden flags of the final state agree with the input
      have hhidsf : ∀ c, Hid sf c ↔ Hid s c := fun c =>
        (hLhid c).trans ((R.hid_iff c).trans (clean_hid_iff s c))
      have hfin_sound : ∀ c, InMaze sf c → Inb s c ∧ ¬Hid s c := by
        intro c hc
        obtain ⟨hinb4, hnh4⟩ := hLg.imInb c hc
        refine ⟨?_, fun hcon => hnh4 ((hhidsf c).mpr hcon)⟩
        rw [Inb] at hinb4
        rw [hLsh] at hinb4
        exact hinb4
      have hfin_comp : ∀ c, Inb s c → ¬Hid s c → InMaze sf c := by
        intro c hinb hnh
        have hmem4 : c ∈ allCoords sf.shape := by
          rw [mem_allCoords, hLsh]
          exact hinb
        have hnh4 : ¬Hid sf c := fun hcon => hnh ((hhidsf c).mp hcon)
        have hnotmem : c ∉ emptyCells sf := by
          rw [hLemp]
          exact List.not_mem_nil c
        have hINUSE : sf.cells c &&& INUSE ≠ 0 := by
          intro hcon
          exact hnotmem (List.mem_filter.mpr ⟨hmem4, beq_iff_eq.mpr hcon⟩)
        have hhid0 : sf.cells c &&& HIDDEN = 0 := not_not.mp hnh4
        exact inmaze_of_inuse hINUSE hhid0
      have vcf : ValidCompass sf.shape sf.compass := by
        rw [hLsh, hLcp]
        exact vc
      have hacyc : ∀ l, ¬IsDoorCycle sf l := by
        have hc0 : Cert (draw (clean s) (emptyCells (clean s)).length).2 [] :=
          @cert_congr (clean s)
            (draw (clean s) (emptyCells (clean s)).length).2
            (fun c => rfl) rfl [] (cert_clean s)
        obtain ⟨L2, hL2⟩ := R.cert [] hc0
        obtain ⟨LF, hLF⟩ := hLcert _ hL2
        exact fun l => cert_acyclic vcf hLg hLF l
      -- count: the maze flag covers exactly the non-hidden cells
      have hnh_eq : nhCells sf = nhCells s := by
        unfold nhCells
        rw [hLsh]
        refine List.filter_congr fun c _ => ?_
        refine beq_zero_congr ?_
        exact hhidsf c
      have hfilters : (allCoords sf.shape).filter
          (fun c => sf.cells c &&& HIDDEN == 0) =
          (allCoords sf.shape).filter
          (fun c => sf.cells c &&& INMAZE != 0) := by
        refine List.filter_congr fun c hc => ?_
        have hinb : Inb s c := by
          have h2 := (mem_allCoords _ _).mp hc
          rw [hLsh] at h2
          exact h2
        rw [Bool.eq_iff_iff, beq_iff_eq, bne_iff_ne]
        constructor
        · intro h0
          exact hfin_comp c hinb (fun hcon => ((hhidsf c).mpr hcon) h0)
        · intro him
          exact not_not.mp (hLg.imInb c him).2
      have himc_eq : imCount sf = (nhCells s).length := by
        rw [← hnh_eq]
        show ((allCoords sf.shape).filter
          (fun c => sf.cells c &&& INMAZE != 0)).length = (nhCells sf).length
        rw [← hfilters]
        rfl
      -- the seed opens the books with one cell and no doors
      have hcnt := R.count
      have hcond : ¬((draw (clean s)
          (emptyCells (clean s)).length).2.cells coord &&& INMAZE ≠ 0) := by
        rw [show (draw (clean s)
          (emptyCells (clean s)).length).2.cells coord = 0 from hczero,
          Nat.zero_and]
        exact fun h => h rfl
      rw [if_neg hcond] at hcnt
      have hD1 : (doorPairs
          (draw (clean s) (emptyCells (clean s)).length).2).length = 0 :=
        doorPairsLen_clean s vc
      have hD2 : imCount (draw (clean s) (emptyCells (clean s)).length).2
          = 0 := imCount_clean s
      refine ⟨hLsh, hLcp, hLg, hfin_comp, hfin_sound, hLconn, hacyc, ?_,
        hhidsf⟩
      rw [hLdpl]
      rw [hD1, hD2] at hcnt
      omega

/-- Whenever `wilsons_generate` completes, the structural invariant holds in
the final state and shape and compass are unchanged (no non-hidden cell is
required to exist). -/
lemma wilsons_generate_ginv (fuel : Nat) (s sf : Core) (evs : List Event)
    (vc : ValidCompass s.shape s.compass)
    (hrun : wilsons_generate fuel s = some (sf, evs)) :
    GInv sf ∧ sf.shape = s.shape ∧ sf.compass = s.compass := by
  rw [wilsons_generate] at hrun
  simp only [] at hrun
  split at hrun
  · split at hrun
    · cases hrun
    · rename_i s2 evs2 hloop
      cases hrun
      obtain ⟨h1, h2, h3, _⟩ := wilsons_loop_spec fuel (clean s) sf evs2 vc
        (ginv_clean s vc)
        (fun a b ha _ => absurd ha (not_inmaze_clean s a)) hloop
      exact ⟨h3, h1, h2⟩
  · rename_i hemp
    split at hrun
    · cases hrun
    · rename_i s4 evs4 hloop
      cases hrun
      obtain ⟨coord, hcoord⟩ : ∃ c, (emptyCells (clean s)).getD
          (draw (clean s) (emptyCells (clean s)).length).1 [] = c := ⟨_, rfl⟩
      rw [hcoord] at hloop
      have hlen0 : 0 < (emptyCells (clean s)).length :=
        Nat.pos_of_ne_zero
          (fun h => hemp (List.isEmpty_iff_length_eq_zero.mpr h))
      have hdrlt : (draw (clean s) (emptyCells (clean s)).length).1 <
          (emptyCells (clean s)).length := draw_lt _ _ hlen0
      have hmemC : coord ∈ emptyCells (clean s) := by
        rw [← hcoord, List.getD_eq_getElem _ _ hdrlt]
        exact List.getElem_mem hdrlt
      obtain ⟨hinbC, hnhC⟩ := (mem_emptyCells_clean s coord).mp hmemC
      have gC : GInv (clean s) := ginv_clean s vc
      have hczero : (clean s).cells coord = 0 := by
        obtain ⟨hmemA, hmemZ⟩ := List.mem_filter.mp hmemC
        exact gC.emptyVal _ ((mem_allCoords _ _).mp hmemA)
          (beq_iff_eq.mp hmemZ)
      have gD : GInv (draw (clean s) (emptyCells (clean s)).length).2 :=
        @ginv_congr (clean s)
          (draw (clean s) (emptyCells (clean s)).length).2 rfl rfl rfl gC
      have hnhD : ¬Hid (draw (clean s) (emptyCells (clean s)).length).2
          coord := by
        intro hcon
        rw [Hid, show (draw (clean s)
          (emptyCells (clean s)).length).2.cells coord = 0 from hczero,
          Nat.zero_and] at hcon
        exact hcon rfl
      obtain ⟨R, _⟩ := mark_genStep
        (draw (clean s) (emptyCells (clean s)).length).2 coord vc gD
        hinbC hnhD
      have hvaleq : setCell (draw (clean s) (emptyCells (clean s)).length).2
          coord ((draw (clean s) (emptyCells (clean s)).length).2.cells
            coord ||| INMAZE) =
          setCell (draw (clean s) (emptyCells (clean s)).length).2 coord
            INMAZE := by
        rw [show (draw (clean s)
          (emptyCells (clean s)).length).2.cells coord = 0 from hczero,
          Nat.zero_or]
      rw [← hvaleq] at hloop
      have himiff : ∀ c, InMaze (setCell
          (draw (clean s) (emptyCells (clean s)).length).2 coord
          ((draw (clean s) (emptyCells (clean s)).length).2.cells coord |||
            INMAZE)) c → c = coord := by
        intro c hc
        by_contra hcc
        rw [InMaze, setCell_cells_ne _ _ _ _ hcc] at hc
        exact not_inmaze_clean s c hc
      obtain ⟨hLsh, hLcp, hLg, _⟩ :=
        wilsons_loop_spec fuel
          (setCell (draw (clean s) (emptyCells (clean s)).length).2 coord
            ((draw (clean s) (emptyCells (clean s)).length).2.cells coord |||
              INMAZE)) sf evs4 vc R.ginv
          (by
            intro a b ha hb
            rw [himiff a ha, himiff b hb]
            exact Relation.ReflTransGen.refl) hloop
      exact ⟨hLg, hLsh, hLcp⟩

/-- The same for `recursive_generate`. -/
lemma recursive_generate_ginv (fuel : Nat) (s sf : Core) (evs : List Event)
    (vc : ValidCompass s.shape s.compass)
    (hrun : recursive_generate fuel s = some (sf, evs)) :
    GInv sf ∧ sf.shape = s.shape ∧ sf.compass = s.compass := by
  unfold recursive_generate at hrun
  simp only [] at hrun
  split at hrun
  · cases hrun
  · rename_i s2 evs2 hloop
    cases hrun
    obtain ⟨g, hsh, hcp, _⟩ := recursive_loop_ginv fuel (clean s)
      (sf, evs2) vc (ginv_clean s vc) hloop
    exact ⟨g, hsh, hcp⟩

/-- Door symmetry is a direct consequence of the structural invariant and a
valid compass. -/
lemma ginv_door_sym {sf : Core} (vc : ValidCompass sf.shape sf.compass)
    (g : GInv sf) (a : Coord) (d : Direction) (hd : d ∈ sf.compass)
    (hinb : Inb sf a) :
    (sf.cells a &&& d.val ≠ 0 ↔
      sf.cells (step a d.deltas) &&& d.opposite ≠ 0) := by
  constructor
  · intro h
    exact g.doorsSym a d hd h
  · intro h
    obtain ⟨d', hd', hval', hopp', hdel'⟩ := vc_opp vc hd
    have h2 : sf.cells (step a d.deltas) &&& d'.val ≠ 0 := by
      rw [hval']
      exact h
    have h3 := g.doorsSym _ d' hd' h2
    rw [hopp', step_back vc hd hd' hval' hinb] at h3
    exact h3

/-! ## Claim C1 -/

/-- A one-dimensional row of three cells whose middle cell is hidden: the
two remaining cells cannot be connected by any passage. -/
def cex1 : Core :=
  { shape := [3, 1], cells := fun c => if c = [1, 0] then HIDDEN else 0,
    compass := Orthogonal2D, rng := fun _ => 0 }

/-- A 1x2 grid with no hidden cells, constant random stream. -/
def sW1 : Core :=
  { shape := [1, 2], cells := fun _ => 0, compass := Orthogonal2D,
    rng := fun _ => 0 }

/-- C1 (counterexample): on a grid whose non-hidden region is disconnected
by hidden cells, `recursive_generate` completes, yet the number of open
passages is not `N - 1` for the `N` non-hidden cells, so the passage graph
is not a spanning tree of the non-hidden cells. -/
theorem C1_counterexample :
    nhCells cex1 ≠ [] ∧
    (recursive_generate 8 cex1).isSome = true ∧
    (recursive_generate 8 cex1).map
      (fun p => decide ((doorPairs p.1).length + 2 = 2 * (nhCells cex1).length))
      = some false := by
  refine ⟨by decide, by decide, by decide⟩

/-- C1 (amended): whenever `wilsons_generate` completes on a grid with at
least one non-hidden cell, the result is a spanning tree of the non-hidden
cells (every non-hidden cell carries `INMAZE`, only such cells do, the door
graph is connected and acyclic, and there are exactly `N - 1` passages,
counted as `2 * (N - 1)` half-door bits); `recursive_generate` guarantees
the same whenever additionally the non-hidden region is connected under
grid adjacency. -/
theorem C1_amended :
    (∀ (fuel : Nat) (s sf : Core) (evs : List Event),
      ValidCompass s.shape s.compass → nhCells s ≠ [] →
      wilsons_generate fuel s = some (sf, evs) →
      (∀ c, Inb s c → ¬Hid s c → InMaze sf c) ∧
      (∀ c, InMaze sf c → Inb s c ∧ ¬Hid s c) ∧
      (∀ a b, InMaze sf a → InMaze sf b → Reach sf a b) ∧
      (∀ l, ¬IsDoorCycle sf l) ∧
      (doorPairs sf).length + 2 = 2 * (nhCells s).length) ∧
    (∀ (fuel : Nat) (s sf : Core) (evs : List Event),
      ValidCompass s.shape s.compass → NHConnected s → nhCells s ≠ [] →
      recursive_generate fuel s = some (sf, evs) →
      (∀ c, Inb s c → ¬Hid s c → InMaze sf c) ∧
      (∀ c, InMaze sf c → Inb s c ∧ ¬Hid s c) ∧
      (∀ a b, InMaze sf a → InMaze sf b → Reach sf a b) ∧
      (∀ l, ¬IsDoorCycle sf l) ∧
      (doorPairs sf).length + 2 = 2 * (nhCells s).length) := by
  constructor
  · intro fuel s sf evs vc hne hrun
    obtain ⟨_, _, _, h4, h5, h6, h7, h8, _⟩ :=
      wilsons_generate_tree fuel s sf evs vc hne hrun
    exact ⟨h4, h5, h6, h7, h8⟩
  · intro fuel s sf evs vc hconn hne hrun
    obtain ⟨_, _, _, h4, h5, h6, h7, h8⟩ :=
      recursive_generate_tree fuel s sf evs vc hconn hne hrun
    exact ⟨h4, h5, h6, h7, h8⟩

theorem C1_amended_witness :
    ∃ sfw evw sfr evr,
      wilsons_generate 8 sW1 = some (sfw, evw) ∧
      (doorPairs sfw).length + 2 = 2 * (nhCells sW1).length ∧
      recursive_generate 8 sW1 = some (sfr, evr) ∧
      (doorPairs sfr).length + 2 = 2 * (nhCells sW1).length := by
  have h1 : (wilsons_generate 8 sW1).isSome = true := by decide
  have h2 : (recursive_generate 8 sW1).isSome = true := by decide
  obtain ⟨⟨sfw, evw⟩, hw⟩ := Option.isSome_iff_exists.mp h1
  obtain ⟨⟨sfr, evr⟩, hr⟩ := Option.isSome_iff_exists.mp h2
  refine ⟨sfw, evw, sfr, evr, hw, ?_, hr, ?_⟩
  · exact (C1_amended.1 8 sW1 sfw evw (validCompass_orth2D _ rfl)
      (by decide) hw).2.2.2.2
  · exact (C1_amended.2 8 sW1 sfr evr (validCompass_orth2D _ rfl)
      (by unfold NHConnected; decide) (by decide) hr).2.2.2.2

/-! ## Claim C2 -/

/-- C2: after either generator completes, passages are symmetric: an
in-bounds cell `a` carries the direction bit toward its neighbour
`step a d.deltas` exactly when that neighbour carries the opposite
direction's bit back toward `a`. -/
theorem C2_door_symmetry :
    (∀ (fuel : Nat) (s sf : Core) (evs : List Event),
      ValidCompass s.shape s.compass →
      wilsons_generate fuel s = some (sf, evs) →
      ∀ (a : Coord) (d : Direction), d ∈ sf.compass → Inb sf a →
        (sf.cells a &&& d.val ≠ 0 ↔
          sf.cells (step a d.deltas) &&& d.opposite ≠ 0)) ∧
    (∀ (fuel : Nat) (s sf : Core) (evs : List Event),
      ValidCompass s.shape s.compass →
      recursive_generate fuel s = some (sf, evs) →
      ∀ (a : Coord) (d : Direction), d ∈ sf.compass → Inb sf a →
        (sf.cells a &&& d.val ≠ 0 ↔
          sf.cells (step a d.deltas) &&& d.opposite ≠ 0)) := by
  constructor
  · intro fuel s sf evs vc hrun a d hd hinb
    obtain ⟨g, hsh, hcp⟩ := wilsons_generate_ginv fuel s sf evs vc hrun
    have vcf : ValidCompass sf.shape sf.compass := by
      rw [hsh, hcp]
      exact vc
    exact ginv_door_sym vcf g a d hd hinb
  · intro fuel s sf evs vc hrun a d hd hinb
    obtain ⟨g, hsh, hcp⟩ := recursive_generate_ginv fuel s sf evs vc hrun
    have vcf : ValidCompass sf.shape sf.compass := by
      rw [hsh, hcp]
      exact vc
    exact ginv_door_sym vcf g a d hd hinb

theorem C2_door_symmetry_witness :
    ∃ sfw evw sfr evr,
      wilsons_generate 8 sW1 = some (sfw, evw) ∧
      (sfw.cells [0, 0] &&& S ≠ 0 ↔ sfw.cells [0, 1] &&& N ≠ 0) ∧
      recursive_generate 8 sW1 = some (sfr, evr) ∧
      (sfr.cells [0, 0] &&& S ≠ 0 ↔ sfr.cells [0, 1] &&& N ≠ 0) := by
  have h1 : (wilsons_generate 8 sW1).isSome = true := by decide
  have h2 : (recursive_generate 8 sW1).isSome = true := by decide
  obtain ⟨⟨sfw, evw⟩, hw⟩ := Option.isSome_iff_exists.mp h1
  obtain ⟨⟨sfr, evr⟩, hr⟩ := Option.isSome_iff_exists.mp h2
  obtain ⟨_, hshw, hcpw⟩ := wilsons_generate_ginv 8 sW1 sfw evw
    (validCompass_orth2D _ rfl) hw
  refine ⟨sfw, evw, sfr, evr, hw, ?_, hr, ?_⟩
  · have hd : (⟨S, N, "South", [0, 1]⟩ : Direction) ∈ sfw.compass := by
      rw [hcpw]
      decide
    have hinb : Inb sfw [0, 0] := by
      show inbound sfw.shape [0, 0] = true
      rw [hshw]
      decide
    exact C2_door_symmetry.1 8 sW1 sfw evw (validCompass_orth2D _ rfl) hw
      [0, 0] ⟨S, N, "South", [0, 1]⟩ hd hinb
  · obtain ⟨_, hshr, hcpr⟩ := recursive_generate_ginv 8 sW1 sfr evr
      (validCompass_orth2D _ rfl) hr
    have hd : (⟨S, N, "South", [0, 1]⟩ : Direction) ∈ sfr.compass := by
      rw [hcpr]
      decide
    have hinb : Inb sfr [0, 0] := by
      show inbound sfr.shape [0, 0] = true
      rw [hshr]
      decide
    exact C2_door_symmetry.2 8 sW1 sfr evr (validCompass_orth2D _ rfl) hr
      [0, 0] ⟨S, N, "South", [0, 1]⟩ hd hinb

/-! ## Dead-end backfill: the pruning invariant -/

/-- The hypotheses on the maze handed to the solver: a spanning tree over
the non-hidden cells, as produced by the generators (claim C1). -/
structure TreeMaze (sm : Core) : Prop where
  vc : ValidCompass sm.shape sm.compass
  ginv : GInv sm
  complete : ∀ c, Inb sm c → ¬Hid sm c → InMaze sm c
  conn : ∀ a b, InMaze sm a → InMaze sm b → Reach sm a b
  acyc : ∀ l, ¬IsDoorCycle sm l
  count : (doorPairs sm).length + 2 = 2 * imCount sm

/-- Cell `c` has been retired by the backfill (its `NOTSOLUTION` bit is
set in the scratch copy). -/
def Marked (copy : Coord → Nat) (c : Coord) : Prop := (copy c).testBit 3 = true

/-- The scratch copy viewed as a grid state of its own. -/
def copyCore (sm : Core) (copy : Coord → Nat) : Core := { sm with cells := copy }

/-- Number of in-maze cells not yet retired by the backfill. -/
def survCount (sm : Core) (copy : Coord → Nat) : Nat :=
  ((allCoords sm.shape).filter fun c =>
    (sm.cells c &&& INMAZE != 0) && !(copy c).testBit 3).length

/-- A set of cells the backfill may never retire: it contains only maze
cells, and each of its members away from `start` and `e` keeps two distinct
passages leading back into the set. -/
def ProtectedSet (sm : Core) (start e : Coord) (P : Coord → Prop) : Prop :=
  (∀ c, P c → InMaze sm c) ∧
  ∀ c, P c → c ≠ start → c ≠ e →
    ∃ d1 ∈ sm.compass, ∃ d2 ∈ sm.compass, d1.val ≠ d2.val ∧
      sm.cells c &&& d1.val ≠ 0 ∧ sm.cells c &&& d2.val ≠ 0 ∧
      P (step c d1.deltas) ∧ P (step c d2.deltas)

/-- Invariant of the scratch copy throughout `deadend_solve`'s pruning:
doors only disappear (`dirSub`), every non-door bit except the
`NOTSOLUTION` mark is untouched (`nonDir`), a door is open exactly when it
was open in the maze and neither endpoint is retired (`doorIff`), only maze
cells get retired (`markedIm`), protected cells are never retired (`prot`),
unretired maze cells still reach `start` through the copy's doors (`conn`),
and doors and unretired cells keep the tree balance (`count`). -/
structure PruneInv (sm : Core) (start e : Coord) (P : Coord → Prop)
    (copy : Coord → Nat) : Prop where
  dirSub : ∀ c k, 4 ≤ k → k < 14 → (copy c).testBit k = true →
      (sm.cells c).testBit k = true
  nonDir : ∀ c k, k ≠ 3 → (4 ≤ k → 14 ≤ k) →
      (copy c).testBit k = (sm.cells c).testBit k
  doorIff : ∀ c, ∀ d ∈ sm.compass, (copy c &&& d.val ≠ 0 ↔
      (sm.cells c &&& d.val ≠ 0 ∧ ¬Marked copy c ∧
        ¬Marked copy (step c d.deltas)))
  markedIm : ∀ c, Marked copy c → InMaze sm c
  prot : ∀ c, P c → ¬Marked copy c
  conn : ∀ c, InMaze sm c → ¬Marked copy c → Reach (copyCore sm copy) c start
  count : (doorPairs (copyCore sm copy)).length + 2 = 2 * survCount sm copy

lemma two_mem_le_length {α : Type} {l : List α} {a b : α} (ha : a ∈ l)
    (hb : b ∈ l) (hab : a ≠ b) : 2 ≤ l.length := by
  cases l with
  | nil => cases ha
  | cons x t =>
      cases t with
      | nil =>
          rw [List.mem_singleton] at ha hb
          exact absurd (ha.trans hb.symm) hab
      | cons y t2 =>
          simp only [List.length_cons]
          omega

lemma countdoors_zero_iff {v : Nat} : countdoors v = 0 ↔ v &&& DIR = 0 := by
  constructor
  · intro h
    unfold countdoors at h
    rw [List.length_eq_zero] at h
    apply Nat.eq_of_testBit_eq
    intro k
    rw [Nat.zero_testBit]
    cases hq : (v &&& DIR).testBit k
    · rfl
    · exfalso
      have hm := ((bits_spec (v &&& DIR)).2.2 (2 ^ k)).mpr ⟨k, rfl, hq⟩
      rw [h] at hm
      cases hm
  · intro h
    unfold countdoors
    rw [h, bits_zero]
    rfl

lemma countdoors_one {v : Nat} (h : countdoors v = 1) :
    ∃ k, 4 ≤ k ∧ k < 14 ∧ v &&& DIR = 2 ^ k ∧ v.testBit k = true := by
  unfold countdoors at h
  obtain ⟨b, hb⟩ := List.length_eq_one.mp h
  have hbm : b ∈ bits (v &&& DIR) := by
    rw [hb]
    exact List.mem_singleton_self b
  obtain ⟨k, rfl, hk⟩ := ((bits_spec (v &&& DIR)).2.2 b).mp hbm
  have hvk : v.testBit k = true := by
    rw [Nat.testBit_land] at hk
    exact (Bool.and_eq_true_iff.mp hk).1
  have hdk : DIR.testBit k = true := by
    rw [Nat.testBit_land] at hk
    exact (Bool.and_eq_true_iff.mp hk).2
  rw [testBit_DIR] at hdk
  obtain ⟨h4, h14⟩ := Bool.and_eq_true_iff.mp hdk
  refine ⟨k, of_decide_eq_true h4, of_decide_eq_true h14, ?_, hvk⟩
  apply Nat.eq_of_testBit_eq
  intro j
  cases hq : (v &&& DIR).testBit j
  · by_cases hjk : j = k
    · subst hjk
      rw [hq] at hk
      cases hk
    · rw [Nat.testBit_two_pow_of_ne fun hcon => hjk hcon.symm]
  · have hm := ((bits_spec (v &&& DIR)).2.2 (2 ^ j)).mpr ⟨j, rfl, hq⟩
    rw [hb, List.mem_singleton] at hm
    have hjk : j = k := Nat.pow_right_injective (Nat.le_refl 2) hm
    subst hjk
    rw [Nat.testBit_two_pow_self]

lemma countdoors_two_le {v j k : Nat} (hjk : j ≠ k)
    (hj : (v &&& DIR).testBit j = true) (hk : (v &&& DIR).testBit k = true) :
    2 ≤ countdoors v := by
  unfold countdoors
  have hmj := ((bits_spec (v &&& DIR)).2.2 (2 ^ j)).mpr ⟨j, rfl, hj⟩
  have hmk := ((bits_spec (v &&& DIR)).2.2 (2 ^ k)).mpr ⟨k, rfl, hk⟩
  refine two_mem_le_length hmj hmk fun hcon => ?_
  exact hjk (Nat.pow_right_injective (Nat.le_refl 2) hcon)

lemma or_notsolution_and_DIR (x : Nat) :
    (x ||| NOTSOLUTION) &&& DIR = x &&& DIR := by
  apply Nat.eq_of_testBit_eq
  intro j
  rw [Nat.testBit_land, Nat.testBit_land, Nat.testBit_lor,
    show NOTSOLUTION = 2 ^ 3 from rfl, Nat.testBit_two_pow]
  by_cases hj : 3 = j
  · subst hj
    rw [show DIR.testBit 3 = false from by decide]
    rw [Bool.and_false, Bool.and_false]
  · rw [decide_eq_false hj, Bool.or_false]

lemma vals_inj {shape : List Nat} {compass : List Direction}
    (vc : ValidCompass shape compass) {d1 d2 : Direction}
    (h1 : d1 ∈ compass) (h2 : d2 ∈ compass) (hval : d1.val = d2.val) :
    d1 = d2 :=
  List.inj_on_of_nodup_map vc.2.2.1 h1 h2 hval

/-- When a cell's copy value carries exactly the single door bit `2 ^ k`,
a compass door is open there exactly when its value is that bit. -/
lemma single_dir_door {shape : List Nat} {compass : List Direction}
    (vc : ValidCompass shape compass) {v k : Nat} (hv : v &&& DIR = 2 ^ k)
    {d2 : Direction} (hd2 : d2 ∈ compass) :
    (v &&& d2.val ≠ 0 ↔ d2.val = 2 ^ k) := by
  obtain ⟨k2, hk24, hk214, hk2val⟩ := vc_val_pow vc hd2
  rw [hk2val]
  constructor
  · intro h
    obtain ⟨j, hvj, hpj⟩ := (and_ne_zero_iff _ _).mp h
    have hjk2 : j = k2 := by
      by_contra hcon
      rw [Nat.testBit_two_pow_of_ne fun h2 => hcon h2.symm] at hpj
      cases hpj
    subst hjk2
    have hdirj : (v &&& DIR).testBit j = true := by
      rw [Nat.testBit_land, hvj, testBit_DIR, Bool.true_and]
      rw [decide_eq_true (by omega : 4 ≤ j), decide_eq_true (by omega : j < 14)]
      rfl
    rw [hv] at hdirj
    have hjk : j = k := by
      by_contra hcon
      rw [Nat.testBit_two_pow_of_ne fun h2 => hcon h2.symm] at hdirj
      cases hdirj
    rw [hjk]
  · intro h
    have hk2k : k2 = k := Nat.pow_right_injective (Nat.le_refl 2) h
    subst hk2k
    have : (v &&& DIR).testBit k2 = true := by
      rw [hv, Nat.testBit_two_pow_self]
    rw [Nat.testBit_land] at this
    exact (and_ne_zero_iff _ _).mpr ⟨k2,
      (Bool.and_eq_true_iff.mp this).1, Nat.testBit_two_pow_self⟩

/-- Generated maze cells never carry the `NOTSOLUTION` bit. -/
lemma cells_bit3 {sm : Core} (vc : ValidCompass sm.shape sm.compass)
    (g : GInv sm) (c : Coord) : (sm.cells c).testBit 3 = false := by
  cases hq : (sm.cells c).testBit 3
  · rfl
  · exfalso
    rcases g.bitsDom c 3 hq with h | h | ⟨d, hd, hval⟩
    · omega
    · omega
    · obtain ⟨k, hk4, _, hkval⟩ := vc_val_pow vc hd
      rw [hkval] at hval
      have : k = 3 := Nat.pow_right_injective (Nat.le_refl 2) hval
      omega

lemma andNot_pow_and_pow (x : Nat) {j k : Nat} (hjk : j ≠ k) :
    andNot x (2 ^ j) &&& 2 ^ k = x &&& 2 ^ k := by
  apply Nat.eq_of_testBit_eq
  intro i
  rw [Nat.testBit_land, Nat.testBit_land, andNot_testBit]
  by_cases hik : i = k
  · subst hik
    rw [Nat.testBit_two_pow_of_ne (fun h => hjk h)]
    cases x.testBit i <;> rfl
  · rw [Nat.testBit_two_pow_of_ne (fun h => hik h.symm), Bool.and_false,
      Bool.and_false]

lemma andNot_pow_and_self (x j : Nat) : andNot x (2 ^ j) &&& 2 ^ j = 0 := by
  apply Nat.eq_of_testBit_eq
  intro i
  rw [Nat.testBit_land, Nat.zero_testBit, andNot_testBit]
  by_cases hij : i = j
  · subst hij
    rw [Nat.testBit_two_pow_self]
    cases x.testBit i <;> rfl
  · rw [Nat.testBit_two_pow_of_ne (fun h => hij h.symm), Bool.and_false]

lemma filter_unique_length {α : Type} (l : List α) (hnd : l.Nodup) (d : α)
    (hd : d ∈ l) (p : α → Bool) (hp : ∀ x ∈ l, p x = true ↔ x = d) :
    (l.filter p).length = 1 := by
  induction l with
  | nil => cases hd
  | cons a t ih =>
      rcases List.mem_cons.mp hd with rfl | hdt
      · have hpa : p d = true := (hp d (List.mem_cons_self d t)).mpr rfl
        have htail : t.filter p = [] := by
          refine List.filter_eq_nil_iff.mpr fun x hx => ?_
          intro hcon
          have hxa : x = d := (hp x (List.mem_cons_of_mem d hx)).mp hcon
          exact (List.nodup_cons.mp hnd).1 (hxa ▸ hx)
        rw [List.filter_cons_of_pos hpa, htail]
        rfl
      · have hpa : p a = false := by
          cases hq : p a
          · rfl
          · exact absurd ((hp a (List.mem_cons_self a t)).mp hq)
              (fun hcon => (List.nodup_cons.mp hnd).1 (hcon ▸ hdt))
        rw [List.filter_cons_of_neg (by rw [hpa]; exact fun h => Bool.noConfusion h)]
        exact ih (List.nodup_cons.mp hnd).2 hdt
          (fun x hx => hp x (List.mem_cons_of_mem a hx))

/-- Removing a degree-one vertex `dead` from a door graph preserves
reachability among the other vertices; walks entering `dead` must come from
its unique neighbour `neigh` and leave the same way. -/
lemma reach_prune {S S2 : Core} {dead neigh : Coord}
    (hkeep : ∀ a b, doorAdj S a b → a ≠ dead → b ≠ dead → doorAdj S2 a b)
    (hin : ∀ u, doorAdj S u dead → u = neigh)
    (hout : ∀ v, doorAdj S dead v → v = neigh) :
    ∀ a b, Reach S a b → b ≠ dead →
      (a = dead → Reach S2 neigh b) ∧ (a ≠ dead → Reach S2 a b) := by
  intro a b hr
  induction hr using Relation.ReflTransGen.head_induction_on with
  | refl =>
      intro hb
      exact ⟨fun hcon => absurd hcon hb, fun _ => Relation.ReflTransGen.refl⟩
  | head hstep htail ih =>
      rename_i x c
      intro hb
      obtain ⟨ih1, ih2⟩ := ih hb
      by_cases hcb : c = dead
      · subst hcb
        have hx : x = neigh := hin x hstep
        subst hx
        exact ⟨fun _ => ih1 rfl, fun _ => ih1 rfl⟩
      · constructor
        · intro hx
          subst hx
          have hc : c = neigh := hout c hstep
          exact hc ▸ ih2 hcb
        · intro hx
          exact Relation.ReflTransGen.head (hkeep x c hstep hx hcb) (ih2 hcb)

/-- The triple array write performed by one `backfill` step: mark `dead`
`NOTSOLUTION`, clear all its direction bits, and close the opposite door on
its unique neighbour. -/
def pruneWrite (copy : Coord → Nat) (dead : Coord) (d : Direction) :
    Coord → Nat :=
  let copy1 := fun c => if c = dead then copy dead ||| NOTSOLUTION else copy c
  let direction := copy1 dead &&& DIR
  let neigh := step dead d.deltas
  let copy2 := fun c => if c = dead then andNot (copy1 dead) direction else copy1 c
  fun c => if c = neigh then andNot (copy2 neigh) d.opposite else copy2 c

lemma pruneWrite_dead (copy : Coord → Nat) (dead : Coord) (d : Direction)
    (hne : step dead d.deltas ≠ dead) :
    pruneWrite copy dead d dead =
      andNot (copy dead ||| NOTSOLUTION) ((copy dead ||| NOTSOLUTION) &&& DIR) := by
  unfold pruneWrite
  simp only []
  rw [if_neg (fun h => hne h.symm), if_true, if_true]

lemma pruneWrite_neigh (copy : Coord → Nat) (dead : Coord) (d : Direction)
    (hne : step dead d.deltas ≠ dead) :
    pruneWrite copy dead d (step dead d.deltas) =
      andNot (copy (step dead d.deltas)) d.opposite := by
  unfold pruneWrite
  simp only []
  rw [if_true, if_neg hne, if_neg hne]

lemma pruneWrite_other (copy : Coord → Nat) (dead : Coord) (d : Direction)
    (c : Coord) (hc : c ≠ dead) (hcn : c ≠ step dead d.deltas) :
    pruneWrite copy dead d c = copy c := by
  unfold pruneWrite
  simp only []
  rw [if_neg hcn, if_neg hc, if_neg hc]

/-- One `backfill` step on a dead end away from `start` and `e` preserves
the pruning invariant (and the pruned cell really was a degree-one maze cell
whose unique open door is `d`). -/
lemma prune_step (sm : Core) (start e : Coord) (P : Coord → Prop)
    (tm : TreeMaze sm) (hpro : ProtectedSet sm start e P)
    (copy : Coord → Nat) (inv : PruneInv sm start e P copy)
    (dead : Coord) (hds : dead ≠ start) (hde : dead ≠ e)
    (hcd : countdoors (copy dead) = 1) (d : Direction)
    (hcg : compassGet sm.compass ((copy dead ||| NOTSOLUTION) &&& DIR) = some d) :
    PruneInv sm start e P (pruneWrite copy dead d) ∧
      d ∈ sm.compass ∧ InMaze sm dead ∧ step dead d.deltas ≠ dead := by
  obtain ⟨k, hk4, hk14, hvdir, hvbit⟩ := countdoors_one hcd
  rw [or_notsolution_and_DIR, hvdir] at hcg
  obtain ⟨hdmem, hdval⟩ := compassGet_mem hcg
  have hcnd : sm.compass.Nodup := List.Nodup.of_map _ tm.vc.2.2.1
  have hsmk : (sm.cells dead).testBit k = true := inv.dirSub dead k hk4 hk14 hvbit
  have hcpdoor : copy dead &&& d.val ≠ 0 := by
    rw [hdval]
    exact (hasBit_pow _ _).mpr hvbit
  obtain ⟨hsmdoor, hMdead, hMneigh⟩ := (inv.doorIff dead d hdmem).mp hcpdoor
  have hImDead : InMaze sm dead := tm.ginv.doorsIm dead d hdmem hsmdoor
  have hInbDead : Inb sm dead := (tm.ginv.imInb dead hImDead).1
  have hne : step dead d.deltas ≠ dead := step_ne tm.vc hdmem hInbDead
  obtain ⟨hInbN, hImN, hHidN⟩ := tm.ginv.doorsDst dead d hdmem hsmdoor
  obtain ⟨d', hd'mem, hd'val, hd'opp, hd'del⟩ := vc_opp tm.vc hdmem
  obtain ⟨k', hk'4, hk'14, hd'pow⟩ := vc_val_pow tm.vc hd'mem
  have hopp_pow : d.opposite = 2 ^ k' := hd'val ▸ hd'pow
  have hkk' : k ≠ k' := opp_bit_ne tm.vc hdmem hd'mem hd'val hdval hd'pow
  have hback : step (step dead d.deltas) d'.deltas = dead :=
    step_back tm.vc hdmem hd'mem hd'val hInbDead
  have hsmdoorN : sm.cells (step dead d.deltas) &&& d'.val ≠ 0 := by
    rw [hd'val]
    exact tm.ginv.doorsSym dead d hdmem hsmdoor
  have hcpdoorN : copy (step dead d.deltas) &&& d'.val ≠ 0 :=
    (inv.doorIff _ d' hd'mem).mpr ⟨hsmdoorN, hMneigh, by rw [hback]; exact hMdead⟩
  have houtd : ∀ d2 ∈ sm.compass, copy dead &&& d2.val ≠ 0 → d2 = d := by
    intro d2 hd2 h2
    exact vals_inj tm.vc hd2 hdmem
      (((single_dir_door tm.vc hvdir hd2).mp h2).trans hdval.symm)
  have huniq : ∀ u, ∀ d2 ∈ sm.compass, copy u &&& d2.val ≠ 0 →
      step u d2.deltas = dead → u = step dead d.deltas ∧ d2 = d' := by
    intro u d2 hd2 hdoor2 hstep2
    obtain ⟨hsm2, hMu, _⟩ := (inv.doorIff u d2 hd2).mp hdoor2
    obtain ⟨d2o, hd2o, hv2o, hopp2o, _⟩ := vc_opp tm.vc hd2
    have hInbU : Inb sm u := (tm.ginv.imInb u (tm.ginv.doorsIm u d2 hd2 hsm2)).1
    have hbacku : step dead d2o.deltas = u := by
      rw [← hstep2]
      exact step_back tm.vc hd2 hd2o hv2o hInbU
    have hsmdead2 : sm.cells dead &&& d2o.val ≠ 0 := by
      rw [hv2o, ← hstep2]
      exact tm.ginv.doorsSym u d2 hd2 hsm2
    have hcpdead2 : copy dead &&& d2o.val ≠ 0 :=
      (inv.doorIff dead d2o hd2o).mpr
        ⟨hsmdead2, hMdead, by rw [hbacku]; exact hMu⟩
    have h2od : d2o = d := houtd d2o hd2o hcpdead2
    have hu : u = step dead d.deltas := by rw [← hbacku, h2od]
    have hval2 : d2.val = d'.val := by rw [hd'val, ← hopp2o, h2od]
    exact ⟨hu, vals_inj tm.vc hd2 hd'mem hval2⟩
  have hwdead := pruneWrite_dead copy dead d hne
  have hwneigh := pruneWrite_neigh copy dead d hne
  have hwother := pruneWrite_other copy dead d
  have hwd_dir : pruneWrite copy dead d dead &&& DIR = 0 := by
    rw [hwdead]
    apply Nat.eq_of_testBit_eq
    intro j
    rw [Nat.testBit_land, Nat.zero_testBit, andNot_testBit, Nat.testBit_land]
    cases hq : (copy dead ||| NOTSOLUTION).testBit j <;>
      cases hq2 : DIR.testBit j <;> rfl
  have hwd_nodoor : ∀ d2 ∈ sm.compass, pruneWrite copy dead d dead &&& d2.val = 0 := by
    intro d2 hd2
    obtain ⟨k2, hk24, hk214, hval2⟩ := vc_val_pow tm.vc hd2
    rw [hval2]
    apply Nat.eq_of_testBit_eq
    intro j
    rw [Nat.testBit_land, Nat.zero_testBit]
    by_cases hj : j = k2
    · subst hj
      have hthis := congrArg (fun x => x.testBit j) hwd_dir
      simp only [Nat.testBit_land, Nat.zero_testBit] at hthis
      have hD : DIR.testBit j = true := by
        rw [testBit_DIR, decide_eq_true (by omega : 4 ≤ j),
          decide_eq_true (by omega : j < 14)]
        rfl
      rw [hD, Bool.and_true] at hthis
      rw [hthis, Bool.false_and]
    · rw [Nat.testBit_two_pow_of_ne fun h => hj h.symm, Bool.and_false]
  have hMw_dead : Marked (pruneWrite copy dead d) dead := by
    unfold Marked
    rw [hwdead, andNot_testBit, Nat.testBit_land,
      show DIR.testBit 3 = false from by decide, Bool.and_false,
      Bool.not_false, Bool.and_true, Nat.testBit_lor,
      show NOTSOLUTION.testBit 3 = true from by decide, Bool.or_true]
  have hbit3 : ∀ c, c ≠ dead →
      (pruneWrite copy dead d c).testBit 3 = (copy c).testBit 3 := by
    intro c hc
    by_cases hcn : c = step dead d.deltas
    · subst hcn
      rw [hwneigh, andNot_testBit, hopp_pow,
        Nat.testBit_two_pow_of_ne (by omega : k' ≠ 3), Bool.not_false,
        Bool.and_true]
    · rw [hwother c hc hcn]
  have hMw_iff : ∀ c, c ≠ dead →
      (Marked (pruneWrite copy dead d) c ↔ Marked copy c) := by
    intro c hc
    unfold Marked
    rw [hbit3 c hc]
  have hPdead : ¬P dead := by
    intro hP
    obtain ⟨d1, hd1, d2, hd2, hvne, ho1, ho2, hP1, hP2⟩ := hpro.2 dead hP hds hde
    have hcd1 : copy dead &&& d1.val ≠ 0 :=
      (inv.doorIff dead d1 hd1).mpr ⟨ho1, hMdead, inv.prot _ hP1⟩
    have hcd2 : copy dead &&& d2.val ≠ 0 :=
      (inv.doorIff dead d2 hd2).mpr ⟨ho2, hMdead, inv.prot _ hP2⟩
    exact hvne (by rw [houtd d1 hd1 hcd1, houtd d2 hd2 hcd2])
  have hdoorIff : ∀ c, ∀ d2 ∈ sm.compass,
      (pruneWrite copy dead d c &&& d2.val ≠ 0 ↔
        (sm.cells c &&& d2.val ≠ 0 ∧ ¬Marked (pruneWrite copy dead d) c ∧
          ¬Marked (pruneWrite copy dead d) (step c d2.deltas))) := by
    intro c d2 hd2
    obtain ⟨k2, hk24, hk214, hv2⟩ := vc_val_pow tm.vc hd2
    by_cases hc : c = dead
    · subst hc
      constructor
      · intro h
        exact absurd (hwd_nodoor d2 hd2) h
      · rintro ⟨_, hM, _⟩
        exact absurd hMw_dead hM
    · by_cases hcn : c = step dead d.deltas
      · subst hcn
        by_cases h2 : d2.val = d'.val
        · have hd2d' : d2 = d' := vals_inj tm.vc hd2 hd'mem h2
          subst hd2d'
          constructor
          · intro h
            exfalso
            rw [hwneigh, hopp_pow, hd'pow] at h
            exact h (andNot_pow_and_self _ _)
          · rintro ⟨_, _, hM3⟩
            exact absurd (by rw [hback]; exact hMw_dead) hM3
        · have hk2k' : k2 ≠ k' := fun h =>
            h2 (by rw [hv2, hd'pow, h])
          have hrw : pruneWrite copy dead d (step dead d.deltas) &&& d2.val =
              copy (step dead d.deltas) &&& d2.val := by
            rw [hwneigh, hopp_pow, hv2, andNot_pow_and_pow _ (Ne.symm hk2k')]
          rw [hrw]
          by_cases hsd : step (step dead d.deltas) d2.deltas = dead
          · have hnod : copy (step dead d.deltas) &&& d2.val = 0 := by
              by_contra hdoor2
              exact h2 (congrArg Direction.val
                ((huniq _ d2 hd2 hdoor2 hsd).2))
            have hnosm : sm.cells (step dead d.deltas) &&& d2.val = 0 := by
              by_contra hsm2
              exact absurd ((inv.doorIff _ d2 hd2).mpr
                ⟨hsm2, hMneigh, by rw [hsd]; exact hMdead⟩)
                (by rw [hnod]; exact fun h => h rfl)
            constructor
            · intro h
              exact absurd hnod h
            · rintro ⟨hsm2, _, _⟩
              exact absurd hnosm hsm2
          · rw [inv.doorIff _ d2 hd2]
            exact and_congr Iff.rfl (and_congr
              (not_congr (hMw_iff _ hne).symm)
              (not_congr (hMw_iff _ hsd).symm))
      · rw [hwother c hc hcn]
        by_cases hsd : step c d2.deltas = dead
        · constructor
          · intro hdoor2
            exact absurd (huniq c d2 hd2 hdoor2 hsd).1 hcn
          · rintro ⟨_, _, hM3⟩
            exact absurd (by rw [hsd]; exact hMw_dead) hM3
        · rw [inv.doorIff c d2 hd2]
          exact and_congr Iff.rfl (and_congr
            (not_congr (hMw_iff c hc).symm)
            (not_congr (hMw_iff _ hsd).symm))
  refine ⟨⟨?_, ?_, hdoorIff, ?_, ?_, ?_, ?_⟩, hdmem, hImDead, hne⟩
  · -- dirSub
    intro c k0 h4 h14 hbit
    by_cases hc : c = dead
    · subst hc
      exfalso
      have hthis := congrArg (fun x => x.testBit k0) hwd_dir
      simp only [Nat.testBit_land, Nat.zero_testBit] at hthis
      rw [hbit, testBit_DIR, decide_eq_true h4, decide_eq_true h14,
        Bool.true_and] at hthis
      cases hthis
    · by_cases hcn : c = step dead d.deltas
      · subst hcn
        rw [hwneigh, andNot_testBit] at hbit
        exact inv.dirSub _ k0 h4 h14 (Bool.and_eq_true_iff.mp hbit).1
      · rw [hwother c hc hcn] at hbit
        exact inv.dirSub c k0 h4 h14 hbit
  · -- nonDir
    intro c k0 hk3 hrange
    by_cases hc : c = dead
    · subst hc
      have hD : DIR.testBit k0 = false := by
        rw [testBit_DIR]
        by_cases h4 : 4 ≤ k0
        · rw [decide_eq_false (by have := hrange h4; omega : ¬k0 < 14),
            Bool.and_false]
        · rw [decide_eq_false h4, Bool.false_and]
      rw [hwdead, andNot_testBit, Nat.testBit_land, hD, Bool.and_false,
        Bool.not_false, Bool.and_true, Nat.testBit_lor,
        show NOTSOLUTION = 2 ^ 3 from rfl,
        Nat.testBit_two_pow_of_ne (fun h => hk3 h.symm), Bool.or_false]
      exact inv.nonDir _ k0 hk3 hrange
    · by_cases hcn : c = step dead d.deltas
      · subst hcn
        have hk'0 : k' ≠ k0 := by
          intro hcon
          subst hcon
          exact absurd (hrange (by omega)) (by omega)
        rw [hwneigh, andNot_testBit, hopp_pow,
          Nat.testBit_two_pow_of_ne hk'0, Bool.not_false, Bool.and_true]
        exact inv.nonDir _ k0 hk3 hrange
      · rw [hwother c hc hcn]
        exact inv.nonDir c k0 hk3 hrange
  · -- markedIm
    intro c hM
    by_cases hc : c = dead
    · subst hc
      exact hImDead
    · exact inv.markedIm c ((hMw_iff c hc).mp hM)
  · -- prot
    intro c hP
    by_cases hc : c = dead
    · subst hc
      exact absurd hP hPdead
    · exact fun hM => inv.prot c hP ((hMw_iff c hc).mp hM)
  · -- conn
    have hkeep : ∀ a b, doorAdj (copyCore sm copy) a b → a ≠ dead → b ≠ dead →
        doorAdj (copyCore sm (pruneWrite copy dead d)) a b := by
      rintro a b ⟨d2, hd2, hdoor2, rfl⟩ ha hb
      refine ⟨d2, hd2, ?_, rfl⟩
      show pruneWrite copy dead d a &&& d2.val ≠ 0
      by_cases han : a = step dead d.deltas
      · subst han
        obtain ⟨k2, hk24, hk214, hv2⟩ := vc_val_pow tm.vc hd2
        have hd2d' : d2 ≠ d' := by
          intro hcon
          subst hcon
          exact hb hback
        have hk2k' : k2 ≠ k' := fun h =>
          hd2d' (vals_inj tm.vc hd2 hd'mem (by rw [hv2, hd'pow, h]))
        rw [hwneigh, hopp_pow, hv2, andNot_pow_and_pow _ (Ne.symm hk2k')]
        rw [hv2] at hdoor2
        exact hdoor2
      · rw [hwother a ha han]
        exact hdoor2
    have hin : ∀ u, doorAdj (copyCore sm copy) u dead → u = step dead d.deltas := by
      rintro u ⟨d2, hd2, hdoor2, hstep2⟩
      exact (huniq u d2 hd2 hdoor2 hstep2.symm).1
    have hout : ∀ v, doorAdj (copyCore sm copy) dead v → v = step dead d.deltas := by
      rintro v ⟨d2, hd2, hdoor2, rfl⟩
      rw [houtd d2 hd2 hdoor2]
    intro c hIm hM
    have hcdead : c ≠ dead := fun hcon => hM (hcon ▸ hMw_dead)
    have hMc : ¬Marked copy c := fun hcon => hM ((hMw_iff c hcdead).mpr hcon)
    exact (reach_prune hkeep hin hout c start (inv.conn c hIm hMc)
      (fun h => hds h.symm)).2 hcdead
  · -- count
    have hS3 : copyCore sm (pruneWrite copy dead d) =
        setCell (setCell (copyCore sm copy) dead (pruneWrite copy dead d dead))
          (step dead d.deltas) (pruneWrite copy dead d (step dead d.deltas)) := by
      apply core_ext
      · rfl
      · intro c
        show pruneWrite copy dead d c = _
        rw [setCell_cells, setCell_cells]
        by_cases h1 : c = step dead d.deltas
        · rw [if_pos h1, h1]
        · rw [if_neg h1]
          by_cases h2 : c = dead
          · rw [if_pos h2, h2]
          · rw [if_neg h2]
            exact hwother c h2 h1
      · rfl
      · intro k0
        rfl
    have hInbD2 : Inb (copyCore sm copy) dead := hInbDead
    have hInbN2 : Inb (setCell (copyCore sm copy) dead
        (pruneWrite copy dead d dead)) (step dead d.deltas) := hInbN
    have hdc_dead : doorCount (copyCore sm copy) dead = 1 := by
      unfold doorCount
      refine filter_unique_length sm.compass hcnd d hdmem _ fun d2 hd2 => ?_
      rw [bne_iff_ne]
      constructor
      · exact fun h => houtd d2 hd2 h
      · intro h
        rw [h]
        exact hcpdoor
    have hdc_dead_new : ((copyCore sm copy).compass.filter fun d2 =>
        pruneWrite copy dead d dead &&& d2.val != 0).length = 0 := by
      rw [List.length_eq_zero, List.filter_eq_nil_iff]
      intro d2 hd2
      rw [bne_iff_ne]
      exact fun h => h (hwd_nodoor d2 hd2)
    have h1 := doorPairsLen_setCell (copyCore sm copy) dead
      (pruneWrite copy dead d dead) hInbD2
    rw [hdc_dead, hdc_dead_new] at h1
    have hflu := filter_length_update sm.compass hcnd d' hd'mem
      (fun d2 => pruneWrite copy dead d (step dead d.deltas) &&& d2.val != 0)
      (fun d2 => copy (step dead d.deltas) &&& d2.val != 0)
      (fun d2 hd2 hne2 => by
        obtain ⟨k2, hk24, hk214, hv2⟩ := vc_val_pow tm.vc hd2
        have hk2k' : k2 ≠ k' := fun h =>
          hne2 (vals_inj tm.vc hd2 hd'mem (by rw [hv2, hd'pow, h]))
        simp only []
        rw [hwneigh, hopp_pow, hv2, andNot_pow_and_pow _ (Ne.symm hk2k')])
    have hg : (copy (step dead d.deltas) &&& d'.val != 0) = true :=
      bne_iff_ne.mpr hcpdoorN
    have hf : (pruneWrite copy dead d (step dead d.deltas) &&& d'.val != 0) =
        false := by
      rw [hwneigh, hopp_pow, hd'pow, andNot_pow_and_self]
      rfl
    simp only [] at hflu
    rw [if_pos hg, if_neg (by rw [hf]; exact Bool.false_ne_true)] at hflu
    have h2 := doorPairsLen_setCell
      (setCell (copyCore sm copy) dead (pruneWrite copy dead d dead))
      (step dead d.deltas) (pruneWrite copy dead d (step dead d.deltas)) hInbN2
    rw [doorCount_setCell_ne _ _ _ _ hne, setCell_compass] at h2
    have hcc1 : doorCount (copyCore sm copy) (step dead d.deltas) =
        (sm.compass.filter fun d2 =>
          copy (step dead d.deltas) &&& d2.val != 0).length := rfl
    have hcc2 : ((copyCore sm copy).compass.filter fun d2 =>
        pruneWrite copy dead d (step dead d.deltas) &&& d2.val != 0).length =
        (sm.compass.filter fun d2 =>
          pruneWrite copy dead d (step dead d.deltas) &&& d2.val != 0).length := rfl
    rw [hcc1, hcc2] at h2
    have hsurv := filter_length_update (allCoords sm.shape) (allCoords_nodup _)
      dead ((mem_allCoords _ _).mpr hInbDead)
      (fun c => (sm.cells c &&& INMAZE != 0) &&
        !(pruneWrite copy dead d c).testBit 3)
      (fun c => (sm.cells c &&& INMAZE != 0) && !(copy c).testBit 3)
      (fun c _ hc => by simp only []; rw [hbit3 c hc])
    have hgd : ((sm.cells dead &&& INMAZE != 0) && !(copy dead).testBit 3) =
        true := by
      rw [bne_iff_ne.mpr hImDead, Bool.eq_false_iff.mpr hMdead]
      rfl
    have hfd : ((sm.cells dead &&& INMAZE != 0) &&
        !(pruneWrite copy dead d dead).testBit 3) = false := by
      have hMd3 : (pruneWrite copy dead d dead).testBit 3 = true := hMw_dead
      rw [hMd3]
      exact Bool.and_false _
    simp only [] at hsurv
    rw [if_pos hgd, if_neg (by rw [hfd]; exact Bool.false_ne_true)] at hsurv
    have hc3 : survCount sm (pruneWrite copy dead d) =
        ((allCoords sm.shape).filter fun c => (sm.cells c &&& INMAZE != 0) &&
          !(pruneWrite copy dead d c).testBit 3).length := rfl
    have hc4 : survCount sm copy =
        ((allCoords sm.shape).filter fun c => (sm.cells c &&& INMAZE != 0) &&
          !(copy c).testBit 3).length := rfl
    have hcount := inv.count
    rw [hc4] at hcount
    rw [hS3, hc3]
    omega

lemma backfill_zero (compass : List Direction) (orig : Coord → Nat)
    (start e : Coord) (copy : Coord → Nat) (dead : Coord) :
    backfill compass orig start e 0 copy dead =
      if countdoors (copy dead) = 1 then none else some (copy, []) := by
  rw [backfill.eq_def]

/-- Unfolding equation for one fueled step of `backfill`, with the triple
array write packaged as `pruneWrite`. -/
lemma backfill_eq (compass : List Direction) (orig : Coord → Nat)
    (start e : Coord) (fuel : Nat) (copy : Coord → Nat) (dead : Coord) :
    backfill compass orig start e (fuel + 1) copy dead =
      if countdoors (copy dead) = 1 then
        match compassGet compass
            ((if dead = dead then copy dead ||| NOTSOLUTION else copy dead) &&&
              DIR) with
        | none => none
        | some d =>
          if step dead d.deltas = start ∨ step dead d.deltas = e then
            some (pruneWrite copy dead d,
              [⟨"dead-end", [dead], [orig dead]⟩])
          else
            match backfill compass orig start e fuel (pruneWrite copy dead d)
                (step dead d.deltas) with
            | none => none
            | some (cp, evs) =>
              some (cp, ⟨"dead-end", [dead], [orig dead]⟩ :: evs)
      else some (copy, []) := by
  rfl

/-- `backfill` preserves the pruning invariant and emits only `dead-end`
events. -/
lemma backfill_spec (sm : Core) (start e : Coord) (P : Coord → Prop)
    (tm : TreeMaze sm) (hpro : ProtectedSet sm start e P) :
    ∀ (fuel : Nat) (orig copy : Coord → Nat) (dead : Coord)
      (cp2 : Coord → Nat) (evs : List Event),
      PruneInv sm start e P copy → dead ≠ start → dead ≠ e →
      backfill sm.compass orig start e fuel copy dead = some (cp2, evs) →
      PruneInv sm start e P cp2 ∧ ∀ ev ∈ evs, ev.kind = "dead-end" := by
  intro fuel
  induction fuel with
  | zero =>
      intro orig copy dead cp2 evs inv hds hde h
      rw [backfill_zero] at h
      split at h
      · cases h
      · have heq := Option.some_inj.mp h
        have h1 : copy = cp2 := congrArg Prod.fst heq
        have h2 : ([] : List Event) = evs := congrArg Prod.snd heq
        subst h1
        subst h2
        exact ⟨inv, fun ev hev => absurd hev (List.not_mem_nil ev)⟩
  | succ fuel ih =>
      intro orig copy dead cp2 evs inv hds hde h
      rw [backfill_eq] at h
      rw [if_pos rfl] at h
      split at h
      · rename_i hcd
        split at h
        · cases h
        · rename_i d heq
          obtain ⟨hinv3, hdmem, hIm, hne⟩ :=
            prune_step sm start e P tm hpro copy inv dead hds hde hcd d heq
          split at h
          · have heq2 := Option.some_inj.mp h
            have h1 : pruneWrite copy dead d = cp2 := congrArg Prod.fst heq2
            have h2 : [(⟨"dead-end", [dead], [orig dead]⟩ : Event)] = evs :=
              congrArg Prod.snd heq2
            subst h1
            subst h2
            refine ⟨hinv3, fun ev hev => ?_⟩
            rw [List.mem_singleton] at hev
            rw [hev]
          · rename_i hse
            split at h
            · cases h
            · rename_i cp evs0 hrec
              have hns : step dead d.deltas ≠ start :=
                fun hcon => hse (Or.inl hcon)
              have hne2 : step dead d.deltas ≠ e :=
                fun hcon => hse (Or.inr hcon)
              obtain ⟨hinv2, hevs⟩ := ih orig (pruneWrite copy dead d)
                (step dead d.deltas) cp evs0 hinv3 hns hne2 hrec
              have heq2 := Option.some_inj.mp h
              have h1 : cp = cp2 := congrArg Prod.fst heq2
              have h2 : (⟨"dead-end", [dead], [orig dead]⟩ : Event) :: evs0 =
                  evs := congrArg Prod.snd heq2
              subst h1
              subst h2
              refine ⟨hinv2, fun ev hev => ?_⟩
              rcases List.mem_cons.mp hev with rfl | hev2
              · rfl
              · exact hevs ev hev2
      · have heq := Option.some_inj.mp h
        have h1 : copy = cp2 := congrArg Prod.fst heq
        have h2 : ([] : List Event) = evs := congrArg Prod.snd heq
        subst h1
        subst h2
        exact ⟨inv, fun ev hev => absurd hev (List.not_mem_nil ev)⟩

/-- The `for dead in deadlist` loop preserves the pruning invariant and
emits only `dead-end` events. -/
lemma processDeads_spec (sm : Core) (start e : Coord) (P : Coord → Prop)
    (tm : TreeMaze sm) (hpro : ProtectedSet sm start e P) (fuel : Nat)
    (orig : Coord → Nat) :
    ∀ (dds : List Coord) (copy cp2 : Coord → Nat) (evs : List Event),
      PruneInv sm start e P copy →
      (∀ dd ∈ dds, dd ≠ start ∧ dd ≠ e) →
      processDeads sm.compass orig start e fuel copy dds = some (cp2, evs) →
      PruneInv sm start e P cp2 ∧ ∀ ev ∈ evs, ev.kind = "dead-end" := by
  intro dds
  induction dds with
  | nil =>
      intro copy cp2 evs inv hdd h
      rw [processDeads.eq_def] at h
      simp only [] at h
      have heq := Option.some_inj.mp h
      have h1 : copy = cp2 := congrArg Prod.fst heq
      have h2 : ([] : List Event) = evs := congrArg Prod.snd heq
      subst h1
      subst h2
      exact ⟨inv, fun ev hev => absurd hev (List.not_mem_nil ev)⟩
  | cons dd rest ih =>
      intro copy cp2 evs inv hdd h
      rw [processDeads.eq_def] at h
      simp only [] at h
      obtain ⟨hd1, hd2⟩ := hdd dd (List.mem_cons_self dd rest)
      split at h
      · cases h
      · rename_i cp evs1 hbf
        obtain ⟨hinv1, hev1⟩ := backfill_spec sm start e P tm hpro fuel orig
          copy dd cp evs1 inv hd1 hd2 hbf
        split at h
        · cases h
        · rename_i cp3 evs2 hrec
          obtain ⟨hinv2, hev2⟩ := ih cp cp3 evs2 hinv1
            (fun x hx => hdd x (List.mem_cons_of_mem dd hx)) hrec
          have heq := Option.some_inj.mp h
          have h1 : cp3 = cp2 := congrArg Prod.fst heq
          have h2 : evs1 ++ evs2 = evs := congrArg Prod.snd heq
          subst h1
          subst h2
          refine ⟨hinv2, fun ev hev => ?_⟩
          rcases List.mem_append.mp hev with h3 | h3
          · exact hev1 ev h3
          · exact hev2 ev h3

/-- The solver's round loop: on exit the invariant still holds, there are no
remaining prunable dead ends, and only `dead-end` events were emitted. -/
lemma deadendLoop_spec (sm : Core) (start e : Coord) (P : Coord → Prop)
    (tm : TreeMaze sm) (hpro : ProtectedSet sm start e P) :
    ∀ (fuel : Nat) (s : Core) (copy : Coord → Nat)
      (res : Core × (Coord → Nat) × List Event),
      s.shape = sm.shape → s.compass = sm.compass →
      PruneInv sm start e P copy →
      deadendLoop start e fuel s copy = some res →
      PruneInv sm start e P res.2.1 ∧
        (deadendList sm.shape res.2.1 start e).isEmpty = true ∧
        ∀ ev ∈ res.2.2, ev.kind = "dead-end" := by
  intro fuel
  induction fuel with
  | zero =>
      intro s copy res hsh hcp inv h
      rw [deadendLoop] at h
      split at h
      · rename_i hempty
        cases h
        exact ⟨inv, hsh ▸ hempty,
          fun ev hev => absurd hev (List.not_mem_nil ev)⟩
      · cases h
  | succ fuel ih =>
      intro s copy res hsh hcp inv h
      rw [deadendLoop] at h
      simp only [] at h
      split at h
      · rename_i hempty
        cases h
        exact ⟨inv, hsh ▸ hempty,
          fun ev hev => absurd hev (List.not_mem_nil ev)⟩
      · rename_i hnotempty
        split at h
        · cases h
        · rename_i cp evs hpd
          split at h
          · cases h
          · rename_i s2 cp2 evs2 hloop
            have hmem : ∀ dd ∈ (shuffle s (deadendList s.shape copy start e)).1,
                dd ≠ start ∧ dd ≠ e := by
              intro dd hddm
              have hdd2 : dd ∈ deadendList s.shape copy start e :=
                (shuffle_mem s _ dd).mp hddm
              unfold deadendList at hdd2
              exact of_decide_eq_true (List.mem_filter.mp hdd2).2
            rw [(shuffle_core s _).2.2, hcp] at hpd
            obtain ⟨hinv1, hev1⟩ := processDeads_spec sm start e P tm hpro
              fuel _ _ copy cp evs inv hmem hpd
            obtain ⟨hinv2, hde2, hev2⟩ := ih
              (shuffle s (deadendList s.shape copy start e)).2 cp
              (s2, cp2, evs2) (by rw [(shuffle_core s _).2.1, hsh])
              (by rw [(shuffle_core s _).2.2, hcp]) hinv1 hloop
            cases h
            refine ⟨hinv2, hde2, fun ev hev => ?_⟩
            rcases List.mem_append.mp hev with h3 | h3
            · exact hev1 ev h3
            · exact hev2 ev h3

/-- A completed Wilson run yields the tree-maze package expected by the
solver. -/
lemma wilsons_generate_treemaze (fuel : Nat) (s sf : Core) (evs : List Event)
    (vc : ValidCompass s.shape s.compass) (hne : nhCells s ≠ [])
    (hrun : wilsons_generate fuel s = some (sf, evs)) : TreeMaze sf := by
  obtain ⟨hsh, hcp, hg, hcomp, hsound, hconn, hacyc, hcount, hhid⟩ :=
    wilsons_generate_tree fuel s sf evs vc hne hrun
  have vcf : ValidCompass sf.shape sf.compass := by
    rw [hsh, hcp]
    exact vc
  refine ⟨vcf, hg, ?_, hconn, hacyc, ?_⟩
  · intro c hinb hnh
    refine hcomp c ?_ (fun hcon => hnh ((hhid c).mpr hcon))
    show inbound s.shape c = true
    rw [← hsh]
    exact hinb
  · have himc : imCount sf = (nhCells s).length := by
      unfold imCount nhCells
      rw [hsh]
      refine congrArg List.length (List.filter_congr fun c hc => ?_)
      rw [Bool.eq_iff_iff, bne_iff_ne, beq_iff_eq]
      constructor
      · intro him
        exact not_not.mp (hsound c him).2
      · intro h0
        exact hcomp c ((mem_allCoords _ _).mp hc) (fun hcon => hcon h0)
    rw [himc]
    exact hcount

lemma pruneInv_init (sm : Core) (start e : Coord) (P : Coord → Prop)
    (tm : TreeMaze sm) (hstart : InMaze sm start) :
    PruneInv sm start e P sm.cells := by
  have hb3 : ∀ c, (sm.cells c).testBit 3 = false := cells_bit3 tm.vc tm.ginv
  have hnM : ∀ c, ¬Marked sm.cells c := by
    intro c hcon
    have hcon2 : (sm.cells c).testBit 3 = true := hcon
    rw [hb3 c] at hcon2
    cases hcon2
  refine ⟨?_, ?_, ?_, ?_, ?_, ?_, ?_⟩
  · intro c k _ _ h
    exact h
  · intro c k _ _
    rfl
  · intro c d hd
    constructor
    · intro h
      exact ⟨h, hnM c, hnM _⟩
    · rintro ⟨h, _, _⟩
      exact h
  · intro c hM
    exact absurd hM (hnM c)
  · intro c _
    exact hnM c
  · intro c hIm _
    exact tm.conn c start hIm hstart
  · have h1 : doorPairs (copyCore sm sm.cells) = doorPairs sm := rfl
    have h2 : survCount sm sm.cells = imCount sm := by
      unfold survCount imCount
      refine congrArg List.length (List.filter_congr fun c _ => ?_)
      rw [hb3 c, Bool.not_false, Bool.and_true]
    rw [h1, h2]
    exact tm.count

lemma sum_ite_two {α : Type} (l : List α) (p : α → Bool) :
    (l.map fun c => if p c then 2 else 0).sum = 2 * (l.filter p).length := by
  induction l with
  | nil => rfl
  | cons a t ih =>
      cases hp : p a
      · rw [List.map_cons, List.sum_cons,
          List.filter_cons_of_neg (by rw [hp]; exact Bool.false_ne_true),
          if_neg (by rw [hp]; exact Bool.false_ne_true), ih, Nat.zero_add]
      · rw [List.map_cons, List.sum_cons, List.filter_cons_of_pos hp,
          if_pos hp, ih, List.length_cons]
        omega

lemma sum_le_forcing {α : Type} :
    ∀ (l : List α) (f g : α → Nat), (∀ c ∈ l, g c ≤ f c) →
      (l.map f).sum ≤ (l.map g).sum → ∀ c ∈ l, f c = g c := by
  intro l
  induction l with
  | nil =>
      intro f g _ _ c hc
      cases hc
  | cons a t ih =>
      intro f g hle hsum
      rw [List.map_cons, List.sum_cons, List.map_cons, List.sum_cons] at hsum
      have hta : g a ≤ f a := hle a (List.mem_cons_self a t)
      have htle : ∀ c ∈ t, g c ≤ f c :=
        fun c hc => hle c (List.mem_cons_of_mem a hc)
      have htsum : (t.map g).sum ≤ (t.map f).sum :=
        List.sum_le_sum fun c hc => htle c hc
      have hfa : f a = g a := by omega
      have hts : (t.map f).sum ≤ (t.map g).sum := by omega
      intro c hc
      rcases List.mem_cons.mp hc with rfl | hc2
      · exact hfa
      · exact ih f g htle hts c hc2

/-- Pruned doors stay symmetric: both half-doors of a passage are open in
the scratch copy or neither is. -/
lemma prune_doorAdj_symm (sm : Core) (start e : Coord) (P : Coord → Prop)
    (tm : TreeMaze sm) (cp : Coord → Nat) (inv : PruneInv sm start e P cp) :
    ∀ a b, doorAdj (copyCore sm cp) a b → doorAdj (copyCore sm cp) b a := by
  rintro a b ⟨d, hd, hdoor, rfl⟩
  obtain ⟨hsm, hMa, hMb⟩ := (inv.doorIff a d hd).mp hdoor
  obtain ⟨d', hd'mem, hd'val, _, _⟩ := vc_opp tm.vc hd
  have hInba : Inb sm a := (tm.ginv.imInb a (tm.ginv.doorsIm a d hd hsm)).1
  have hback : step (step a d.deltas) d'.deltas = a :=
    step_back tm.vc hd hd'mem hd'val hInba
  have hsm2 : sm.cells (step a d.deltas) &&& d'.val ≠ 0 := by
    rw [hd'val]
    exact tm.ginv.doorsSym a d hd hsm
  refine ⟨d', hd'mem, ?_, hback.symm⟩
  exact (inv.doorIff _ d' hd'mem).mpr ⟨hsm2, hMb, by rw [hback]; exact hMa⟩

lemma reach_symm_gen {S : Core}
    (hsym : ∀ a b, doorAdj S a b → doorAdj S b a) {a b : Coord}
    (h : Reach S a b) : Reach S b a := by
  induction h with
  | refl => exact Relation.ReflTransGen.refl
  | tail _ hadj ih =>
      exact Relation.ReflTransGen.trans
        (Relation.ReflTransGen.single (hsym _ _ hadj)) ih

/-- Each set direction bit of a pruned cell names an open compass door. -/
lemma dir_bit_door (sm : Core) (start e : Coord) (P : Coord → Prop)
    (tm : TreeMaze sm) (cp : Coord → Nat) (inv : PruneInv sm start e P cp)
    (c : Coord) (j : Nat) (hbit : (cp c &&& DIR).testBit j = true) :
    ∃ d2 ∈ sm.compass, d2.val = 2 ^ j ∧ cp c &&& d2.val ≠ 0 := by
  rw [Nat.testBit_land, Bool.and_eq_true_iff] at hbit
  obtain ⟨hcj, hDj⟩ := hbit
  rw [testBit_DIR, Bool.and_eq_true_iff] at hDj
  have h4 : 4 ≤ j := of_decide_eq_true hDj.1
  have h14 : j < 14 := of_decide_eq_true hDj.2
  have hsm : (sm.cells c).testBit j = true := inv.dirSub c j h4 h14 hcj
  rcases tm.ginv.bitsDom c j hsm with h | h | ⟨d2, hd2, hval⟩
  · omega
  · omega
  · exact ⟨d2, hd2, hval, by rw [hval]; exact (hasBit_pow _ _).mpr hcj⟩

/-- A pruned cell with exactly one open compass door has `countdoors` one
(so the round loop would list it as a dead end). -/
lemma doorCount_one_countdoors (sm : Core) (start e : Coord) (P : Coord → Prop)
    (tm : TreeMaze sm) (cp : Coord → Nat) (inv : PruneInv sm start e P cp)
    (c : Coord) (h1 : doorCount (copyCore sm cp) c = 1) :
    countdoors (cp c) = 1 := by
  have hdc : doorCount (copyCore sm cp) c =
      (sm.compass.filter fun d => cp c &&& d.val != 0).length := rfl
  rw [hdc] at h1
  obtain ⟨d, hd⟩ := List.length_eq_one.mp h1
  have hdm : d ∈ sm.compass.filter fun d => cp c &&& d.val != 0 := by
    rw [hd]
    exact List.mem_singleton_self d
  have hdmem : d ∈ sm.compass := (List.mem_filter.mp hdm).1
  have hdoor : cp c &&& d.val ≠ 0 := bne_iff_ne.mp (List.mem_filter.mp hdm).2
  obtain ⟨kd, hk4, hk14, hdval⟩ := vc_val_pow tm.vc hdmem
  have hbitd : (cp c).testBit kd = true := by
    rw [hdval, hasBit_pow] at hdoor
    exact hdoor
  have hbit : (cp c &&& DIR).testBit kd = true := by
    rw [Nat.testBit_land, hbitd, testBit_DIR, decide_eq_true hk4,
      decide_eq_true hk14]
    rfl
  have hmem1 : (2 : Nat) ^ kd ∈ bits (cp c &&& DIR) :=
    ((bits_spec _).2.2 _).mpr ⟨kd, rfl, hbit⟩
  have hnotwo : ∀ j, (cp c &&& DIR).testBit j = true → j = kd := by
    intro j hj
    by_contra hjk
    obtain ⟨d2, hd2, hval2, hdoor2⟩ :=
      dir_bit_door sm start e P tm cp inv c j hj
    have hd2f : d2 ∈ sm.compass.filter fun d => cp c &&& d.val != 0 :=
      List.mem_filter.mpr ⟨hd2, bne_iff_ne.mpr hdoor2⟩
    rw [hd] at hd2f
    have hde : d2 = d := List.mem_singleton.mp hd2f
    exact hjk (Nat.pow_right_injective (Nat.le_refl 2)
      (by show (2 : Nat) ^ j = 2 ^ kd; rw [← hval2, hde, hdval]))
  obtain ⟨hnd, _, hmem⟩ := bits_spec (cp c &&& DIR)
  have hall : ∀ b ∈ bits (cp c &&& DIR), b = 2 ^ kd := by
    intro b hb
    obtain ⟨j, rfl, hj⟩ := (hmem b).mp hb
    rw [hnotwo j hj]
  unfold countdoors
  cases hlist : bits (cp c &&& DIR) with
  | nil =>
      rw [hlist] at hmem1
      cases hmem1
  | cons b t =>
      cases t with
      | nil => rfl
      | cons b2 t2 =>
          exfalso
          rw [hlist] at hall hnd
          have hb1 := hall b (List.mem_cons_self b (b2 :: t2))
          have hb2 := hall b2
            (List.mem_cons_of_mem b (List.mem_cons_self b2 t2))
          rw [List.nodup_cons] at hnd
          exact hnd.1 (by rw [hb1, ← hb2]; exact List.mem_cons_self b2 t2)

/-- Retired or non-maze cells keep no open doors in the scratch copy. -/
lemma doorCount_zero_of (sm : Core) (start e : Coord) (P : Coord → Prop)
    (tm : TreeMaze sm) (cp : Coord → Nat) (inv : PruneInv sm start e P cp)
    (c : Coord) (h : ¬InMaze sm c ∨ Marked cp c) :
    doorCount (copyCore sm cp) c = 0 := by
  have hdc : doorCount (copyCore sm cp) c =
      (sm.compass.filter fun d => cp c &&& d.val != 0).length := rfl
  rw [hdc, List.length_eq_zero, List.filter_eq_nil_iff]
  intro d hd hcon
  have hdoor : cp c &&& d.val ≠ 0 := bne_iff_ne.mp hcon
  obtain ⟨hsm, hM, _⟩ := (inv.doorIff c d hd).mp hdoor
  rcases h with h | h
  · exact h (tm.ginv.doorsIm c d hd hsm)
  · exact hM h

lemma deadendList_empty_no_one (shape : List Nat) (cp : Coord → Nat)
    (start e : Coord)
    (hempty : (deadendList shape cp start e).isEmpty = true) :
    ∀ c, inbound shape c = true → c ≠ start → c ≠ e →
      countdoors (cp c) ≠ 1 := by
  intro c hinb hcs hce hcon
  have hmem : c ∈ deadendList shape cp start e := by
    unfold deadendList
    refine List.mem_filter.mpr ⟨List.mem_filter.mpr
      ⟨(mem_allCoords _ _).mpr hinb, beq_iff_eq.mpr hcon⟩,
      decide_eq_true ⟨hcs, hce⟩⟩
  rw [List.isEmpty_iff] at hempty
  rw [hempty] at hmem
  cases hmem

/-- Degree forcing on exit from the round loop: with `start` and `e`
protected, every surviving maze cell keeps exactly two open doors, except
`start` and `e` which keep exactly one. -/
lemma prune_final (sm : Core) (start e : Coord) (cp : Coord → Nat)
    (tm : TreeMaze sm)
    (inv : PruneInv sm start e (fun c => c = start ∨ c = e) cp)
    (hstart : InMaze sm start) (hee : InMaze sm e) (hne : start ≠ e)
    (hempty : (deadendList sm.shape cp start e).isEmpty = true) :
    ∀ c, InMaze sm c → ¬Marked cp c →
      doorCount (copyCore sm cp) c = if c = start ∨ c = e then 1 else 2 := by
  have hMs : ¬Marked cp start := inv.prot start (Or.inl rfl)
  have hMe : ¬Marked cp e := inv.prot e (Or.inr rfl)
  have hsym := prune_doorAdj_symm sm start e _ tm cp inv
  have hInbS : Inb sm start := (tm.ginv.imInb start hstart).1
  have hInbE : Inb sm e := (tm.ginv.imInb e hee).1
  have hpos : ∀ c, (∃ d ∈ sm.compass, cp c &&& d.val ≠ 0) →
      1 ≤ doorCount (copyCore sm cp) c := by
    rintro c ⟨d, hd, hdoor⟩
    have hmem : d ∈ sm.compass.filter fun d => cp c &&& d.val != 0 :=
      List.mem_filter.mpr ⟨hd, bne_iff_ne.mpr hdoor⟩
    have hdc : doorCount (copyCore sm cp) c =
        (sm.compass.filter fun d => cp c &&& d.val != 0).length := rfl
    rw [hdc]
    exact List.length_pos.mpr (List.ne_nil_of_mem hmem)
  have hge1 : ∀ c, InMaze sm c → ¬Marked cp c → c ≠ start →
      1 ≤ doorCount (copyCore sm cp) c := by
    intro c hIm hM hcs
    rcases (inv.conn c hIm hM).cases_head with h | ⟨b, hadj, _⟩
    · exact absurd h hcs
    · obtain ⟨d, hd, hdoor, _⟩ := hadj
      exact hpos c ⟨d, hd, hdoor⟩
  have hge1s : 1 ≤ doorCount (copyCore sm cp) start := by
    rcases (inv.conn e hee hMe).cases_tail with h | ⟨u, _, hadj⟩
    · exact absurd h hne
    · obtain ⟨d, hd, hdoor, _⟩ := hsym u start hadj
      exact hpos start ⟨d, hd, hdoor⟩
  have hge2 : ∀ c, Inb sm c → InMaze sm c → ¬Marked cp c →
      ¬(c = start ∨ c = e) → 2 ≤ doorCount (copyCore sm cp) c := by
    intro c hInb hIm hM hcse
    have h1 := hge1 c hIm hM (fun h => hcse (Or.inl h))
    rcases Nat.lt_or_ge (doorCount (copyCore sm cp) c) 2 with h | h
    · exfalso
      have hdc1 : doorCount (copyCore sm cp) c = 1 := by omega
      exact deadendList_empty_no_one sm.shape cp start e hempty c hInb
        (fun h2 => hcse (Or.inl h2)) (fun h2 => hcse (Or.inr h2))
        (doorCount_one_countdoors sm start e _ tm cp inv c hdc1)
    · exact h
  -- forcing via the door-pair count
  have hps : ((sm.cells start &&& INMAZE != 0) &&
      !(cp start).testBit 3) = true := by
    rw [bne_iff_ne.mpr hstart, Bool.eq_false_iff.mpr hMs]
    rfl
  have hpe : ((sm.cells e &&& INMAZE != 0) && !(cp e).testBit 3) = true := by
    rw [bne_iff_ne.mpr hee, Bool.eq_false_iff.mpr hMe]
    rfl
  have hmemS : start ∈ allCoords sm.shape := (mem_allCoords _ _).mpr hInbS
  have hmemE : e ∈ allCoords sm.shape := (mem_allCoords _ _).mpr hInbE
  have hup1 := map_sum_update (allCoords sm.shape) (allCoords_nodup _) e hmemE
    (fun c => if (sm.cells c &&& INMAZE != 0) && !(cp c).testBit 3 then
      (if c = e then 1 else 2) else 0)
    (fun c => if (sm.cells c &&& INMAZE != 0) && !(cp c).testBit 3 then
      2 else 0)
    (fun x _ hxe => by simp only [if_neg hxe])
  simp only [] at hup1
  rw [if_pos hpe, if_pos hpe, if_true] at hup1
  have hup2 := map_sum_update (allCoords sm.shape) (allCoords_nodup _) start
    hmemS
    (fun c => if (sm.cells c &&& INMAZE != 0) && !(cp c).testBit 3 then
      (if c = start ∨ c = e then 1 else 2) else 0)
    (fun c => if (sm.cells c &&& INMAZE != 0) && !(cp c).testBit 3 then
      (if c = e then 1 else 2) else 0)
    (fun x _ hxs => by
      simp only []
      by_cases hp : ((sm.cells x &&& INMAZE != 0) && !(cp x).testBit 3) = true
      · rw [if_pos hp, if_pos hp]
        by_cases hxe : x = e
        · rw [if_pos (Or.inr hxe), if_pos hxe]
        · rw [if_neg (fun h2 => h2.elim hxs hxe), if_neg hxe]
      · rw [if_neg hp, if_neg hp])
  simp only [] at hup2
  rw [if_pos hps, if_pos hps, if_pos (Or.inl trivial), if_neg hne] at hup2
  have hsum0 := sum_ite_two (allCoords sm.shape)
    (fun c => (sm.cells c &&& INMAZE != 0) && !(cp c).testBit 3)
  have hsurv : survCount sm cp = ((allCoords sm.shape).filter fun c =>
      (sm.cells c &&& INMAZE != 0) && !(cp c).testBit 3).length := rfl
  have hdpl : (doorPairs (copyCore sm cp)).length =
      ((allCoords sm.shape).map fun c => doorCount (copyCore sm cp) c).sum := by
    rw [doorPairs_length]
    rfl
  have hcount := inv.count
  rw [hsurv] at hcount
  have hle : ∀ c ∈ allCoords sm.shape,
      (if (sm.cells c &&& INMAZE != 0) && !(cp c).testBit 3 then
        (if c = start ∨ c = e then 1 else 2) else 0) ≤
      doorCount (copyCore sm cp) c := by
    intro c hc
    by_cases hp : ((sm.cells c &&& INMAZE != 0) && !(cp c).testBit 3) = true
    · rw [if_pos hp]
      obtain ⟨him, hm3⟩ := Bool.and_eq_true_iff.mp hp
      have hIm : InMaze sm c := bne_iff_ne.mp him
      have hM : ¬Marked cp c := by
        intro hcon
        have hcon2 : (cp c).testBit 3 = true := hcon
        rw [hcon2] at hm3
        cases hm3
      by_cases hse : c = start ∨ c = e
      · rw [if_pos hse]
        rcases hse with rfl | rfl
        · exact hge1s
        · exact hge1 c hIm hM (fun h2 => hne h2.symm)
      · rw [if_neg hse]
        exact hge2 c ((mem_allCoords _ _).mp hc) hIm hM hse
    · rw [if_neg hp]
      exact Nat.zero_le _
  have hsumle : ((allCoords sm.shape).map
      fun c => doorCount (copyCore sm cp) c).sum ≤
      ((allCoords sm.shape).map fun c =>
        if (sm.cells c &&& INMAZE != 0) && !(cp c).testBit 3 then
          (if c = start ∨ c = e then 1 else 2) else 0).sum := by
    rw [← hdpl]
    omega
  have hforce := sum_le_forcing (allCoords sm.shape)
    (fun c => doorCount (copyCore sm cp) c)
    (fun c => if (sm.cells c &&& INMAZE != 0) && !(cp c).testBit 3 then
      (if c = start ∨ c = e then 1 else 2) else 0)
    hle hsumle
  intro c hIm hM
  have hInb : Inb sm c := (tm.ginv.imInb c hIm).1
  have hp : ((sm.cells c &&& INMAZE != 0) && !(cp c).testBit 3) = true := by
    rw [bne_iff_ne.mpr hIm, Bool.eq_false_iff.mpr hM]
    rfl
  have hthis := hforce c ((mem_allCoords _ _).mpr hInb)
  simp only [] at hthis
  rw [if_pos hp] at hthis
  exact hthis

/-- The coordinates reported by the `solution` events of a run, in emission
order. -/
def solutionCells (evs : List Event) : List Coord :=
  (evs.filter fun ev => ev.kind == "solution").map fun ev => ev.coords.getD 0 []

lemma and_ns_hid_zero (x : Nat) :
    x &&& (NOTSOLUTION ||| HIDDEN) = 0 ↔
      x.testBit 3 = false ∧ x.testBit 1 = false := by
  constructor
  · intro h
    constructor
    · have h3 := congrArg (fun y => y.testBit 3) h
      simp only [Nat.testBit_land, Nat.zero_testBit] at h3
      rw [show (NOTSOLUTION ||| HIDDEN : Nat).testBit 3 = true from by decide,
        Bool.and_true] at h3
      exact h3
    · have h1 := congrArg (fun y => y.testBit 1) h
      simp only [Nat.testBit_land, Nat.zero_testBit] at h1
      rw [show (NOTSOLUTION ||| HIDDEN : Nat).testBit 1 = true from by decide,
        Bool.and_true] at h1
      exact h1
  · rintro ⟨h3, h1⟩
    apply Nat.eq_of_testBit_eq
    intro j
    rw [Nat.testBit_land, Nat.zero_testBit]
    by_cases hj3 : j = 3
    · subst hj3
      rw [h3, Bool.false_and]
    · by_cases hj1 : j = 1
      · subst hj1
        rw [h1, Bool.false_and]
      · rw [Nat.testBit_lor, show NOTSOLUTION = 2 ^ 3 from rfl,
          show HIDDEN = 2 ^ 1 from rfl,
          Nat.testBit_two_pow_of_ne (fun h => hj3 h.symm),
          Nat.testBit_two_pow_of_ne (fun h => hj1 h.symm), Bool.or_false,
          Bool.and_false]

lemma deadend_solve_some (fuel : Nat) (sm : Core) (start e : Coord) :
    deadend_solve fuel sm (some start) (some e) =
      match deadendLoop start e fuel sm sm.cells with
      | none => none
      | some (s3, cp, evs) =>
        some (s3, evs ++
          (((allCoords s3.shape).filter fun c =>
            cp c &&& (NOTSOLUTION ||| HIDDEN) == 0).map fun c =>
              (⟨"solution", [c], [s3.cells c]⟩ : Event)) ++
          [⟨"solved", [start, e], []⟩]) := by
  rfl

lemma solutionCells_assemble (evs : List Event)
    (hevs : ∀ ev ∈ evs, ev.kind = "dead-end") (sol : List Coord)
    (s3 : Core) (start e : Coord) :
    solutionCells (evs ++
      (sol.map fun c => (⟨"solution", [c], [s3.cells c]⟩ : Event)) ++
      [⟨"solved", [start, e], []⟩]) = sol := by
  unfold solutionCells
  rw [List.filter_append, List.filter_append]
  have h1 : evs.filter (fun ev => ev.kind == "solution") = [] := by
    rw [List.filter_eq_nil_iff]
    intro ev hev hcon
    rw [hevs ev hev] at hcon
    exact absurd hcon (by decide)
  have h2 : (sol.map fun c =>
      (⟨"solution", [c], [s3.cells c]⟩ : Event)).filter
        (fun ev => ev.kind == "solution") =
      sol.map fun c => (⟨"solution", [c], [s3.cells c]⟩ : Event) := by
    rw [List.filter_eq_self]
    intro ev hev
    obtain ⟨c, _, rfl⟩ := List.mem_map.mp hev
    exact (by decide : (("solution" == "solution") = true))
  have hk : (("solved" == "solution") = true) → False := by decide
  have h3 : ([(⟨"solved", [start, e], []⟩ : Event)]).filter
      (fun ev => ev.kind == "solution") = [] := by
    refine List.filter_eq_nil_iff.mpr ?_
    intro ev hev
    rw [List.mem_singleton] at hev
    subst hev
    exact fun hcon => hk hcon
  rw [h1, h2, h3, List.nil_append, List.append_nil, List.map_map]
  rw [show ((fun (ev : Event) => ev.coords.getD 0 []) ∘
      fun c => (⟨"solution", [c], [s3.cells c]⟩ : Event)) =
      fun (c : Coord) => c from funext fun c => rfl]
  exact List.map_id sol

/-- C3: on a spanning-tree maze with distinct in-maze start and end, the
cells reported by the run's `solution` events (those whose scratch copy ends
with `NOTSOLUTION` and `HIDDEN` clear) are a duplicate-free set of maze
cells containing `start` and `end`, connected to `start` through doors that
stay inside the set, in which `start` and `end` keep exactly one open door
into the set and every other solution cell keeps exactly two — a single
simple path between `start` and `end` with no branching. -/
theorem C3_solution_path (fuel : Nat) (sm : Core) (start e : Coord)
    (s3 : Core) (evAll : List Event) (tm : TreeMaze sm)
    (hstart : InMaze sm start) (he : InMaze sm e) (hne : start ≠ e)
    (hrun : deadend_solve fuel sm (some start) (some e) = some (s3, evAll)) :
    ∃ L : List Coord, L = solutionCells evAll ∧
      L.Nodup ∧ start ∈ L ∧ e ∈ L ∧ (∀ c ∈ L, InMaze sm c) ∧
      (∀ c ∈ L, Relation.ReflTransGen
        (fun a b => a ∈ L ∧ b ∈ L ∧ doorAdj sm a b) c start) ∧
      (∀ c ∈ L, (sm.compass.filter fun d =>
          (sm.cells c &&& d.val != 0) &&
            decide (step c d.deltas ∈ L)).length =
        if c = start ∨ c = e then 1 else 2) := by
  rw [deadend_solve_some] at hrun
  split at hrun
  · cases hrun
  · rename_i s3a cp evs hloop
    cases hrun
    have hpro : ProtectedSet sm start e (fun c => c = start ∨ c = e) := by
      constructor
      · intro c hc
        rcases hc with rfl | rfl
        · exact hstart
        · exact he
      · intro c hc hcs hce
        rcases hc with rfl | rfl
        · exact absurd rfl hcs
        · exact absurd rfl hce
    have inv0 := pruneInv_init sm start e (fun c => c = start ∨ c = e) tm
      hstart
    obtain ⟨invF, hempty, hev⟩ := deadendLoop_spec sm start e
      (fun c => c = start ∨ c = e) tm hpro fuel sm sm.cells (s3, cp, evs)
      rfl rfl inv0 hloop
    obtain ⟨hcells3, hshape3, hcompass3⟩ :=
      deadendLoop_core start e fuel sm sm.cells (s3, cp, evs) hloop
    rw [hshape3]
    have hMs : ¬Marked cp start := invF.prot start (Or.inl rfl)
    have hMe : ¬Marked cp e := invF.prot e (Or.inr rfl)
    have hInbS : Inb sm start := (tm.ginv.imInb start hstart).1
    have hInbE : Inb sm e := (tm.ginv.imInb e he).1
    have hchar : ∀ c, (c ∈ (allCoords sm.shape).filter fun c =>
        cp c &&& (NOTSOLUTION ||| HIDDEN) == 0) ↔
        (Inb sm c ∧ InMaze sm c ∧ ¬Marked cp c) := by
      intro c
      constructor
      · intro hc
        obtain ⟨hmem, hfilt⟩ := List.mem_filter.mp hc
        obtain ⟨h3, h1⟩ := (and_ns_hid_zero _).mp (beq_iff_eq.mp hfilt)
        have hInb : Inb sm c := (mem_allCoords _ _).mp hmem
        have hb1 : (sm.cells c).testBit 1 = false := by
          rw [← invF.nonDir c 1 (by omega) (by omega)]
          exact h1
        have hnh : ¬Hid sm c := by
          intro hcon
          rw [Hid, show HIDDEN = 2 ^ 1 from rfl, hasBit_pow, hb1] at hcon
          exact Bool.false_ne_true hcon
        refine ⟨hInb, tm.complete c hInb hnh, fun hM => ?_⟩
        have hM2 : (cp c).testBit 3 = true := hM
        rw [h3] at hM2
        exact Bool.false_ne_true hM2
      · rintro ⟨hInb, hIm, hM⟩
        refine List.mem_filter.mpr ⟨(mem_allCoords _ _).mpr hInb,
          beq_iff_eq.mpr ((and_ns_hid_zero _).mpr ⟨?_, ?_⟩)⟩
        · exact Bool.eq_false_iff.mpr hM
        · rw [invF.nonDir c 1 (by omega) (by omega)]
          have hnh := (tm.ginv.imInb c hIm).2
          cases hq : (sm.cells c).testBit 1
          · rfl
          · exfalso
            apply hnh
            rw [Hid, show HIDDEN = 2 ^ 1 from rfl, hasBit_pow]
            exact hq
    refine ⟨(allCoords sm.shape).filter fun c =>
      cp c &&& (NOTSOLUTION ||| HIDDEN) == 0, ?_, ?_, ?_, ?_, ?_, ?_, ?_⟩
    · exact (solutionCells_assemble evs hev _ s3 start e).symm
    · exact List.Nodup.filter _ (allCoords_nodup _)
    · exact (hchar start).mpr ⟨hInbS, hstart, hMs⟩
    · exact (hchar e).mpr ⟨hInbE, he, hMe⟩
    · exact fun c hc => ((hchar c).mp hc).2.1
    · intro c hc
      obtain ⟨hInb, hIm, hM⟩ := (hchar c).mp hc
      have hr := invF.conn c hIm hM
      clear hc
      induction hr using Relation.ReflTransGen.head_induction_on with
      | refl => exact Relation.ReflTransGen.refl
      | head hstep htail ih =>
          rename_i x c0
          obtain ⟨d, hd, hdoor, hc0⟩ := hstep
          obtain ⟨hsm, hMx, hMn⟩ := (invF.doorIff x d hd).mp hdoor
          have hImx : InMaze sm x := tm.ginv.doorsIm x d hd hsm
          obtain ⟨hInbn, hImn, _⟩ := tm.ginv.doorsDst x d hd hsm
          have hxL := (hchar x).mpr ⟨(tm.ginv.imInb x hImx).1, hImx, hMx⟩
          have hc0L : c0 ∈ (allCoords sm.shape).filter fun c =>
              cp c &&& (NOTSOLUTION ||| HIDDEN) == 0 := by
            rw [hc0]
            exact (hchar _).mpr ⟨hInbn, hImn, hMn⟩
          refine Relation.ReflTransGen.head ⟨hxL, hc0L, d, hd, hsm, hc0⟩
            (ih ?_ ?_ ?_)
          · rw [hc0]
            exact hInbn
          · rw [hc0]
            exact hImn
          · rw [hc0]
            exact hMn
    · intro c hc
      obtain ⟨hInb, hIm, hM⟩ := (hchar c).mp hc
      have hfc : (sm.compass.filter fun d => (sm.cells c &&& d.val != 0) &&
          decide (step c d.deltas ∈ (allCoords sm.shape).filter fun c =>
            cp c &&& (NOTSOLUTION ||| HIDDEN) == 0)) =
          (sm.compass.filter fun d => cp c &&& d.val != 0) := by
        refine List.filter_congr fun d hd => ?_
        rw [Bool.eq_iff_iff, Bool.and_eq_true_iff, bne_iff_ne, bne_iff_ne,
          decide_eq_true_eq]
        constructor
        · rintro ⟨hsm, hmem⟩
          exact (invF.doorIff c d hd).mpr ⟨hsm, hM, ((hchar _).mp hmem).2.2⟩
        · intro hdoor
          obtain ⟨hsm, _, hMn⟩ := (invF.doorIff c d hd).mp hdoor
          obtain ⟨hInbn, hImn, _⟩ := tm.ginv.doorsDst c d hd hsm
          exact ⟨hsm, (hchar _).mpr ⟨hInbn, hImn, hMn⟩⟩
      rw [hfc]
      exact prune_final sm start e cp tm invF hstart he hne hempty c hIm hM

theorem C3_solution_path_witness :
    ∃ sf ev s3 evAll, wilsons_generate 8 sW1 = some (sf, ev) ∧
      deadend_solve 8 sf (some [0, 0]) (some [0, 1]) = some (s3, evAll) ∧
      ∃ L : List Coord, L = solutionCells evAll ∧
        L.Nodup ∧ [0, 0] ∈ L ∧ [0, 1] ∈ L ∧ (∀ c ∈ L, InMaze sf c) ∧
        (∀ c ∈ L, Relation.ReflTransGen
          (fun a b => a ∈ L ∧ b ∈ L ∧ doorAdj sf a b) c [0, 0]) ∧
        (∀ c ∈ L, (sf.compass.filter fun d =>
            (sf.cells c &&& d.val != 0) &&
              decide (step c d.deltas ∈ L)).length =
          if c = [0, 0] ∨ c = [0, 1] then 1 else 2) := by
  have h1 : (wilsons_generate 8 sW1).isSome = true := by decide
  obtain ⟨⟨sf, ev⟩, hw⟩ := Option.isSome_iff_exists.mp h1
  have h2 : (match wilsons_generate 8 sW1 with
      | some p => deadend_solve 8 p.1 (some [0, 0]) (some [0, 1])
      | none => none).isSome = true := by decide
  rw [hw] at h2
  simp only [] at h2
  obtain ⟨⟨s3, evAll⟩, hsol⟩ := Option.isSome_iff_exists.mp h2
  have vc : ValidCompass sW1.shape sW1.compass := validCompass_orth2D _ rfl
  have hnhne : nhCells sW1 ≠ [] := by decide
  have tm := wilsons_generate_treemaze 8 sW1 sf ev vc hnhne hw
  obtain ⟨_, _, _, hcomp, _, _, _, _, _⟩ :=
    wilsons_generate_tree 8 sW1 sf ev vc hnhne hw
  have hstart : InMaze sf [0, 0] :=
    hcomp [0, 0] (by unfold Inb; decide) (by unfold Hid; decide)
  have he : InMaze sf [0, 1] :=
    hcomp [0, 1] (by unfold Inb; decide) (by unfold Hid; decide)
  have hnese : ([0, 0] : Coord) ≠ [0, 1] := by decide
  exact ⟨sf, ev, s3, evAll, hw, hsol,
    C3_solution_path 8 sf [0, 0] [0, 1] s3 evAll tm hstart he hnese hsol⟩

/-! ## Order independence of the backfill (claim C6) -/

lemma nodup_length_two {α : Type} {l : List α} (hnd : l.Nodup)
    (h : l.length = 2) : ∃ a ∈ l, ∃ b ∈ l, a ≠ b := by
  cases l with
  | nil =>
      rw [List.length_nil] at h
      exact absurd h (by omega)
  | cons a t =>
      cases t with
      | nil =>
          rw [List.length_cons, List.length_nil] at h
          exact absurd h (by omega)
      | cons b t2 =>
          refine ⟨a, List.mem_cons_self a _, b,
            List.mem_cons_of_mem a (List.mem_cons_self b t2), ?_⟩
          intro hab
          rw [List.nodup_cons] at hnd
          exact hnd.1 (hab ▸ List.mem_cons_self b t2)

/-- A cell survives (`NOTSOLUTION` and `HIDDEN` clear in the copy) exactly
when it is a maze cell not retired by the backfill. -/
lemma surv_char (sm : Core) (start e : Coord) (P : Coord → Prop)
    (tm : TreeMaze sm) (cp : Coord → Nat) (inv : PruneInv sm start e P cp)
    (c : Coord) (hInb : Inb sm c) :
    (cp c &&& (NOTSOLUTION ||| HIDDEN) == 0) = true ↔
      (InMaze sm c ∧ ¬Marked cp c) := by
  rw [beq_iff_eq, and_ns_hid_zero]
  constructor
  · rintro ⟨h3, h1⟩
    have hb1 : (sm.cells c).testBit 1 = false := by
      rw [← inv.nonDir c 1 (by omega) (by omega)]
      exact h1
    have hnh : ¬Hid sm c := by
      intro hcon
      rw [Hid, show HIDDEN = 2 ^ 1 from rfl, hasBit_pow, hb1] at hcon
      exact Bool.false_ne_true hcon
    refine ⟨tm.complete c hInb hnh, fun hM => ?_⟩
    have hM2 : (cp c).testBit 3 = true := hM
    rw [h3] at hM2
    exact Bool.false_ne_true hM2
  · rintro ⟨hIm, hM⟩
    refine ⟨Bool.eq_false_iff.mpr hM, ?_⟩
    rw [inv.nonDir c 1 (by omega) (by omega)]
    have hnh := (tm.ginv.imInb c hIm).2
    cases hq : (sm.cells c).testBit 1
    · rfl
    · exact absurd (by
        rw [Hid, show HIDDEN = 2 ^ 1 from rfl, hasBit_pow]
        exact hq) hnh

/-- After a completed pruning run, the surviving cells are a protected set:
each interior survivor keeps two distinct doors back into the survivors. -/
lemma run_protected (sm : Core) (start e : Coord) (cp : Coord → Nat)
    (tm : TreeMaze sm)
    (inv : PruneInv sm start e (fun c => c = start ∨ c = e) cp)
    (hstart : InMaze sm start) (he : InMaze sm e) (hne : start ≠ e)
    (hempty : (deadendList sm.shape cp start e).isEmpty = true) :
    ProtectedSet sm start e (fun c => InMaze sm c ∧ ¬Marked cp c) := by
  constructor
  · exact fun c hc => hc.1
  · intro c hc hcs hce
    obtain ⟨hIm, hM⟩ := hc
    have hdeg := prune_final sm start e cp tm inv hstart he hne hempty c hIm hM
    rw [if_neg (fun h2 => h2.elim hcs hce)] at hdeg
    have hdc : doorCount (copyCore sm cp) c =
        (sm.compass.filter fun d => cp c &&& d.val != 0).length := rfl
    rw [hdc] at hdeg
    have hnd : (sm.compass.filter fun d => cp c &&& d.val != 0).Nodup :=
      List.Nodup.filter _ (List.Nodup.of_map _ tm.vc.2.2.1)
    obtain ⟨d1, hd1f, d2, hd2f, hdne⟩ := nodup_length_two hnd hdeg
    obtain ⟨hd1m, hd1p⟩ := List.mem_filter.mp hd1f
    obtain ⟨hd2m, hd2p⟩ := List.mem_filter.mp hd2f
    obtain ⟨hsm1, hM1a, hM1n⟩ :=
      (inv.doorIff c d1 hd1m).mp (bne_iff_ne.mp hd1p)
    obtain ⟨hsm2, hM2a, hM2n⟩ :=
      (inv.doorIff c d2 hd2m).mp (bne_iff_ne.mp hd2p)
    obtain ⟨_, hImn1, _⟩ := tm.ginv.doorsDst c d1 hd1m hsm1
    obtain ⟨_, hImn2, _⟩ := tm.ginv.doorsDst c d2 hd2m hsm2
    refine ⟨d1, hd1m, d2, hd2m, ?_, hsm1, hsm2, ⟨hImn1, hM1n⟩,
      ⟨hImn2, hM2n⟩⟩
    exact fun hval => hdne (vals_inj tm.vc hd1m hd2m hval)

/-- The tree-maze package ignores the random stream. -/
lemma treeMaze_congr {s t : Core} (hsh : t.shape = s.shape)
    (hc : t.cells = s.cells) (hcp : t.compass = s.compass)
    (tm : TreeMaze s) : TreeMaze t := by
  have hadj : ∀ a b, doorAdj t a b ↔ doorAdj s a b :=
    doorAdj_congr hcp (fun c d _ => by rw [hc])
  have hIm : ∀ c, InMaze t c ↔ InMaze s c := fun c => by
    unfold InMaze
    rw [hc]
  have hInbiff : ∀ c, Inb t c ↔ Inb s c := fun c => by
    unfold Inb
    rw [hsh]
  have hHid : ∀ c, Hid t c ↔ Hid s c := fun c => by
    unfold Hid
    rw [hc]
  refine ⟨?_, ginv_congr hc hsh hcp tm.ginv, ?_, ?_, ?_, ?_⟩
  · rw [hsh, hcp]
    exact tm.vc
  · intro c h1 h2
    exact (hIm c).mpr (tm.complete c ((hInbiff c).mp h1)
      (fun hcon => h2 ((hHid c).mpr hcon)))
  · intro a b ha hb
    exact Relation.ReflTransGen.mono (fun x y h => (hadj x y).mpr h)
      (tm.conn a b ((hIm a).mp ha) ((hIm b).mp hb))
  · intro l hcyc
    exact tm.acyc l ⟨hcyc.1, hcyc.2.1,
      hcyc.2.2.1.imp (fun a b h => (hadj a b).mp h),
      fun a ha b hb => (hadj b a).mp (hcyc.2.2.2 a ha b hb)⟩
  · rw [doorPairs_congr hc hsh hcp, imCount_congr hc hsh]
    exact tm.count

lemma protectedSet_congr {s t : Core} (hc : t.cells = s.cells)
    (hcp : t.compass = s.compass) {start e : Coord} {P : Coord → Prop}
    (h : ProtectedSet s start e P) : ProtectedSet t start e P := by
  constructor
  · intro c hcP
    unfold InMaze
    rw [hc]
    exact h.1 c hcP
  · intro c hcP hcs hce
    obtain ⟨d1, hd1, d2, hd2, hv, ho1, ho2, hp1, hp2⟩ := h.2 c hcP hcs hce
    refine ⟨d1, by rw [hcp]; exact hd1, d2, by rw [hcp]; exact hd2, hv,
      ?_, ?_, hp1, hp2⟩
    · rw [hc]
      exact ho1
    · rw [hc]
      exact ho2

/-- Unfolding equation for one fueled round of the solver loop. -/
lemma deadendLoop_succ (start e : Coord) (fuel : Nat) (s : Core)
    (copy : Coord → Nat) :
    deadendLoop start e (fuel + 1) s copy =
      if (deadendList s.shape copy start e).isEmpty then some (s, copy, [])
      else
        match processDeads
            (shuffle s (deadendList s.shape copy start e)).2.compass
            (shuffle s (deadendList s.shape copy start e)).2.cells start e
            fuel copy (shuffle s (deadendList s.shape copy start e)).1 with
        | none => none
        | some (cp, evs) =>
          match deadendLoop start e fuel
              (shuffle s (deadendList s.shape copy start e)).2 cp with
          | none => none
          | some (s2, cp2, evs2) => some (s2, cp2, evs ++ evs2) := rfl

lemma perm_pair6 : ([([0, 0] : Coord), [1, 0]]).permutations =
    [[[0, 0], [1, 0]], [[1, 0], [0, 0]]] := by
  simp [List.permutations, List.permutationsAux2]

/-- With seed stream `1`, the first round of `sPair6b`'s solve shuffles the
two dead ends into reversed order. -/
lemma shuffle_pair6b :
    (shuffle sPair6b
      (deadendList sPair6b.shape sPair6b.cells [0, 1] [1, 1])).1 =
      [[1, 0], [0, 0]] := by
  rw [show deadendList sPair6b.shape sPair6b.cells [0, 1] [1, 1] =
    [[0, 0], [1, 0]] from by decide]
  unfold shuffle
  simp only []
  rw [perm_pair6]
  decide

lemma run_b_solution : (deadend_solve 8 sPair6b (some [0, 1])
    (some [1, 1])).map (fun r => solutionCells r.2) =
    some [[0, 0], [0, 1], [1, 1]] := by
  rw [deadend_solve_some, show (8 : Nat) = 7 + 1 from rfl, deadendLoop_succ,
    if_neg (by decide), shuffle_pair6b]
  decide

/-- C6 counterexample: on a 2×2 grid holding two disjoint passages (not a
spanning tree), two runs of `deadend_solve` that differ only in the random
stream — hence only in the shuffled processing order of the two discovered
dead ends — retire different cells and report different solution sets. -/
theorem C6_counterexample :
    sPair6a.shape = sPair6b.shape ∧
    (∀ c, sPair6a.cells c = sPair6b.cells c) ∧
    sPair6a.compass = sPair6b.compass ∧
    ∃ r1 r2, deadend_solve 8 sPair6a (some [0, 1]) (some [1, 1]) = some r1 ∧
      deadend_solve 8 sPair6b (some [0, 1]) (some [1, 1]) = some r2 ∧
      solutionCells r1.2 ≠ solutionCells r2.2 := by
  refine ⟨rfl, fun c => rfl, rfl, ?_⟩
  have ha : (deadend_solve 8 sPair6a (some [0, 1]) (some [1, 1])).map
      (fun r => solutionCells r.2) = some [[0, 1], [1, 0], [1, 1]] := by
    decide
  have hb := run_b_solution
  cases hra : deadend_solve 8 sPair6a (some [0, 1]) (some [1, 1]) with
  | none =>
      rw [hra, Option.map_none'] at ha
      exact Option.noConfusion ha
  | some r1 =>
      cases hrb : deadend_solve 8 sPair6b (some [0, 1]) (some [1, 1]) with
      | none =>
          rw [hrb, Option.map_none'] at hb
          exact Option.noConfusion hb
      | some r2 =>
          rw [hra, Option.map_some'] at ha
          rw [hrb, Option.map_some'] at hb
          have ha2 : solutionCells r1.2 = [[0, 1], [1, 0], [1, 1]] :=
            Option.some_inj.mp ha
          have hb2 : solutionCells r2.2 = [[0, 0], [0, 1], [1, 1]] :=
            Option.some_inj.mp hb
          refine ⟨r1, r2, rfl, rfl, ?_⟩
          rw [ha2, hb2]
          decide

/-- C6 amended: on a spanning-tree maze the backfill is confluent — two
`deadend_solve` runs on the same grid contents with the same endpoints
report the same solution cells, whatever the injected random stream (hence
whatever shuffled order the dead ends are processed in) and whatever
sufficient fuel. -/
theorem C6_amended (fuel1 fuel2 : Nat) (s t : Core) (start e : Coord)
    (hsh : t.shape = s.shape) (hc : ∀ c, t.cells c = s.cells c)
    (hcp : t.compass = s.compass)
    (tm : TreeMaze s) (hstart : InMaze s start) (he : InMaze s e)
    (hne : start ≠ e) (r1 r2 : Core × List Event)
    (h1 : deadend_solve fuel1 s (some start) (some e) = some r1)
    (h2 : deadend_solve fuel2 t (some start) (some e) = some r2) :
    solutionCells r1.2 = solutionCells r2.2 := by
  have hcf : t.cells = s.cells := funext hc
  have tmt : TreeMaze t := treeMaze_congr hsh hcf hcp tm
  have hstt : InMaze t start := by
    unfold InMaze
    rw [hcf]
    exact hstart
  have het : InMaze t e := by
    unfold InMaze
    rw [hcf]
    exact he
  rw [deadend_solve_some] at h1 h2
  split at h1
  · cases h1
  · rename_i s3 cp1 evs1 hloop1
    cases h1
    split at h2
    · cases h2
    · rename_i s4 cp2 evs2 hloop2
      cases h2
      have hpro0s : ProtectedSet s start e (fun c => c = start ∨ c = e) := by
        constructor
        · intro c hcm
          rcases hcm with rfl | rfl
          · exact hstart
          · exact he
        · intro c hcm hcs hce
          rcases hcm with rfl | rfl
          · exact absurd rfl hcs
          · exact absurd rfl hce
      have hpro0t : ProtectedSet t start e (fun c => c = start ∨ c = e) :=
        protectedSet_congr hcf hcp hpro0s
      obtain ⟨invF1, hemp1, hev1⟩ := deadendLoop_spec s start e
        (fun c => c = start ∨ c = e) tm hpro0s fuel1 s s.cells
        (s3, cp1, evs1) rfl rfl
        (pruneInv_init s start e _ tm hstart) hloop1
      obtain ⟨invF2, hemp2, hev2⟩ := deadendLoop_spec t start e
        (fun c => c = start ∨ c = e) tmt hpro0t fuel2 t t.cells
        (s4, cp2, evs2) rfl rfl
        (pruneInv_init t start e _ tmt hstt) hloop2
      obtain ⟨_, hshape3, _⟩ :=
        deadendLoop_core start e fuel1 s s.cells (s3, cp1, evs1) hloop1
      obtain ⟨_, hshape4, _⟩ :=
        deadendLoop_core start e fuel2 t t.cells (s4, cp2, evs2) hloop2
      -- each run's survivors protect the other run
      have hproP1s := run_protected s start e cp1 tm invF1 hstart he hne hemp1
      have hproP2t := run_protected t start e cp2 tmt invF2 hstt het hne hemp2
      obtain ⟨invF2b, _, _⟩ := deadendLoop_spec t start e
        (fun c => InMaze s c ∧ ¬Marked cp1 c) tmt
        (protectedSet_congr hcf hcp hproP1s) fuel2 t t.cells
        (s4, cp2, evs2) rfl rfl
        (pruneInv_init t start e _ tmt hstt) hloop2
      obtain ⟨invF1b, _, _⟩ := deadendLoop_spec s start e
        (fun c => InMaze t c ∧ ¬Marked cp2 c) tm
        (protectedSet_congr hcf.symm hcp.symm hproP2t) fuel1 s s.cells
        (s3, cp1, evs1) rfl rfl
        (pruneInv_init s start e _ tm hstart) hloop1
      -- the two surviving sets coincide
      have hImst : ∀ c, InMaze t c ↔ InMaze s c := fun c => by
        unfold InMaze
        rw [hcf]
      have hsets : ∀ c, Inb s c →
          ((cp1 c &&& (NOTSOLUTION ||| HIDDEN) == 0) =
            (cp2 c &&& (NOTSOLUTION ||| HIDDEN) == 0)) := by
        intro c hInb
        have hInbt : Inb t c := by
          unfold Inb
          rw [hsh]
          exact hInb
        rw [Bool.eq_iff_iff,
          surv_char s start e _ tm cp1 invF1 c hInb,
          surv_char t start e _ tmt cp2 invF2 c hInbt]
        constructor
        · rintro ⟨hIm, hM⟩
          exact ⟨(hImst c).mpr hIm, invF2b.prot c ⟨hIm, hM⟩⟩
        · rintro ⟨hIm, hM⟩
          exact ⟨(hImst c).mp hIm, invF1b.prot c ⟨hIm, hM⟩⟩
      show solutionCells _ = solutionCells _
      rw [solutionCells_assemble evs1 hev1 _ s3 start e,
        solutionCells_assemble evs2 hev2 _ s4 start e,
        hshape3, hshape4, hsh]
      exact List.filter_congr fun c hcm =>
        hsets c ((mem_allCoords _ _).mp hcm)

theorem C6_amended_witness :
    ∃ sf ev r1 r2, wilsons_generate 8 sW1 = some (sf, ev) ∧
      deadend_solve 8 sf (some [0, 0]) (some [0, 1]) = some r1 ∧
      deadend_solve 9 { sf with rng := fun _ => 1 }
        (some [0, 0]) (some [0, 1]) = some r2 ∧
      solutionCells r1.2 = solutionCells r2.2 := by
  have h1 : (wilsons_generate 8 sW1).isSome = true := by decide
  obtain ⟨⟨sf, ev⟩, hw⟩ := Option.isSome_iff_exists.mp h1
  have h2 : (match wilsons_generate 8 sW1 with
      | some p => deadend_solve 8 p.1 (some [0, 0]) (some [0, 1])
      | none => none).isSome = true := by decide
  have h3 : (match wilsons_generate 8 sW1 with
      | some p => deadend_solve 9 { p.1 with rng := fun _ => 1 }
          (some [0, 0]) (some [0, 1])
      | none => none).isSome = true := by decide
  rw [hw] at h2 h3
  simp only [] at h2 h3
  obtain ⟨r1, hr1⟩ := Option.isSome_iff_exists.mp h2
  obtain ⟨r2, hr2⟩ := Option.isSome_iff_exists.mp h3
  have vc : ValidCompass sW1.shape sW1.compass := validCompass_orth2D _ rfl
  have hnhne : nhCells sW1 ≠ [] := by decide
  have tm := wilsons_generate_treemaze 8 sW1 sf ev vc hnhne hw
  obtain ⟨_, _, _, hcomp, _, _, _, _, _⟩ :=
    wilsons_generate_tree 8 sW1 sf ev vc hnhne hw
  have hstart : InMaze sf [0, 0] :=
    hcomp [0, 0] (by unfold Inb; decide) (by unfold Hid; decide)
  have he : InMaze sf [0, 1] :=
    hcomp [0, 1] (by unfold Inb; decide) (by unfold Hid; decide)
  exact ⟨sf, ev, r1, r2, hw, hr1, hr2,
    C6_amended 8 9 sf { sf with rng := fun _ => 1 } [0, 0] [0, 1] rfl
      (fun c => rfl) rfl tm hstart he (by decide) r1 r2 hr1 hr2⟩

end MazePy
